import Mathlib

/-!
# CriptoBitwise

A shallow embedding of `src/CriptoBitwise.js` (the class `xorshift128` and the class
`CriptoBitwise`) and theorems about it.

Conventions of the embedding.

* A JavaScript string is the list of its UTF-16 code units.
* A JavaScript number that holds an integer is an `Int`; `NaN` is `none` in `Option Int`.
  The 32-bit operators (`^`, `|`, `&`, `<<`, `>>>`, `Math.imul`) are defined through
  `ToUint32` / `ToInt32` exactly as ECMAScript does.
* A `BigInt` that is never negative is a `Nat`.
* A mutable object is passed in and returned: a generator call `g.next()` is
  `xorshift128.next g`, which returns the drawn value and the generator after the call.
* Arrays of bits hold only the numbers `0` and `1` in the source (`1 & _`, `_ & 1`,
  `Number("0")`, `Number("1")`, `push(0)`); they are lists of `Bool`.
* `Math.random` is a stream of bytes: `Math.floor(Math.random() * 256)` is an integer in
  `[0, 255]`, the `i`-th such draw of a run is `rnd i`.
-/

namespace Crypt

/-! ## JavaScript strings and 32-bit integer operators -/

/-- A UTF-16 code unit. -/
abbrev CodeUnit := Fin 65536

/-- A JavaScript string, as the list of its code units. -/
abbrev JSString := List CodeUnit

/-- The code unit with the given number, reduced modulo `2^16`. -/
def chr (n : Nat) : CodeUnit := ⟨n % 65536, Nat.mod_lt n (by decide)⟩

/-- ECMAScript `ToUint32` on an integer. -/
def toUint32 (a : Int) : Nat := (a % 4294967296).toNat

/-- ECMAScript `ToInt32` on an integer. -/
def toInt32 (a : Int) : Int :=
  if toUint32 a < 2147483648 then (toUint32 a : Int) else (toUint32 a : Int) - 4294967296

/-- JavaScript `a ^ b`. -/
def jsXor (a b : Int) : Int := toInt32 ((toUint32 a ^^^ toUint32 b : Nat) : Int)

/-- JavaScript `a | b`. -/
def jsOr (a b : Int) : Int := toInt32 ((toUint32 a ||| toUint32 b : Nat) : Int)

/-- JavaScript `a & b`. -/
def jsAnd (a b : Int) : Int := toInt32 ((toUint32 a &&& toUint32 b : Nat) : Int)

/-- JavaScript `a << s`. -/
def jsShl (a : Int) (s : Nat) : Int := toInt32 ((toUint32 a <<< (s % 32) : Nat) : Int)

/-- JavaScript `a >>> s`. -/
def jsShrU (a : Int) (s : Nat) : Int := ((toUint32 a >>> (s % 32) : Nat) : Int)

/-- JavaScript `a >> s`. -/
def jsShr (a : Int) (s : Nat) : Int := toInt32 a / (2 ^ (s % 32) : Nat)

/-- JavaScript `Math.imul(a, b)`. -/
def imul (a b : Int) : Int := toInt32 ((toUint32 a * toUint32 b : Nat) : Int)

/-- JavaScript `v || d` for a number `v` that is not `NaN`: `d` when `v` is zero. -/
def orDefault (v d : Int) : Int := if v = 0 then d else v

/-- The digit character of `Number.prototype.toString(radix)` for a digit value. -/
def digitChar (d : Nat) : CodeUnit := if d < 10 then chr (48 + d) else chr (87 + d)

/-- Digits of `n` in base `b`, least significant first; `fuel` bounds the number of digits. -/
def digitsRev (b : Nat) : Nat → Nat → List Nat
  | 0, _ => []
  | fuel + 1, n => if n < b then [n] else (n % b) :: digitsRev b fuel (n / b)

/-- `n.toString(b)` for a natural number `n` (`"0"` for zero). -/
def natToString (b n : Nat) : JSString := ((digitsRev b (n + 1) n).reverse).map digitChar

/-- `n.toString()` for an integer-valued number. -/
def intToString (v : Int) : JSString :=
  if v < 0 then chr 45 :: natToString 10 v.natAbs else natToString 10 v.toNat

/-- `s.padStart(len, c)` for a one-character pad string. -/
def padStart (len : Nat) (c : CodeUnit) (s : JSString) : JSString :=
  List.replicate (len - s.length) c ++ s

/-- `s.substring(i, j)` for `0 ≤ i ≤ j`. -/
def substring (s : JSString) (i j : Nat) : JSString := (s.drop i).take (j - i)

/-- ECMAScript white space and line terminators, as stripped by `parseInt`. -/
def isWhiteSpace (c : CodeUnit) : Bool :=
  c.val == 9 || c.val == 10 || c.val == 11 || c.val == 12 || c.val == 13 || c.val == 32 ||
  c.val == 160 || c.val == 5760 || (8192 ≤ c.val && c.val ≤ 8202) || c.val == 8232 ||
  c.val == 8233 || c.val == 8239 || c.val == 8287 || c.val == 12288 || c.val == 65279

/-- The value of a hexadecimal digit character, if it is one. -/
def hexDigitValue (c : CodeUnit) : Option Nat :=
  if 48 ≤ c.val ∧ c.val ≤ 57 then some (c.val - 48)
  else if 97 ≤ c.val ∧ c.val ≤ 102 then some (c.val - 87)
  else if 65 ≤ c.val ∧ c.val ≤ 70 then some (c.val - 55)
  else none

/-- The longest prefix of hexadecimal digits, as digit values. -/
def hexPrefix : JSString → List Nat
  | [] => []
  | c :: cs => match hexDigitValue c with
    | some d => d :: hexPrefix cs
    | none => []

/-- `parseInt(s, 16)`: leading white space is skipped, then an optional sign, then an
optional `0x` / `0X`, then the longest run of hexadecimal digits is read; `none` is `NaN`.
The value is exact below `2^53`; the program only parses strings of at most 8 characters. -/
def parseInt16 (s : JSString) : Option Int :=
  let s1 := s.dropWhile isWhiteSpace
  let neg := s1.head? == some (chr 45)
  let s2 := if s1.head? == some (chr 45) || s1.head? == some (chr 43) then s1.tail else s1
  let s3 := if s2.take 2 == [chr 48, chr 120] || s2.take 2 == [chr 48, chr 88]
    then s2.drop 2 else s2
  let ds := hexPrefix s3
  if ds = [] then none
  else
    let v : Nat := ds.foldl (fun acc d => acc * 16 + d) 0
    some (if neg then -(v : Int) else (v : Int))

/-- A lowercase hexadecimal digit character, `0`-`9` or `a`-`f`. -/
def isHexChar (c : CodeUnit) : Bool :=
  (48 ≤ c.val && c.val ≤ 57) || (97 ≤ c.val && c.val ≤ 102)

/-- An ASCII decimal digit character. -/
def isDecDigit (c : CodeUnit) : Bool := 48 ≤ c.val && c.val ≤ 57

/-- The value of a string of decimal digits. -/
def decimalValue (s : JSString) : Nat := s.foldl (fun acc c => acc * 10 + (c.val - 48)) 0

/-- The coercion `ToInt32(ToNumber(s))` that the 32-bit operators and `Number(s)` followed
by a 32-bit operator apply to a string operand. A non-empty string of decimal digits whose
value is below `2^53` is that number. Every other string (white space, signs, fractions,
exponents, hexadecimal, `Infinity`, rounding to a double, `NaN`) is left to `rt`, the
runtime's own conversion, which the theorems below quantify over. -/
def strToInt32 (rt : JSString → Int) (s : JSString) : Int :=
  if s ≠ [] ∧ s.all isDecDigit = true ∧ decimalValue s < 9007199254740992
  then toInt32 (decimalValue s) else toInt32 (rt s)

/-! ## The generator `xorshift128` -/

/-- The four state words of the class `xorshift128`, as the numbers the fields hold. -/
structure xorshift128 where
  x : Int
  y : Int
  z : Int
  w : Int
deriving DecidableEq

/-- The constructor `new xorshift128(seed1, seed2, seed3, seed4)`; a `NaN` seed is `none`
(`NaN >>> 0` and `NaN >> 0` are `0`). -/
def xorshift128.new (seed1 seed2 seed3 seed4 : Option Int) : xorshift128 :=
  { x := orDefault (jsShrU (seed1.getD 0) 0) 0xFFF212E
    y := orDefault (jsShr (seed2.getD 0) 0) 1234567
    z := orDefault (jsShr (seed3.getD 0) 0) 0xF93242FF
    w := orDefault (jsShr (seed4.getD 0) 0) 0xFEAA2 }

/-- The method `next()`: the value returned and the generator after the call. -/
def xorshift128.next (g : xorshift128) : Nat × xorshift128 :=
  let t := g.x
  let t := jsXor t (jsShl t 11)
  let t := jsShrU t 0
  let x := g.y
  let y := g.z
  let z := g.w
  let w := g.w
  let w := jsXor (jsXor w (jsShrU w 19)) (jsXor t (jsShrU t 8))
  let w := jsShrU w 0
  let nLa := jsShrU (w + y) 0
  let nLa := jsShrU (imul nLa 0x2545F491) 0
  let nLa := jsXor nLa (jsShrU nLa 16)
  (toUint32 (jsShrU nLa 0), { x := x, y := y, z := z, w := w })

/-- The generator after `n` calls of `next()` whose values are discarded. -/
def nextN : Nat → xorshift128 → xorshift128
  | 0, g => g
  | n + 1, g => nextN n g.next.2

/-- The concatenation of `(g.next() >>> 0).toString(16).padStart(8, "0")` for `n` calls,
and the generator after them. -/
def hexOutputs : Nat → xorshift128 → JSString × xorshift128
  | 0, g => ([], g)
  | n + 1, g =>
    let r := g.next
    let rest := hexOutputs n r.2
    (padStart 8 (chr 48) (natToString 16 (toUint32 (jsShrU r.1 0))) ++ rest.1, rest.2)

/-! ## Hashing, seeds, the authentication code and the comparison -/

/-- The body of the inner loop of `gerarNumero` for one character. -/
def gerarNumeroChar (hash : Nat) (c : CodeUnit) : Nat :=
  let hash := hash ^^^ c.val
  let hash := hash * 0x01000193
  let hash := (hash >>> 17) ^^^ hash
  let hash := (hash <<< 13) ^^^ hash
  hash &&& 0xFFFFFFFFFFFFFFFFFFFFFFFFFFFFFFFF

/-- One iteration of the outer loop of `gerarNumero`: the scan of the string and the
final mixing. -/
def gerarNumeroRound (str : JSString) (hash : Nat) : Nat :=
  let hash := str.foldl gerarNumeroChar hash
  let hash := hash ^^^ (hash >>> 32)
  let hash := hash ^^^ (hash <<< 13)
  hash &&& 0xFFFFFFFFFFFFFFFFFFFFFFFFFFFFFFFF

/-- The value of `hash` after `j` iterations of the outer loop of `gerarNumero`. -/
def gerarNumeroLoop (str : JSString) : Nat → Nat → Nat
  | 0, hash => hash
  | j + 1, hash => gerarNumeroLoop str j (gerarNumeroRound str hash)

/-- The 128-bit value `hash` that `gerarNumero` holds after an outer loop of `iters`
iterations. -/
def gerarNumeroDigest (iters : Nat) (str : JSString) : Nat :=
  gerarNumeroLoop str iters 0x811c9dc5

/-- The four seeds `gerarNumero` returns, for an outer loop of `iters` iterations. -/
def gerarNumeroIter (iters : Nat) (str : JSString) : List Nat :=
  let hash := gerarNumeroDigest iters str
  [hash &&& 0xFFFFFFFF, (hash >>> 32) &&& 0xFFFFFFFF, (hash >>> 64) &&& 0xFFFFFFFF,
   (hash >>> 96) &&& 0xFFFFFFFF]

/-- The method `gerarNumero(str)`: the outer loop runs 100000 times. -/
def gerarNumero (str : JSString) : List Nat := gerarNumeroIter 100000 str

/-- The generator `new xorshift128(seeds[0], seeds[1], seeds[2], seeds[3])`; a missing
entry is `undefined`, which the constructor treats as `NaN`. -/
def seedGenerator (seeds : List (Option Int)) : xorshift128 :=
  xorshift128.new ((seeds.get? 0).join) ((seeds.get? 1).join) ((seeds.get? 2).join)
    ((seeds.get? 3).join)

/-- The method `gerarHash(str)`. -/
def gerarHash (str : JSString) : JSString :=
  let seeds := gerarNumero str
  let xor := seedGenerator (seeds.map fun n => some (n : Int))
  let xor := nextN 50 xor
  (hexOutputs 32 xor).1

/-- The method `getSeedsByHex(hex)`. -/
def getSeedsByHex (hex : JSString) : List (Option Int) :=
  [parseInt16 (substring hex 0 8), parseInt16 (substring hex 8 16),
   parseInt16 (substring hex 16 24), parseInt16 (substring hex 24 32)]

/-- One iteration of the first loop of `gerarMAC`: the character is folded into the words
`x` and `y`, then `next()` is called and its value discarded. -/
def gerarMACStep (g : xorshift128) (c : CodeUnit) : xorshift128 :=
  let code : Int := (c.val : Int)
  let g := { g with x := jsXor g.x code }
  let g := { g with y := jsXor g.y (jsShl code 7) }
  g.next.2

/-- The method `gerarMAC(texto, senha)`. -/
def gerarMAC (texto senha : JSString) : JSString :=
  let hashSenha := gerarHash senha
  let seeds := getSeedsByHex (substring hashSenha 0 32)
  let xor128MAC := seedGenerator seeds
  let xor128MAC := texto.foldl gerarMACStep xor128MAC
  let xor128MAC := nextN 100 xor128MAC
  (hexOutputs 4 xor128MAC).1

/-- The method `gerarInitializationVector()`, drawing the bytes `rnd start`, ...,
`rnd (start + 15)`. -/
def gerarInitializationVector (rnd : Nat → Fin 256) (start : Nat) : JSString :=
  ((List.range 16).map fun i =>
    padStart 2 (chr 48) (natToString 16 (rnd (start + i)).val)).flatten

/-- The method `constantTimeCompare(str1, str2)`. In the loop `str1.charCodeAt(i)` is
in range, and `str2.charCodeAt(i) || 0` is `0` when `i` is past the end of `str2`. -/
def constantTimeCompare (rt : JSString → Int) (str1 str2 : JSString) : Bool :=
  let diff := jsXor (strToInt32 rt str1) (strToInt32 rt str2)
  let diff := if str1.length ≠ str2.length then 1 else diff
  let diff := (List.range str1.length).foldl
    (fun diff i => jsOr diff (jsXor ((str1.getD i 0).val : Int) ((str2.getD i 0).val : Int)))
    diff
  diff == 0

/-! ## The chained cipher -/

/-- The field `binType`, set to 8 by the constructor and never changed. -/
def binType : Nat := 8

/-- The method `rotacionarDireita(num, deslocar)`. -/
def rotacionarDireita (num : Int) (deslocar : Nat) : Int :=
  jsAnd (jsOr (jsShrU num (deslocar % binType)) (jsShl num (binType - deslocar % binType)))
    (2 ^ binType - 1)

/-- The method `rotacionarEsquerda(num, deslocar)`. -/
def rotacionarEsquerda (num : Int) (deslocar : Nat) : Int :=
  jsAnd (jsOr (jsShl num (deslocar % binType)) (jsShrU num (binType - deslocar % binType)))
    (2 ^ binType - 1)

/-- The loop of `criptR` from the character list on, with the current `previousBlock`. -/
def criptRLoop : JSString → Int → xorshift128 → List Int × xorshift128
  | [], _, generator => ([], generator)
  | c :: cs, previousBlock, generator =>
    let r1 := generator.next
    let randomXorKey : Int := (r1.1 : Int)
    let r2 := r1.2.next
    let rotationValue := r2.1 % binType + 1
    let tmp := rotacionarDireita (jsXor (c.val : Int) previousBlock) rotationValue
    let tmp := jsXor tmp (jsAnd (jsShrU randomXorKey 0) 0xFF)
    let rest := criptRLoop cs tmp r2.2
    (tmp :: rest.1, rest.2)

/-- The method `criptR(string, generator)`: the list of values and the generator after. -/
def criptR (string : JSString) (generator : xorshift128) : List Int × xorshift128 :=
  let r0 := generator.next
  criptRLoop string (jsAnd (r0.1 : Int) 0xFF) r0.2

/-- The loop of `uncriptR`. The elements of `arr` enter only through 32-bit operators
(`tmp ^= ...` after `Number(arr[i])`, and `tmp ^= previousBlock` with `previousBlock`
the element itself), so each is read through `toNum`, its `ToInt32` value. -/
def uncriptRLoop {α : Type} (toNum : α → Int) :
    List α → Int → xorshift128 → List Int × xorshift128
  | [], _, generator => ([], generator)
  | cifrado :: rest, previousBlock, generator =>
    let r1 := generator.next
    let randomXorKey : Int := (r1.1 : Int)
    let r2 := r1.2.next
    let rotationValue := r2.1 % binType + 1
    let tmp := toNum cifrado
    let tmp := jsXor tmp (jsAnd (jsShrU randomXorKey 0) 0xFF)
    let tmp := rotacionarEsquerda tmp rotationValue
    let tmp := jsXor tmp previousBlock
    let out := uncriptRLoop toNum rest (toNum cifrado) r2.2
    (tmp :: out.1, out.2)

/-- The method `uncriptR(arr, generator)`. -/
def uncriptR {α : Type} (toNum : α → Int) (arr : List α) (generator : xorshift128) :
    List Int × xorshift128 :=
  let r0 := generator.next
  uncriptRLoop toNum arr (jsAnd (r0.1 : Int) 0xFF) r0.2

/-! ## The bit obfuscation -/

/-- The first code unit of each code point of a string: what `letter.charCodeAt(0)` is
for the letters of `for (let letter of word)`, which takes a high surrogate followed by a
low surrogate as one letter. -/
def codePointUnits : JSString → List CodeUnit
  | [] => []
  | [a] => [a]
  | a :: b :: rest =>
    if 0xD800 ≤ a.val ∧ a.val ≤ 0xDBFF ∧ 0xDC00 ≤ b.val ∧ b.val ≤ 0xDFFF
    then a :: codePointUnits rest
    else a :: codePointUnits (b :: rest)

/-- The method `generate2DBinaryCode(word)`: bit `i` of the code, for `i` from 7 down
to 0. -/
def generate2DBinaryCode (word : JSString) : List (List Bool) :=
  (codePointUnits word).map fun letter =>
    ((List.range binType).reverse).map fun i => letter.val.testBit i

/-- The innermost loop of `insertTrash`: `m` bits `generator.next() & 1`. -/
def trashBits : Nat → xorshift128 → List Bool × xorshift128
  | 0, generator => ([], generator)
  | m + 1, generator =>
    let r := generator.next
    let rest := trashBits m r.2
    ((r.1 % 2 == 1) :: rest.1, rest.2)

/-- The loop of `insertTrash` over one row `bin[i]` of length `len`, from index `k` on. -/
def insertTrashRow (trashSize h len : Nat) :
    List Bool → Nat → xorshift128 → List Bool × xorshift128
  | [], _, generator => ([], generator)
  | b :: bs, k, generator =>
    if (k + 1) % h = 0 ∧ k ≠ len - 1 then
      let t := trashBits trashSize generator
      let rest := insertTrashRow trashSize h len bs (k + 1) t.2
      (b :: (t.1 ++ rest.1), rest.2)
    else
      let rest := insertTrashRow trashSize h len bs (k + 1) generator
      (b :: rest.1, rest.2)

/-- The outer loop of `insertTrash` over the rows. -/
def insertTrashRows (trashSize h : Nat) :
    List (List Bool) → xorshift128 → List (List Bool) × xorshift128
  | [], generator => ([], generator)
  | row :: rows, generator =>
    let r := insertTrashRow trashSize h row.length row 0 generator
    let rest := insertTrashRows trashSize h rows r.2
    (r.1 :: rest.1, rest.2)

/-- The method `insertTrash(word, h, generator)`, reading the field `trashSize`. -/
def insertTrash (trashSize : Nat) (word : JSString) (h : Nat) (generator : xorshift128) :
    List (List Bool) × xorshift128 :=
  insertTrashRows trashSize h (generate2DBinaryCode word) generator

/-- The method `flatten(arr)`. -/
def flatten {α : Type} (arr : List (List α)) : List α := arr.flatten

/-- The slices `arr.slice(i, i + n)` for `i = 0, n, 2n, ...` while `i < arr.length`
(`n ≥ 1`); `fuel` bounds the number of slices. -/
def slices {α : Type} (n : Nat) : Nat → List α → List (List α)
  | 0, _ => []
  | fuel + 1, arr =>
    match arr with
    | [] => []
    | a :: as => (a :: as).take n :: slices n fuel ((a :: as).drop n)

/-- The number `parseInt(bits.join(""), 2)` for a non-empty array of bits. -/
def bitsValue (bits : List Bool) : Nat := bits.foldl (fun acc b => 2 * acc + b.toNat) 0

/-- The first loop of `criptTrashToString`: zeros are pushed until the length is a
multiple of 8. -/
def padBits (arr : List Bool) : List Bool :=
  arr ++ List.replicate ((binType - arr.length % binType) % binType) false

/-- The method `criptTrashToString(arr)`. -/
def criptTrashToString (arr : List Bool) : JSString :=
  let arr := padBits arr
  ((slices binType arr.length arr).map fun group =>
    let add := natToString 16 (bitsValue group)
    if add.length < 2 then chr 48 :: add else add).flatten

/-- The method `criptT(word, trashing, generator)`. -/
def criptT (trashSize : Nat) (word : JSString) (trashing : Nat) (generator : xorshift128) :
    List Bool × xorshift128 :=
  let r := insertTrash trashSize word trashing generator
  (flatten r.1, r.2)

/-- The method `unflattenArrayWithTrash(arr, h)`, for `h ≥ 1`. -/
def unflattenArrayWithTrash (trashSize : Nat) (arr : List Bool) (h : Nat) :
    List (List Bool) :=
  slices (binType + trashSize * ((binType - 1) / h)) arr.length arr

/-- The `while` loop of `removeTrash` over one row, seen from `index` on: up to `h` bits
are kept, then `trashSize` positions are skipped. -/
def removeTrashRow (trashSize h : Nat) : Nat → List Bool → List Bool
  | 0, _ => []
  | fuel + 1, letter =>
    match letter with
    | [] => []
    | b :: bs => (b :: bs).take h ++ removeTrashRow trashSize h fuel (((b :: bs).drop h).drop trashSize)

/-- The method `removeTrash(arr, h)`, for `h ≥ 1`. -/
def removeTrash (trashSize : Nat) (arr : List (List Bool)) (h : Nat) : List (List Bool) :=
  arr.map fun letter => removeTrashRow trashSize h letter.length letter

/-- The method `uncriptT(arr, h)`. -/
def uncriptT (trashSize : Nat) (arr : List Bool) (h : Nat) : List Bool :=
  flatten (removeTrash trashSize (unflattenArrayWithTrash trashSize arr h) h)

/-- The method `getBin(num, bits)`: the characters `String((num >> i) & 1)` for `i` from
`bits - 1` down to 0; `NaN >> i` is `0`. -/
def getBin (num : Option Int) (bits : Nat) : JSString :=
  ((List.range bits).reverse).map fun i =>
    if jsAnd (jsShr (num.getD 0) i) 1 = 0 then chr 48 else chr 49

/-- The method `unHex(texto)`; `Number("1")` is `1` and `Number("0")` is `0`. -/
def unHex (texto : JSString) : List (List Bool) :=
  let a := slices 2 texto.length texto
  let bin := a.map fun piece => getBin (parseInt16 piece) 8
  bin.map fun str => str.map fun c => c == chr 49

/-- `String.fromCharCode(n)`: the code unit `ToUint16(n)`. -/
def fromCharCode (n : Int) : CodeUnit := chr (n % 65536).toNat

/-- The method `bitsToCharCode(arr)`. The first loop runs over the first
`arr.length - arr.length % 8` bits, pushes each into `a2` and moves `a2` to `a` whenever
it holds 8 bits, so `a` is that prefix cut into slices of 8. -/
def bitsToCharCode (arr : List Bool) : JSString :=
  let a := slices 8 arr.length (arr.take (arr.length - arr.length % 8))
  a.map fun a2 => fromCharCode (bitsValue a2)

/-- The method `arrNumberToString(arr)`. -/
def arrNumberToString (arr : List Int) : JSString := arr.map fromCharCode

/-- `s.split(sep)` for a one-character separator. -/
def split (sep : CodeUnit) : JSString → List JSString
  | [] => [[]]
  | c :: cs =>
    if c = sep then [] :: split sep cs
    else match split sep cs with
      | [] => [[c]]
      | f :: fs => (c :: f) :: fs

/-- `arr.join(sep)` for an array of strings and a one-character separator. -/
def join (sep : CodeUnit) : List JSString → JSString
  | [] => []
  | [s] => s
  | s :: t :: rest => s ++ sep :: join sep (t :: rest)

/-! ## The object state and the public methods -/

/-- The generator fields of a `CriptoBitwise` object once `startXorGenerators` has
assigned them. -/
structure Geradores where
  xor128Trashing : xorshift128
  trashing : Nat
  trashSize : Nat
  xor128Numbers : xorshift128
  xor128Rotation : xorshift128
  xor128Size : xorshift128
deriving DecidableEq

/-- The mutable fields of a `CriptoBitwise` object. The six generator fields are `null`
after the constructor (`geradores = none`) and are assigned together, by
`startXorGenerators` only. -/
structure CriptoBitwise where
  chaveEntrada : JSString
  geradores : Option Geradores
deriving DecidableEq

/-- The object `new CriptoBitwise()`. -/
def CriptoBitwise.new : CriptoBitwise := { chaveEntrada := [], geradores := none }

/-- The method `startXorGenerators(iv)`: the generator fields it assigns, from the field
`chaveEntrada` and the argument. -/
def startXorGenerators (chaveEntrada iv : JSString) : Geradores :=
  let hash := gerarHash (chaveEntrada ++ iv)
  let seedsTrashing := getSeedsByHex (substring hash 0 64)
  let xor128Trashing := (seedGenerator seedsTrashing).next
  let trashing := xor128Trashing.1 % 8 + 1
  let seedsNumbers := getSeedsByHex (substring hash 192 256)
  let xor128Numbers := seedGenerator seedsNumbers
  let seedsRotation := getSeedsByHex (substring hash 64 96)
  let xor128Rotation := seedGenerator seedsRotation
  let seedsSize := getSeedsByHex (substring hash 128 192)
  let xor128Size := (seedGenerator seedsSize).next
  let trashSize := xor128Size.1 % 8 + 1
  { xor128Trashing := xor128Trashing.2, trashing := trashing, trashSize := trashSize,
    xor128Numbers := xor128Numbers, xor128Rotation := xor128Rotation,
    xor128Size := xor128Size.2 }

/-- The method `criptAll(input)` on an object whose generators are assigned: the string
returned, and the generator fields after the call. -/
def criptAll (g : Geradores) (input : JSString) : JSString × Geradores :=
  let r := criptR input g.xor128Rotation
  let word := join (chr 44) (r.1.map intToString)
  let t := criptT g.trashSize word g.trashing g.xor128Numbers
  (criptTrashToString t.1, { g with xor128Rotation := r.2, xor128Numbers := t.2 })

/-- The method `uncriptAll(texto)` on an object whose generators are assigned. -/
def uncriptAll (rt : JSString → Int) (g : Geradores) (texto : JSString) :
    JSString × Geradores :=
  if texto = [] then ([], g)
  else
    let bits := uncriptT g.trashSize (flatten (unHex texto)) g.trashing
    let arr := split (chr 44) (bitsToCharCode bits)
    let r := uncriptR (strToInt32 rt) arr g.xor128Rotation
    (arrNumberToString r.1, { g with xor128Rotation := r.2 })

/-- The method `criptografar(message, chave)`: the envelope returned and the object after
the call. The three calls of `gerarInitializationVector` draw the bytes `rnd 0` to
`rnd 47`. -/
def criptografar (self : CriptoBitwise) (message chave : JSString) (rnd : Nat → Fin 256) :
    JSString × CriptoBitwise :=
  let self := { self with chaveEntrada := chave }
  let iv := gerarInitializationVector rnd 0 ++ gerarInitializationVector rnd 16 ++
    gerarInitializationVector rnd 32
  let g := startXorGenerators self.chaveEntrada iv
  let crypt := criptAll g message
  let mac := gerarMAC crypt.1 self.chaveEntrada
  let stringFinal := crypt.1 ++ chr 45 :: (mac ++ chr 45 :: iv)
  (stringFinal, { self with geradores := some crypt.2 })

/-- The two errors `descriptografar` throws: `formato` is
`Error("Formato inválido.")`, `autenticacao` is
`Error("Mensagem corrompida, adulterada ou chave incorreta.")`. -/
inductive Erro where
  | formato
  | autenticacao
deriving DecidableEq

/-- The method `descriptografar(textoCriptografado, chave)`: the string returned or the
error thrown, and the object after the call. -/
def descriptografar (rt : JSString → Int) (self : CriptoBitwise)
    (textoCriptografado chave : JSString) : Except Erro JSString × CriptoBitwise :=
  let self := { self with chaveEntrada := chave }
  match split (chr 45) textoCriptografado with
  | crypt :: macMessage :: iv :: _ =>
    let g := startXorGenerators self.chaveEntrada iv
    let self := { self with geradores := some g }
    let macEsperado := gerarMAC crypt self.chaveEntrada
    if !constantTimeCompare rt macEsperado macMessage then
      (Except.error Erro.autenticacao, self)
    else
      let r := uncriptAll rt g crypt
      (Except.ok r.1, { self with geradores := some r.2 })
  | _ => (Except.error Erro.formato, self)

/-! ## Instrumented and factored forms of the methods -/

/-- The `for` loop of `constantTimeCompare` with a counter of the iterations it runs: from
index `i` with the accumulator `diff`, after `steps` iterations. The loop has one exit, its
condition `i < str1.length`; `fuel` bounds the number of iterations. -/
def compareLoop (str1 str2 : JSString) : Nat → Nat → Int → Nat → Int × Nat
  | 0, _, diff, steps => (diff, steps)
  | fuel + 1, i, diff, steps =>
    if i < str1.length then
      compareLoop str1 str2 fuel (i + 1)
        (jsOr diff (jsXor ((str1.getD i 0).val : Int) ((str2.getD i 0).val : Int))) (steps + 1)
    else (diff, steps)

/-- The method `constantTimeCompare(str1, str2)` with the number of loop iterations it
executed. -/
def constantTimeCompareSteps (rt : JSString → Int) (str1 str2 : JSString) : Bool × Nat :=
  let diff := jsXor (strToInt32 rt str1) (strToInt32 rt str2)
  let diff := if str1.length ≠ str2.length then 1 else diff
  let r := compareLoop str1 str2 str1.length 0 diff 0
  (r.1 == 0, r.2)

/-- The body of `startXorGenerators(iv)` from its second line on, once `hash` holds
`gerarHash(chaveEntrada + iv)`. -/
def startXorGeneratorsOfHash (hash : JSString) : Geradores :=
  let seedsTrashing := getSeedsByHex (substring hash 0 64)
  let xor128Trashing := (seedGenerator seedsTrashing).next
  let trashing := xor128Trashing.1 % 8 + 1
  let seedsNumbers := getSeedsByHex (substring hash 192 256)
  let xor128Numbers := seedGenerator seedsNumbers
  let seedsRotation := getSeedsByHex (substring hash 64 96)
  let xor128Rotation := seedGenerator seedsRotation
  let seedsSize := getSeedsByHex (substring hash 128 192)
  let xor128Size := (seedGenerator seedsSize).next
  let trashSize := xor128Size.1 % 8 + 1
  { xor128Trashing := xor128Trashing.2, trashing := trashing, trashSize := trashSize,
    xor128Numbers := xor128Numbers, xor128Rotation := xor128Rotation,
    xor128Size := xor128Size.2 }

/-- The values of the first `n` calls of `next()`, in order. -/
def outputs : Nat → xorshift128 → List Nat
  | 0, _ => []
  | n + 1, g => g.next.1 :: outputs n g.next.2

/-! ## The class `DiffieHellman` (`src/diffieHellman.js`) -/

/-- The method `modPow(x, n, m)` on `BigInt`s that are not negative, for `m ≥ 1` (the
operator `%` throws on `0n`). -/
def DiffieHellman.modPow (x n m : Nat) : Nat :=
  if n = 0 then 1
  else if n &&& 1 = 0 then (DiffieHellman.modPow ((x * x) % m) (n >>> 1) m) % m
  else (x * DiffieHellman.modPow ((x * x) % m) ((n - 1) >>> 1) m) % m
termination_by n
decreasing_by
  all_goals simp_wf
  · rw [Nat.shiftRight_eq_div_pow]; omega
  · rw [Nat.shiftRight_eq_div_pow]; omega

/-- The field `primo` set by the constructor. -/
def DiffieHellman.primo : Nat :=
  0xFFFFFFFFFFFFFFFFC90FDAA22168C234C4C6628B80DC1CD129024E088A67CC74020BBEA63B139B22514A08798E3404DDEF9519B3CD3A431B302B0A6DF25F14374FE1356D6D51C245E485B576625E7EC6F44C42E9A637ED6B0BFF5CB6F406B7EDEE386BFB5A899FA5AE9F24117C4B1FE649286651ECE45B3DC2007CB8A163BF0598DA48361C55D39A69163FA8FD24CF5F83655D23DCA3AD961C62F356208552BB9ED529077096966D670C354E4ABC9804F1746C08CA18217C32905E462E36CE3BE39E772C180E86039B2783A2EC07A28FB5C55DF06F4C52C9DE2BCBF6955817183995497CEA956AE515D2261898FA051015728E5A8AACAA68FFFFFFFFFFFFFFFF

/-- The field `gerador` set by the constructor. -/
def DiffieHellman.gerador : Nat := 2

/-- The value `generatePublicKey()` stores in `publicKey`, for the field `secureKey`. -/
def DiffieHellman.generatePublicKey (secureKey : Nat) : Nat :=
  DiffieHellman.modPow DiffieHellman.gerador secureKey DiffieHellman.primo

/-- The value `mutualSecret(otherPublicKey)` stores in `mutualValue`, for the field
`secureKey`. -/
def DiffieHellman.mutualSecret (secureKey otherPublicKey : Nat) : Nat :=
  DiffieHellman.modPow otherPublicKey secureKey DiffieHellman.primo

/-! ## Procedures written from the specification, to compare the code with -/

/-- The step of the generator as the specification words it, on four words in
`[0, 2^32)`: `t = x ^ (x << 11)` wrapped to 32 bits, the state becomes `(y, z, w, w')` with
`w' = (w ^ (w >> 19)) ^ (t ^ (t >> 8))`, and the value is `m ^ (m >> 16)` for
`m = ((w' + z) * 0x2545F491) mod 2^32`, `z` being the word that now sits in `y`. -/
def nextReference (x y z w : Nat) : Nat × (Nat × Nat × Nat × Nat) :=
  let t := (x ^^^ (x <<< 11)) % 4294967296
  let w' := (w ^^^ (w >>> 19)) ^^^ (t ^^^ (t >>> 8))
  let m := ((w' + z) * 0x2545F491) % 4294967296
  (m ^^^ (m >>> 16), (y, z, w, w'))

/-- One row after trash insertion as the specification words it: the bits are copied in
order, and after every `h`-th bit, never after the row's final bit, `trashSize` fresh bits
are appended, each the low bit of a call of `next()`. `fuel` bounds the number of groups. -/
def insertTrashReference (trashSize h : Nat) :
    Nat → List Bool → xorshift128 → List Bool × xorshift128
  | 0, row, generator => (row, generator)
  | fuel + 1, row, generator =>
    if row.length ≤ h then (row, generator)
    else
      let t := trashBits trashSize generator
      let rest := insertTrashReference trashSize h fuel (row.drop h) t.2
      (row.take h ++ t.1 ++ rest.1, rest.2)

/-- The step of `mix` for one character as the specification words it: XOR the code point
into the state, multiply by the FNV prime at full width, then the two XOR-shift steps
(right-shift-17, then left-shift-13), with a mask to 128 bits after each of the two. -/
def mixCharReference (state : Nat) (c : CodeUnit) : Nat :=
  let state := state ^^^ c.val
  let state := state * 0x01000193
  let state := (state ^^^ (state >>> 17)) % 2 ^ 128
  (state ^^^ (state <<< 13)) % 2 ^ 128

/-- One outer iteration of `mix` as the specification words it: the scan of the whole
string, then one more XOR-shift pass (right-32, left-13) and a mask to 128 bits. -/
def mixRoundReference (str : JSString) (state : Nat) : Nat :=
  let state := str.foldl mixCharReference state
  let state := state ^^^ (state >>> 32)
  let state := state ^^^ (state <<< 13)
  state % 2 ^ 128

/-- The state of `mix` as the specification words it, after `j` outer iterations. -/
def mixReference (str : JSString) : Nat → Nat → Nat
  | 0, state => state
  | j + 1, state => mixReference str j (mixRoundReference str state)

/-- The four 32-bit words of a digest, from low to high. -/
def digestWords (digest : Nat) : List Nat :=
  [digest % 2 ^ 32, digest / 2 ^ 32 % 2 ^ 32, digest / 2 ^ 64 % 2 ^ 32,
   digest / 2 ^ 96 % 2 ^ 32]

/-! ## Auxiliary notions used in the statements and proofs -/

/-- An integer in `[0, 255]`. -/
def isByte (v : Int) : Prop := 0 ≤ v ∧ v < 256

/-- A word modulo `2^32`. -/
abbrev Word : Type := Fin 4294967296

/-- The generator whose fields hold the four given words. -/
def xorshift128.ofWords (s : Word × Word × Word × Word) : xorshift128 :=
  { x := (s.1.val : Int), y := (s.2.1.val : Int), z := (s.2.2.1.val : Int),
    w := (s.2.2.2.val : Int) }

/-- The state of a generator viewed as four words modulo `2^32`. -/
def xorshift128.words (g : xorshift128) : Word × Word × Word × Word :=
  (⟨toUint32 g.x, by unfold toUint32; omega⟩, ⟨toUint32 g.y, by unfold toUint32; omega⟩,
   ⟨toUint32 g.z, by unfold toUint32; omega⟩, ⟨toUint32 g.w, by unfold toUint32; omega⟩)

/-- The state transition of `next()` on 128-bit states: the words of the generator after
one call, from the words before it. -/
def nextWords (s : Word × Word × Word × Word) : Word × Word × Word × Word :=
  (xorshift128.ofWords s).next.2.words

/-- The number a string of hexadecimal digits denotes. -/
def hexValue (s : JSString) : Nat :=
  s.foldl (fun acc c => acc * 16 + (hexDigitValue c).getD 0) 0

/-- The 32 characters of `hash` from index `a` on are read by `getSeedsByHex` as four
words below `2^32`, 8 hexadecimal characters each, in order. -/
def WindowSeeds (hash : JSString) (a : Nat) : Prop :=
  getSeedsByHex (substring hash a (a + 32)) =
      [some (hexValue (substring hash a (a + 8)) : Int),
       some (hexValue (substring hash (a + 8) (a + 16)) : Int),
       some (hexValue (substring hash (a + 16) (a + 24)) : Int),
       some (hexValue (substring hash (a + 24) (a + 32)) : Int)] ∧
    hexValue (substring hash a (a + 8)) < 4294967296 ∧
    hexValue (substring hash (a + 8) (a + 16)) < 4294967296 ∧
    hexValue (substring hash (a + 16) (a + 24)) < 4294967296 ∧
    hexValue (substring hash (a + 24) (a + 32)) < 4294967296

/-- The salt `criptografar` builds from the random bytes `rnd 0` to `rnd 47`: its three
calls of `gerarInitializationVector`, concatenated. -/
def salt (rnd : Nat → Fin 256) : JSString :=
  gerarInitializationVector rnd 0 ++ gerarInitializationVector rnd 16 ++
    gerarInitializationVector rnd 32

end Crypt

/-! ## Facts about the 32-bit operators -/

namespace Crypt

theorem toUint32_lt (a : Int) : toUint32 a < 4294967296 := by
  unfold toUint32; omega

theorem toUint32_natCast (n : Nat) : toUint32 (n : Int) = n % 4294967296 := by
  unfold toUint32; omega

theorem toUint32_toInt32 (a : Int) : toUint32 (toInt32 a) = toUint32 a := by
  have h := toUint32_lt a
  unfold toInt32
  split
  · rw [toUint32_natCast]; omega
  · generalize toUint32 a = u at *
    unfold toUint32; omega

theorem toInt32_eq_zero (a : Int) : toInt32 a = 0 ↔ toUint32 a = 0 := by
  have h := toUint32_lt a
  unfold toInt32
  split <;> omega

theorem toInt32_toInt32 (a : Int) : toInt32 (toInt32 a) = toInt32 a := by
  rw [toInt32, toUint32_toInt32]
  rfl

theorem nat_or_eq_zero (a b : Nat) : a ||| b = 0 ↔ a = 0 ∧ b = 0 := by
  constructor
  · intro h
    constructor
    · apply Nat.eq_of_testBit_eq; intro i
      have := congrArg (fun n => Nat.testBit n i) h
      simp only [Nat.testBit_or, Nat.zero_testBit, Bool.or_eq_false_iff] at this
      simp [this.1]
    · apply Nat.eq_of_testBit_eq; intro i
      have := congrArg (fun n => Nat.testBit n i) h
      simp only [Nat.testBit_or, Nat.zero_testBit, Bool.or_eq_false_iff] at this
      simp [this.2]
  · rintro ⟨rfl, rfl⟩; rfl

theorem toUint32_jsOr (a b : Int) : toUint32 (jsOr a b) = toUint32 a ||| toUint32 b := by
  unfold jsOr
  rw [toUint32_toInt32, toUint32_natCast]
  have : toUint32 a ||| toUint32 b < 2 ^ 32 :=
    Nat.or_lt_two_pow (toUint32_lt a) (toUint32_lt b)
  exact Nat.mod_eq_of_lt (by simpa using this)

theorem toUint32_jsXor (a b : Int) : toUint32 (jsXor a b) = toUint32 a ^^^ toUint32 b := by
  unfold jsXor
  rw [toUint32_toInt32, toUint32_natCast]
  have : toUint32 a ^^^ toUint32 b < 2 ^ 32 :=
    Nat.xor_lt_two_pow (toUint32_lt a) (toUint32_lt b)
  exact Nat.mod_eq_of_lt (by simpa using this)

theorem toUint32_jsAnd (a b : Int) : toUint32 (jsAnd a b) = toUint32 a &&& toUint32 b := by
  unfold jsAnd
  rw [toUint32_toInt32, toUint32_natCast]
  have : toUint32 a &&& toUint32 b < 2 ^ 32 :=
    Nat.and_lt_two_pow _ (toUint32_lt b)
  exact Nat.mod_eq_of_lt (by simpa using this)

theorem toUint32_codeXor (c d : CodeUnit) :
    toUint32 (jsXor (c.val : Int) (d.val : Int)) = 0 ↔ c = d := by
  rw [toUint32_jsXor, toUint32_natCast, toUint32_natCast, Nat.xor_eq_zero]
  have hc := c.isLt
  have hd := d.isLt
  rw [Nat.mod_eq_of_lt (by omega), Nat.mod_eq_of_lt (by omega)]
  exact ⟨fun h => Fin.ext h, fun h => by rw [h]⟩

theorem foldl_jsOr_toUint32 (f : Nat → Int) (l : List Nat) (d : Int) :
    toUint32 (l.foldl (fun diff i => jsOr diff (f i)) d) = 0 ↔
      toUint32 d = 0 ∧ ∀ i ∈ l, toUint32 (f i) = 0 := by
  induction l generalizing d with
  | nil => simp
  | cons i l ih =>
    rw [List.foldl_cons, ih, toUint32_jsOr, nat_or_eq_zero]
    simp only [List.mem_cons, forall_eq_or_imp]
    tauto

theorem foldl_jsOr_toInt32 (f : Nat → Int) (l : List Nat) (d : Int) (hd : toInt32 d = d) :
    toInt32 (l.foldl (fun diff i => jsOr diff (f i)) d) =
      l.foldl (fun diff i => jsOr diff (f i)) d := by
  induction l generalizing d with
  | nil => simpa using hd
  | cons i l ih =>
    rw [List.foldl_cons]
    exact ih _ (by unfold jsOr; rw [toInt32_toInt32])

theorem constantTimeCompare_eq_true_iff (rt : JSString → Int) (a b : JSString) :
    constantTimeCompare rt a b = true ↔ a = b := by
  unfold constantTimeCompare
  dsimp only
  rw [beq_iff_eq]
  set d0 : Int := if a.length ≠ b.length then 1
    else jsXor (strToInt32 rt a) (strToInt32 rt b) with hd0
  have hd0r : toInt32 d0 = d0 := by
    rw [hd0]; split
    · decide
    · unfold jsXor; rw [toInt32_toInt32]
  rw [← foldl_jsOr_toInt32 _ _ d0 hd0r, toInt32_eq_zero, foldl_jsOr_toUint32]
  constructor
  · rintro ⟨h0, hall⟩
    by_cases hlen : a.length = b.length
    · apply List.ext_getElem hlen
      intro n h1 h2
      have := hall n (List.mem_range.mpr h1)
      rw [toUint32_codeXor, List.getD_eq_getElem _ _ h1, List.getD_eq_getElem _ _ h2] at this
      exact this
    · rw [hd0, if_pos hlen] at h0
      exact absurd h0 (by decide)
  · rintro rfl
    refine ⟨?_, fun i _ => (toUint32_codeXor _ _).mpr rfl⟩
    rw [hd0, if_neg (by simp), toUint32_jsXor, Nat.xor_self]

end Crypt

/-! ## Facts about number formatting and splitting -/

namespace Crypt

theorem digitsRev_lt (b : Nat) (hb : 0 < b) (fuel n : Nat) :
    ∀ d ∈ digitsRev b fuel n, d < b := by
  induction fuel generalizing n with
  | zero => simp [digitsRev]
  | succ fuel ih =>
    intro d hd
    unfold digitsRev at hd
    split at hd
    · simp only [List.mem_singleton] at hd; omega
    · simp only [List.mem_cons] at hd
      rcases hd with rfl | hd
      · exact Nat.mod_lt _ hb
      · exact ih _ d hd

theorem digitsRev_length_le (b : Nat) (hb : 2 ≤ b) (fuel n k : Nat) (hn : n < b ^ (k + 1)) :
    (digitsRev b fuel n).length ≤ k + 1 := by
  induction fuel generalizing n k with
  | zero => simp [digitsRev]
  | succ fuel ih =>
    unfold digitsRev
    split
    · simp
    · rename_i hnb
      cases k with
      | zero => simp at hn; omega
      | succ k =>
        simp only [List.length_cons, Nat.add_le_add_iff_right]
        apply ih
        rw [Nat.div_lt_iff_lt_mul (by omega)]
        rw [pow_succ] at hn
        exact hn

theorem digitsRev_length_pos (b fuel n : Nat) : 0 < (digitsRev b (fuel + 1) n).length := by
  unfold digitsRev
  split <;> simp

theorem isHexChar_digitChar (d : Nat) (hd : d < 16) : isHexChar (digitChar d) = true := by
  revert d
  decide

theorem natToString_hex (n : Nat) : ∀ c ∈ natToString 16 n, isHexChar c = true := by
  intro c hc
  unfold natToString at hc
  simp only [List.mem_map, List.mem_reverse] at hc
  obtain ⟨d, hd, rfl⟩ := hc
  exact isHexChar_digitChar d (digitsRev_lt 16 (by decide) _ _ d hd)

theorem natToString_length_le (n k : Nat) (hn : n < 16 ^ (k + 1)) :
    (natToString 16 n).length ≤ k + 1 := by
  unfold natToString
  simp only [List.length_map, List.length_reverse]
  exact digitsRev_length_le 16 (by decide) _ _ _ hn

theorem natToString_length_pos (b n : Nat) : 0 < (natToString b n).length := by
  unfold natToString
  simp only [List.length_map, List.length_reverse]
  exact digitsRev_length_pos b n n

theorem padStart_length (len : Nat) (c : CodeUnit) (s : JSString) (h : s.length ≤ len) :
    (padStart len c s).length = len := by
  unfold padStart
  simp only [List.length_append, List.length_replicate]
  omega

theorem padStart_hex (len : Nat) (s : JSString) (h : ∀ c ∈ s, isHexChar c = true) :
    ∀ c ∈ padStart len (chr 48) s, isHexChar c = true := by
  intro c hc
  unfold padStart at hc
  simp only [List.mem_append, List.mem_replicate] at hc
  rcases hc with ⟨_, rfl⟩ | hc
  · decide
  · exact h c hc

theorem hexOutputs_length (n : Nat) (g : xorshift128) : (hexOutputs n g).1.length = 8 * n := by
  induction n generalizing g with
  | zero => simp [hexOutputs]
  | succ n ih =>
    unfold hexOutputs
    simp only [List.length_append, ih]
    rw [padStart_length]
    · omega
    · apply natToString_length_le _ 7
      exact toUint32_lt _

theorem hexOutputs_hex (n : Nat) (g : xorshift128) :
    ∀ c ∈ (hexOutputs n g).1, isHexChar c = true := by
  induction n generalizing g with
  | zero => simp [hexOutputs]
  | succ n ih =>
    intro c hc
    unfold hexOutputs at hc
    simp only [List.mem_append] at hc
    rcases hc with hc | hc
    · exact padStart_hex 8 _ (natToString_hex _) c hc
    · exact ih _ c hc

theorem gerarMAC_length (texto senha : JSString) : (gerarMAC texto senha).length = 32 := by
  unfold gerarMAC
  exact hexOutputs_length 4 _

theorem gerarMAC_hex (texto senha : JSString) :
    ∀ c ∈ gerarMAC texto senha, isHexChar c = true := by
  unfold gerarMAC
  exact hexOutputs_hex 4 _

theorem gerarHash_length (str : JSString) : (gerarHash str).length = 256 := by
  unfold gerarHash
  exact hexOutputs_length 32 _

theorem gerarInitializationVector_length (rnd : Nat → Fin 256) (start : Nat) :
    (gerarInitializationVector rnd start).length = 32 := by
  unfold gerarInitializationVector
  rw [List.length_flatten]
  have : ∀ l : List Nat, (List.map List.length (List.map (fun i =>
      padStart 2 (chr 48) (natToString 16 (rnd (start + i)).val)) l)).sum = 2 * l.length := by
    intro l
    induction l with
    | nil => rfl
    | cons i l ih =>
      simp only [List.map_cons, List.sum_cons, List.length_cons, ih]
      rw [padStart_length]
      · omega
      · apply natToString_length_le _ 1
        have := (rnd (start + i)).isLt
        omega
  rw [this]
  simp

theorem gerarInitializationVector_hex (rnd : Nat → Fin 256) (start : Nat) :
    ∀ c ∈ gerarInitializationVector rnd start, isHexChar c = true := by
  intro c hc
  unfold gerarInitializationVector at hc
  simp only [List.mem_flatten, List.mem_map, List.mem_range] at hc
  obtain ⟨l, ⟨i, _, rfl⟩, hc⟩ := hc
  exact padStart_hex 2 _ (natToString_hex _) c hc

theorem split_of_not_mem (sep : CodeUnit) (s : JSString) (h : sep ∉ s) :
    split sep s = [s] := by
  induction s with
  | nil => rfl
  | cons c cs ih =>
    simp only [List.mem_cons, not_or] at h
    unfold split
    rw [if_neg (fun e => h.1 e.symm), ih h.2]

theorem split_append_sep (sep : CodeUnit) (s t : JSString) (h : sep ∉ s) :
    split sep (s ++ sep :: t) = s :: split sep t := by
  induction s with
  | nil => simp [split]
  | cons c cs ih =>
    simp only [List.mem_cons, not_or] at h
    rw [List.cons_append, split, if_neg (fun e => h.1 e.symm), ih h.2]

theorem split_ne_nil (sep : CodeUnit) (s : JSString) : split sep s ≠ [] := by
  cases s with
  | nil => simp [split]
  | cons c cs =>
    unfold split
    split
    · simp
    · split <;> simp

theorem not_mem_of_hex (sep : CodeUnit) (hsep : isHexChar sep = false) (s : JSString)
    (h : ∀ c ∈ s, isHexChar c = true) : sep ∉ s := by
  intro hmem
  have := h sep hmem
  rw [hsep] at this
  exact absurd this (by decide)

end Crypt

/-! ## The checks of `descriptografar` -/

namespace Crypt

theorem split_length (sep : CodeUnit) (s : JSString) :
    (split sep s).length = s.count sep + 1 := by
  induction s with
  | nil => rfl
  | cons c cs ih =>
    unfold split
    by_cases h : c = sep
    · subst h
      simp [ih]
    · rw [if_neg h, List.count_cons_of_ne (fun e => h e.symm)]
      split
      · rename_i heq; rw [heq] at ih; simp at ih
      · rename_i f fs heq; rw [heq] at ih; simpa using ih

theorem descriptografar_of_split (rt : JSString → Int) (self : CriptoBitwise)
    (env chave c t s : JSString) (rest : List JSString)
    (hsplit : split (chr 45) env = c :: t :: s :: rest) :
    descriptografar rt self env chave =
      if constantTimeCompare rt (gerarMAC c chave) t = true then
        (Except.ok (uncriptAll rt (startXorGenerators chave s) c).1,
          { chaveEntrada := chave,
            geradores := some (uncriptAll rt (startXorGenerators chave s) c).2 })
      else
        (Except.error Erro.autenticacao,
          { chaveEntrada := chave, geradores := some (startXorGenerators chave s) }) := by
  unfold descriptografar
  simp only [hsplit]
  cases constantTimeCompare rt (gerarMAC c chave) t <;> simp

theorem descriptografar_of_short (rt : JSString → Int) (self : CriptoBitwise)
    (env chave : JSString) (h : (split (chr 45) env).length < 3) :
    descriptografar rt self env chave =
      (Except.error Erro.formato, { self with chaveEntrada := chave }) := by
  unfold descriptografar
  split
  · rename_i heq; rw [heq] at h; simp at h; omega
  · rfl

theorem descriptografar_reject (rt : JSString → Int) (self : CriptoBitwise)
    (env chave c t s : JSString) (rest : List JSString)
    (hsplit : split (chr 45) env = c :: t :: s :: rest) (ht : t ≠ gerarMAC c chave) :
    descriptografar rt self env chave =
      (Except.error Erro.autenticacao,
        { chaveEntrada := chave, geradores := some (startXorGenerators chave s) }) := by
  rw [descriptografar_of_split rt self env chave c t s rest hsplit, if_neg]
  rw [constantTimeCompare_eq_true_iff]
  exact fun e => ht e.symm

theorem descriptografar_accept (rt : JSString → Int) (self : CriptoBitwise)
    (env chave c s : JSString) (rest : List JSString)
    (hsplit : split (chr 45) env = c :: gerarMAC c chave :: s :: rest) :
    descriptografar rt self env chave =
      (Except.ok (uncriptAll rt (startXorGenerators chave s) c).1,
        { chaveEntrada := chave,
          geradores := some (uncriptAll rt (startXorGenerators chave s) c).2 }) := by
  rw [descriptografar_of_split rt self env chave c _ s rest hsplit, if_pos]
  rw [constantTimeCompare_eq_true_iff]

/-- The first field of `t ++ "-" ++ s` is `t` itself or is shorter than `t`, and at
least one more field follows it. -/
theorem split_field (sep : CodeUnit) (t s : JSString) :
    ∃ f r rest, split sep (t ++ sep :: s) = f :: r :: rest ∧
      (f = t ∨ f.length < t.length) := by
  induction t with
  | nil =>
    obtain ⟨r, rest, h⟩ := List.exists_cons_of_ne_nil (split_ne_nil sep s)
    exact ⟨[], r, rest, by simp [split, h], Or.inl rfl⟩
  | cons c cs ih =>
    obtain ⟨f, r, rest, h, hf⟩ := ih
    by_cases hc : c = sep
    · subst hc
      exact ⟨[], f, r :: rest, by rw [List.cons_append, split, if_pos rfl, h],
        Or.inr (by simp)⟩
    · refine ⟨c :: f, r, rest, by rw [List.cons_append, split, if_neg hc, h], ?_⟩
      rcases hf with rfl | hf
      · exact Or.inl rfl
      · exact Or.inr (by simpa using hf)

theorem descriptografar_tag_changed (rt : JSString → Int) (self : CriptoBitwise)
    (chave c s : JSString) (i : Nat) (ch : CodeUnit) (hc : chr 45 ∉ c) (hi : i < 32)
    (hch : ch ≠ (gerarMAC c chave).getD i 0) :
    (descriptografar rt self (c ++ chr 45 :: ((gerarMAC c chave).set i ch ++ chr 45 :: s))
      chave).1 = Except.error Erro.autenticacao := by
  have hlen := gerarMAC_length c chave
  obtain ⟨f, r, rest, h, hf⟩ := split_field (chr 45) ((gerarMAC c chave).set i ch) s
  have hsplit := split_append_sep (chr 45) c
    ((gerarMAC c chave).set i ch ++ chr 45 :: s) hc
  rw [h] at hsplit
  rw [descriptografar_reject rt self _ chave c f r rest hsplit]
  rcases hf with rfl | hf
  · intro e
    have := congrArg (fun l => l.getD i 0) e
    simp only [List.getD_eq_getElem?_getD] at this hch
    rw [List.getElem?_set_self (by omega)] at this
    simp only [Option.getD_some] at this
    exact hch this
  · intro e
    rw [e, List.length_set] at hf
    omega

end Crypt

/-! ## The chained cipher is undone by `uncriptR` -/

namespace Crypt

theorem toInt32_natCast_small (n : Nat) (h : n < 2147483648) : toInt32 (n : Int) = n := by
  unfold toInt32
  rw [toUint32_natCast, Nat.mod_eq_of_lt (by omega), if_pos h]

theorem toInt32_of_isByte (v : Int) (h : isByte v) : toInt32 v = v := by
  obtain ⟨h0, h1⟩ := h
  obtain ⟨n, rfl⟩ := Int.eq_ofNat_of_zero_le h0
  exact toInt32_natCast_small n (by omega)

theorem toUint32_of_isByte (v : Int) (h : isByte v) : (toUint32 v : Int) = v ∧ toUint32 v < 256 := by
  obtain ⟨h0, h1⟩ := h
  unfold toUint32
  omega

theorem isByte_jsAnd_255 (a : Int) : isByte (jsAnd a 255) := by
  unfold jsAnd
  have h : toUint32 a &&& toUint32 255 < 2 ^ 8 := Nat.and_lt_two_pow _ (by decide)
  rw [toInt32_natCast_small _ (by omega)]
  unfold isByte
  omega

theorem rot_mask : (2 ^ binType - 1 : Int) = 255 := by decide

theorem isByte_rotacionarDireita (a : Int) (r : Nat) : isByte (rotacionarDireita a r) := by
  unfold rotacionarDireita
  rw [rot_mask]
  exact isByte_jsAnd_255 _

theorem isByte_rotacionarEsquerda (a : Int) (r : Nat) : isByte (rotacionarEsquerda a r) := by
  unfold rotacionarEsquerda
  rw [rot_mask]
  exact isByte_jsAnd_255 _

theorem isByte_jsXor (a b : Int) (ha : isByte a) (hb : isByte b) : isByte (jsXor a b) := by
  unfold jsXor
  have h : toUint32 a ^^^ toUint32 b < 2 ^ 8 :=
    Nat.xor_lt_two_pow (toUint32_of_isByte a ha).2 (toUint32_of_isByte b hb).2
  rw [toInt32_natCast_small _ (by omega)]
  unfold isByte
  omega

theorem jsXor_cancel (a b : Int) : jsXor (jsXor a b) b = toInt32 a := by
  have h : toUint32 (jsXor (jsXor a b) b) = toUint32 a := by
    rw [toUint32_jsXor, toUint32_jsXor, Nat.xor_assoc, Nat.xor_self, Nat.xor_zero]
  have h2 : toInt32 (jsXor (jsXor a b) b) = toInt32 a := by
    unfold toInt32; rw [h]
  rw [← h2]
  unfold jsXor
  rw [toInt32_toInt32]

set_option maxRecDepth 100000 in
theorem rot_inv_fin : ∀ a : Fin 256, ∀ r : Fin 8,
    rotacionarEsquerda (rotacionarDireita (a.val : Int) (r.val + 1)) (r.val + 1) =
      (a.val : Int) := by
  decide

theorem rotacionarEsquerda_rotacionarDireita (a : Int) (ha : isByte a) (r : Nat) (hr : r < 8) :
    rotacionarEsquerda (rotacionarDireita a (r + 1)) (r + 1) = a := by
  obtain ⟨h0, h1⟩ := ha
  obtain ⟨n, rfl⟩ := Int.eq_ofNat_of_zero_le h0
  exact rot_inv_fin ⟨n, by omega⟩ ⟨r, hr⟩

set_option maxRecDepth 100000 in
theorem decimal_fin : ∀ n : Fin 256,
    intToString (n.val : Int) ≠ [] ∧ (intToString (n.val : Int)).all isDecDigit = true ∧
      decimalValue (intToString (n.val : Int)) = n.val := by
  decide

theorem intToString_of_isByte (v : Int) (hv : isByte v) :
    intToString v ≠ [] ∧ (intToString v).all isDecDigit = true ∧
      (decimalValue (intToString v) : Int) = v := by
  obtain ⟨h0, h1⟩ := hv
  obtain ⟨n, rfl⟩ := Int.eq_ofNat_of_zero_le h0
  have := decimal_fin ⟨n, by omega⟩
  exact ⟨this.1, this.2.1, by exact_mod_cast this.2.2⟩

theorem strToInt32_intToString (rt : JSString → Int) (v : Int) (hv : isByte v) :
    strToInt32 rt (intToString v) = v := by
  obtain ⟨h1, h2, h3⟩ := intToString_of_isByte v hv
  unfold strToInt32
  have hlt : decimalValue (intToString v) < 9007199254740992 := by
    have := hv.2
    omega
  rw [if_pos ⟨h1, h2, hlt⟩, h3]
  exact toInt32_of_isByte v hv

theorem criptRLoop_bytes (string : JSString) (prev : Int) (g : xorshift128) :
    ∀ v ∈ (criptRLoop string prev g).1, isByte v := by
  induction string generalizing prev g with
  | nil => simp [criptRLoop]
  | cons c cs ih =>
    intro v hv
    unfold criptRLoop at hv
    simp only [List.mem_cons] at hv
    rcases hv with rfl | hv
    · exact isByte_jsXor _ _ (isByte_rotacionarDireita _ _) (isByte_jsAnd_255 _)
    · exact ih _ _ v hv

theorem isByte_codeUnit (c : CodeUnit) (h : c.val < 256) : isByte (c.val : Int) := by
  unfold isByte; omega

theorem uncriptRLoop_criptRLoop (toNum : JSString → Int)
    (htn : ∀ v : Int, isByte v → toNum (intToString v) = v)
    (msg : JSString) (hmsg : ∀ c ∈ msg, c.val < 256) (prev : Int) (hprev : isByte prev)
    (g : xorshift128) :
    uncriptRLoop toNum ((criptRLoop msg prev g).1.map intToString) prev g =
      (msg.map (fun c => (c.val : Int)), (criptRLoop msg prev g).2) := by
  induction msg generalizing prev g with
  | nil => simp [criptRLoop, uncriptRLoop]
  | cons c cs ih =>
    have hc : isByte (c.val : Int) := isByte_codeUnit c (hmsg c (List.mem_cons_self _ _))
    have hx : isByte (jsXor (c.val : Int) prev) := isByte_jsXor _ _ hc hprev
    have hrot : g.next.2.next.1 % binType < 8 := Nat.mod_lt _ (by decide)
    set kb := jsAnd (jsShrU (g.next.1 : Int) 0) 0xFF with hkb
    set tmp := jsXor (rotacionarDireita (jsXor (c.val : Int) prev)
      (g.next.2.next.1 % binType + 1)) kb with htmp
    have htmpb : isByte tmp :=
      isByte_jsXor _ _ (isByte_rotacionarDireita _ _) (isByte_jsAnd_255 _)
    have hstep : criptRLoop (c :: cs) prev g =
        (tmp :: (criptRLoop cs tmp g.next.2.next.2).1, (criptRLoop cs tmp g.next.2.next.2).2) := by
      rw [criptRLoop]
    rw [hstep]
    simp only [List.map_cons]
    rw [uncriptRLoop]
    rw [htn tmp htmpb, ih (fun d hd => hmsg d (List.mem_cons_of_mem _ hd)) tmp htmpb]
    simp only [Prod.mk.injEq, List.cons.injEq, and_true]
    rw [← hkb, htmp, jsXor_cancel,
      toInt32_of_isByte _ (isByte_rotacionarDireita _ _),
      rotacionarEsquerda_rotacionarDireita _ hx _ hrot, jsXor_cancel,
      toInt32_of_isByte _ hc]

theorem uncriptRLoop_bytes {α : Type} (toNum : α → Int) (arr : List α)
    (harr : ∀ s ∈ arr, isByte (toNum s)) (prev : Int) (hprev : isByte prev)
    (g : xorshift128) :
    ∀ v ∈ (uncriptRLoop toNum arr prev g).1, isByte v := by
  induction arr generalizing prev g with
  | nil => simp [uncriptRLoop]
  | cons s ss ih =>
    intro v hv
    unfold uncriptRLoop at hv
    simp only [List.mem_cons] at hv
    rcases hv with rfl | hv
    · exact isByte_jsXor _ _ (isByte_rotacionarEsquerda _ _) hprev
    · exact ih (fun t ht => harr t (List.mem_cons_of_mem _ ht)) _
        (harr s (List.mem_cons_self _ _)) _ v hv

theorem fromCharCode_val (c : CodeUnit) : fromCharCode (c.val : Int) = c := by
  unfold fromCharCode chr
  apply Fin.ext
  have := c.isLt
  simp only
  omega

theorem arrNumberToString_codes (msg : JSString) :
    arrNumberToString (msg.map (fun c => (c.val : Int))) = msg := by
  unfold arrNumberToString
  rw [List.map_map]
  conv_rhs => rw [← List.map_id msg]
  apply List.map_congr_left
  intro c _
  exact fromCharCode_val c

theorem fromCharCode_lt_of_isByte (v : Int) (hv : isByte v) : (fromCharCode v).val < 256 := by
  obtain ⟨h0, h1⟩ := hv
  unfold fromCharCode chr
  simp only
  omega

end Crypt

/-! ## Trash insertion is undone by `removeTrash` -/

namespace Crypt

theorem slices_nil {α : Type} (n fuel : Nat) : slices n fuel ([] : List α) = [] := by
  cases fuel <;> rfl

theorem slices_flatten_append {α : Type} (n : Nat) (rows : List (List α))
    (hrows : ∀ r ∈ rows, r.length = n) (tail : List α) (htail : tail.length < n)
    (fuel : Nat) (hfuel : (rows.flatten ++ tail).length ≤ fuel) :
    slices n fuel (rows.flatten ++ tail) = rows ++ (if tail.isEmpty then [] else [tail]) := by
  induction rows generalizing fuel with
  | nil =>
    cases tail with
    | nil => simp [slices_nil]
    | cons a as =>
      cases fuel with
      | zero => simp at hfuel
      | succ f =>
        simp only [List.flatten_nil, List.nil_append, slices]
        rw [List.take_of_length_le (by omega), List.drop_of_length_le (by omega), slices_nil]
        simp
  | cons row rows ih =>
    have hrow : row.length = n := hrows row (List.mem_cons_self _ _)
    cases row with
    | nil => simp at hrow; omega
    | cons a as =>
      cases fuel with
      | zero => simp at hfuel
      | succ f =>
        simp only [List.flatten_cons, List.cons_append, List.append_assoc, slices]
        have e1 : List.take n (a :: (as ++ (rows.flatten ++ tail))) = a :: as := by
          rw [← List.cons_append, List.take_left' hrow]
        have e2 : List.drop n (a :: (as ++ (rows.flatten ++ tail))) = rows.flatten ++ tail := by
          rw [← List.cons_append, List.drop_left' hrow]
        rw [e1, e2, ih (fun r hr => hrows r (List.mem_cons_of_mem _ hr))]
        simp only [List.flatten_cons, List.cons_append, List.append_assoc,
            List.length_cons, List.length_append] at hfuel ⊢
        omega

theorem trashBits_length (m : Nat) (g : xorshift128) : (trashBits m g).1.length = m := by
  induction m generalizing g with
  | zero => rfl
  | succ m ih => simp [trashBits, ih]

theorem removeTrashRow_nil (trashSize h fuel : Nat) : removeTrashRow trashSize h fuel [] = [] := by
  cases fuel <;> rfl

theorem removeTrashRow_succ (trashSize h fuel : Nat) (l : List Bool) :
    removeTrashRow trashSize h (fuel + 1) l =
      l.take h ++ removeTrashRow trashSize h fuel ((l.drop h).drop trashSize) := by
  cases l with
  | nil => simp [removeTrashRow, removeTrashRow_nil]
  | cons b bs => rfl

theorem removeTrashRow_length_le (trashSize h fuel : Nat) (l : List Bool) :
    (removeTrashRow trashSize h fuel l).length ≤ l.length := by
  induction fuel generalizing l with
  | zero => simp [removeTrashRow]
  | succ f ih =>
    rw [removeTrashRow_succ]
    have := ih ((l.drop h).drop trashSize)
    simp only [List.length_append, List.length_take, List.length_drop] at this ⊢
    omega

theorem succ_mod_cases (k h : Nat) (hh : 0 < h) :
    ((k + 1) % h = 0 ∧ k % h + 1 = h ∧ (k + 1) / h = k / h + 1) ∨
    ((k + 1) % h = k % h + 1 ∧ k % h + 1 < h ∧ (k + 1) / h = k / h) := by
  have hlt := Nat.mod_lt k hh
  have e : (k + 1) % h = (k % h + 1) % h := (Nat.mod_add_mod k h 1).symm
  by_cases hc : k % h + 1 = h
  · left
    have h0 : (k + 1) % h = 0 := by rw [e, hc, Nat.mod_self]
    refine ⟨h0, hc, ?_⟩
    rw [Nat.succ_div, if_pos (Nat.dvd_of_mod_eq_zero h0)]
  · right
    have h1 : (k + 1) % h = k % h + 1 := by rw [e, Nat.mod_eq_of_lt (by omega)]
    refine ⟨h1, by omega, ?_⟩
    rw [Nat.succ_div, if_neg, Nat.add_zero]
    intro hd
    have := Nat.mod_eq_zero_of_dvd hd
    omega

theorem insertTrashRow_step (trashSize h len : Nat) (b : Bool) (bs : List Bool) (k : Nat)
    (g : xorshift128) :
    insertTrashRow trashSize h len (b :: bs) k g =
      if (k + 1) % h = 0 ∧ k ≠ len - 1 then
        (b :: ((trashBits trashSize g).1 ++
            (insertTrashRow trashSize h len bs (k + 1) (trashBits trashSize g).2).1),
          (insertTrashRow trashSize h len bs (k + 1) (trashBits trashSize g).2).2)
      else
        (b :: (insertTrashRow trashSize h len bs (k + 1) g).1,
          (insertTrashRow trashSize h len bs (k + 1) g).2) := by
  rw [insertTrashRow]

/-- The row built by `insertTrashRow` from index `k` on, read back by the loop of
`removeTrash` when `h - k % h` more bits are to be kept before the next skip. -/
theorem removeTrash_insertTrashRow (trashSize h : Nat) (hh : 0 < h) (len : Nat)
    (bs : List Bool) (k : Nat) (hk : k + bs.length = len) (g : xorshift128) (fuel : Nat)
    (hfuel : (((insertTrashRow trashSize h len bs k g).1.drop (h - k % h)).drop
      trashSize).length ≤ fuel) :
    (insertTrashRow trashSize h len bs k g).1.take (h - k % h) ++
      removeTrashRow trashSize h fuel
        (((insertTrashRow trashSize h len bs k g).1.drop (h - k % h)).drop trashSize) = bs := by
  induction bs generalizing k g fuel with
  | nil => simp [insertTrashRow, removeTrashRow_nil]
  | cons b bs ih =>
    have hkm : k % h < h := Nat.mod_lt _ hh
    simp only [List.length_cons] at hk
    rw [insertTrashRow_step] at hfuel ⊢
    by_cases hc : (k + 1) % h = 0 ∧ k ≠ len - 1
    · rw [if_pos hc] at hfuel ⊢
      obtain ⟨hc1, hc2⟩ := hc
      have hm : h - k % h = 1 := by
        rcases succ_mod_cases k h hh with ⟨_, h2, _⟩ | ⟨h1, _, _⟩ <;> omega
      simp only [hm, List.drop_succ_cons, List.drop_zero,
        List.drop_left' (trashBits_length trashSize g)] at hfuel
      simp only [hm, List.take_succ_cons, List.take_zero, List.drop_succ_cons, List.drop_zero,
        List.drop_left' (trashBits_length trashSize g)]
      cases fuel with
      | zero =>
        have hnil := List.eq_nil_of_length_eq_zero (Nat.le_zero.mp hfuel)
        have := ih (k + 1) (by omega) (trashBits trashSize g).2 0 (by rw [hnil]; simp)
        rw [hnil] at this ⊢
        simp only [List.take_nil, List.drop_nil, removeTrashRow_nil, List.append_nil] at this
        rw [← this]; simp [removeTrashRow_nil]
      | succ f =>
        have := ih (k + 1) (by omega) (trashBits trashSize g).2 f (by
          simp only [List.length_drop] at hfuel ⊢
          rw [hc1]; omega)
        rw [hc1, Nat.sub_zero] at this
        rw [removeTrashRow_succ, this]; rfl
    · rw [if_neg hc] at hfuel ⊢
      rcases succ_mod_cases k h hh with ⟨h1, h2, _⟩ | ⟨h1, h2, _⟩
      · -- last bit of the row
        have hlast : k = len - 1 := by
          by_contra hne; exact hc ⟨h1, hne⟩
        have hbs : bs = [] := List.eq_nil_of_length_eq_zero (by omega)
        subst hbs
        have hm : h - k % h = 1 := by omega
        simp [hm, insertTrashRow, removeTrashRow_nil]
      · obtain ⟨m, hm⟩ : ∃ m, h - k % h = m + 1 := ⟨h - k % h - 1, by omega⟩
        have hm2 : h - (k % h + 1) = m := by omega
        simp only [hm, List.drop_succ_cons] at hfuel
        have := ih (k + 1) (by omega) g fuel (by rw [h1, hm2]; exact hfuel)
        rw [h1, hm2] at this
        simp only [hm, List.take_succ_cons, List.drop_succ_cons, List.cons_append]
        rw [this]

theorem insertTrashRow_length (trashSize h : Nat) (hh : 0 < h) (len : Nat)
    (bs : List Bool) (k : Nat) (hk : k + bs.length = len) (g : xorshift128) :
    (insertTrashRow trashSize h len bs k g).1.length =
      bs.length + trashSize * ((len - 1) / h - k / h) := by
  induction bs generalizing k g with
  | nil => 
    have : k = len := by simpa using hk
    subst this
    have : (k - 1) / h ≤ k / h := Nat.div_le_div_right (by omega)
    simp [insertTrashRow]; right; omega
  | cons b bs ih =>
    simp only [List.length_cons] at hk
    rw [insertTrashRow_step]
    by_cases hc : (k + 1) % h = 0 ∧ k ≠ len - 1
    · rw [if_pos hc]
      obtain ⟨hc1, hc2⟩ := hc
      simp only [List.length_cons, List.length_append, trashBits_length]
      rw [ih (k + 1) (by omega)]
      have hdiv : (k + 1) / h = k / h + 1 := by
        rcases succ_mod_cases k h hh with ⟨_, _, h3⟩ | ⟨h1, _, _⟩ <;> omega
      have hle : (k + 1) / h ≤ (len - 1) / h := Nat.div_le_div_right (by omega)
      obtain ⟨x, hx⟩ : ∃ x, (len - 1) / h - k / h = x + 1 := ⟨(len - 1) / h - k / h - 1, by omega⟩
      rw [hx, show (len - 1) / h - (k + 1) / h = x by omega, Nat.mul_succ]
      omega
    · rw [if_neg hc]
      simp only [List.length_cons]
      rw [ih (k + 1) (by omega)]
      rcases succ_mod_cases k h hh with ⟨h1, h2, _⟩ | ⟨h1, h2, h3⟩
      · have hlast : k = len - 1 := by
          by_contra hne; exact hc ⟨h1, hne⟩
        have hle : (len - 1) / h ≤ (k + 1) / h := Nat.div_le_div_right (by omega)
        rw [show (len - 1) / h - (k + 1) / h = 0 by omega, ← hlast, Nat.sub_self]
        ring
      · rw [h3]
        ring

theorem removeTrashRow_insertTrashRow (trashSize h : Nat) (hh : 0 < h) (row : List Bool)
    (g : xorshift128) :
    removeTrashRow trashSize h (insertTrashRow trashSize h row.length row 0 g).1.length
      (insertTrashRow trashSize h row.length row 0 g).1 = row := by
  have key := removeTrash_insertTrashRow trashSize h hh row.length row 0 (by simp) g
  simp only [Nat.zero_mod, Nat.sub_zero] at key
  cases hlen : (insertTrashRow trashSize h row.length row 0 g).1.length with
  | zero =>
    have hnil := List.eq_nil_of_length_eq_zero hlen
    have := key 0 (by rw [hnil]; simp)
    rw [hnil] at this ⊢
    simpa [removeTrashRow_nil] using this
  | succ f =>
    rw [removeTrashRow_succ]
    apply key
    simp only [List.length_drop]
    omega

theorem insertTrashRows_spec (trashSize h : Nat) (hh : 0 < h) (rows : List (List Bool))
    (hrows : ∀ r ∈ rows, r.length = binType) (g : xorshift128) :
    (∀ r ∈ (insertTrashRows trashSize h rows g).1,
        r.length = binType + trashSize * ((binType - 1) / h)) ∧
      removeTrash trashSize (insertTrashRows trashSize h rows g).1 h = rows := by
  induction rows generalizing g with
  | nil => simp [insertTrashRows, removeTrash]
  | cons row rows ih =>
    have hrow := hrows row (List.mem_cons_self _ _)
    obtain ⟨ih1, ih2⟩ := ih (fun r hr => hrows r (List.mem_cons_of_mem _ hr))
      (insertTrashRow trashSize h row.length row 0 g).2
    unfold insertTrashRows
    constructor
    · intro r hr
      simp only [List.mem_cons] at hr
      rcases hr with rfl | hr
      · rw [insertTrashRow_length trashSize h hh row.length row 0 (by simp), hrow]
        simp
      · exact ih1 r hr
    · unfold removeTrash at ih2 ⊢
      simp only [List.map_cons]
      rw [ih2, removeTrashRow_insertTrashRow trashSize h hh]

theorem padBits_eq (arr : List Bool) :
    ∃ zeros : List Bool, padBits arr = arr ++ zeros ∧ zeros.length < 8 ∧
      (arr.length + zeros.length) % 8 = 0 := by
  refine ⟨List.replicate ((binType - arr.length % binType) % binType) false, rfl, ?_, ?_⟩
  · simp only [List.length_replicate, binType]; omega
  · simp only [List.length_replicate, binType]; omega

theorem exists_rows_of_length (n m : Nat) {α : Type} (l : List α)
    (hl : l.length = n * m) :
    ∃ rows : List (List α), (∀ r ∈ rows, r.length = n) ∧ rows.flatten = l ∧ rows.length = m := by
  induction m generalizing l with
  | zero =>
    have := List.eq_nil_of_length_eq_zero (by simpa using hl)
    exact ⟨[], by simp, by simp [this], rfl⟩
  | succ m ih =>
    obtain ⟨rows, h1, h2, h3⟩ := ih (l.drop n) (by
      rw [List.length_drop, hl, Nat.mul_succ]; omega)
    refine ⟨l.take n :: rows, ?_, ?_, by simp [h3]⟩
    · intro r hr
      simp only [List.mem_cons] at hr
      rcases hr with rfl | hr
      · rw [List.length_take, hl, Nat.mul_succ]; omega
      · exact h1 r hr
    · rw [List.flatten_cons, h2, List.take_append_drop]

theorem flatten_length_of_rows {α : Type} (n : Nat) (rows : List (List α))
    (hrows : ∀ r ∈ rows, r.length = n) : rows.flatten.length = n * rows.length := by
  induction rows with
  | nil => simp
  | cons r rows ih =>
    rw [List.flatten_cons, List.length_append, ih (fun r hr => hrows r (List.mem_cons_of_mem _ hr)),
      hrows r (List.mem_cons_self _ _), List.length_cons, Nat.mul_succ]
    omega

set_option maxRecDepth 100000 in
theorem hex_fin : ∀ b0 b1 b2 b3 b4 b5 b6 b7 : Bool,
    ((getBin (parseInt16 (
      if (natToString 16 (bitsValue [b0, b1, b2, b3, b4, b5, b6, b7])).length < 2
      then chr 48 :: natToString 16 (bitsValue [b0, b1, b2, b3, b4, b5, b6, b7])
      else natToString 16 (bitsValue [b0, b1, b2, b3, b4, b5, b6, b7]))) 8).map
        fun c => c == chr 49) = [b0, b1, b2, b3, b4, b5, b6, b7] ∧
    (if (natToString 16 (bitsValue [b0, b1, b2, b3, b4, b5, b6, b7])).length < 2
      then chr 48 :: natToString 16 (bitsValue [b0, b1, b2, b3, b4, b5, b6, b7])
      else natToString 16 (bitsValue [b0, b1, b2, b3, b4, b5, b6, b7])).length = 2 := by
  decide

end Crypt

/-! ## The hexadecimal text is decoded back to the word -/

namespace Crypt

theorem unHex_criptTrashToString (arr : List Bool) :
    flatten (unHex (criptTrashToString arr)) = padBits arr := by
  obtain ⟨zeros, hz, _, hmod⟩ := padBits_eq arr
  have hlen : (padBits arr).length = 8 * ((padBits arr).length / 8) := by
    rw [hz, List.length_append]; omega
  obtain ⟨rows, hr1, hr2, _⟩ := exists_rows_of_length 8 _ (padBits arr) hlen
  have hs : slices binType (padBits arr).length (padBits arr) = rows := by
    have := slices_flatten_append 8 rows hr1 [] (by simp) (padBits arr).length
      (by rw [List.append_nil, hr2])
    simpa [hr2] using this
  unfold criptTrashToString
  simp only [hs]
  set piece : List Bool → JSString := fun group =>
    if (natToString 16 (bitsValue group)).length < 2
    then chr 48 :: natToString 16 (bitsValue group) else natToString 16 (bitsValue group)
    with hpiece
  have hrow : ∀ r ∈ rows, (piece r).length = 2 ∧
      ((getBin (parseInt16 (piece r)) 8).map fun c => c == chr 49) = r := by
    intro r hr
    have h8 := hr1 r hr
    match r, h8 with
    | [b0, b1, b2, b3, b4, b5, b6, b7], _ =>
      have := hex_fin b0 b1 b2 b3 b4 b5 b6 b7
      exact ⟨this.2, this.1⟩
  have hs2 : slices 2 (rows.map piece).flatten.length (rows.map piece).flatten =
      rows.map piece := by
    have := slices_flatten_append 2 (rows.map piece) (by
      intro p hp
      simp only [List.mem_map] at hp
      obtain ⟨r, hr, rfl⟩ := hp
      exact (hrow r hr).1) [] (by simp) (rows.map piece).flatten.length (by simp)
    simpa using this
  unfold unHex flatten
  simp only [hs2, List.map_map]
  rw [← hr2]
  congr 1
  conv_rhs => rw [← List.map_id rows]
  apply List.map_congr_left
  intro r hr
  exact (hrow r hr).2

theorem codePointUnits_of_lt (word : JSString) (h : ∀ c ∈ word, c.val < 0xD800) :
    codePointUnits word = word := by
  induction word with
  | nil => rfl
  | cons a rest ih =>
    cases rest with
    | nil => rfl
    | cons b rest =>
      have ha := h a (List.mem_cons_self _ _)
      unfold codePointUnits
      rw [if_neg (by omega)]
      rw [ih (fun c hc => h c (List.mem_cons_of_mem _ hc))]

set_option maxRecDepth 100000 in
theorem bits_fin : ∀ n : Fin 256,
    fromCharCode (bitsValue (((List.range binType).reverse).map fun i => n.val.testBit i)) =
      chr n.val := by
  decide

theorem generate2DBinaryCode_spec (word : JSString) (h : ∀ c ∈ word, c.val < 256) :
    (∀ r ∈ generate2DBinaryCode word, r.length = binType) ∧
      (generate2DBinaryCode word).map (fun a2 => fromCharCode (bitsValue a2)) = word := by
  unfold generate2DBinaryCode
  rw [codePointUnits_of_lt word (fun c hc => by have := h c hc; omega)]
  constructor
  · intro r hr
    simp only [List.mem_map] at hr
    obtain ⟨c, _, rfl⟩ := hr
    simp
  · rw [List.map_map]
    conv_rhs => rw [← List.map_id word]
    apply List.map_congr_left
    intro c hc
    have := bits_fin ⟨c.val, h c hc⟩
    simp only [Function.comp, id]
    rw [this]
    apply Fin.ext
    have := c.isLt
    simp only [chr]
    omega

theorem bitsToCharCode_flatten (word : JSString) (h : ∀ c ∈ word, c.val < 256)
    (junk : List Bool) (hjunk : junk.length < 8) :
    bitsToCharCode (flatten (generate2DBinaryCode word) ++ junk) = word := by
  obtain ⟨h1, h2⟩ := generate2DBinaryCode_spec word h
  have hlen := flatten_length_of_rows binType _ h1
  unfold flatten at hlen ⊢
  unfold bitsToCharCode
  simp only [binType] at hlen
  have e1 : (List.flatten (generate2DBinaryCode word) ++ junk).length -
      (List.flatten (generate2DBinaryCode word) ++ junk).length % 8 =
      (List.flatten (generate2DBinaryCode word)).length := by
    rw [List.length_append, hlen]; omega
  rw [e1, List.take_left' rfl]
  have := slices_flatten_append 8 (generate2DBinaryCode word) h1 [] (by simp)
    (List.flatten (generate2DBinaryCode word) ++ junk).length (by simp)
  simp only [List.append_nil, List.isEmpty_nil, if_true] at this
  simp only [this]
  exact h2

theorem uncriptT_criptT (trashSize h : Nat) (hh : 0 < h) (word : JSString)
    (g : xorshift128) :
    ∃ junk : List Bool, junk.length < 8 ∧
      uncriptT trashSize (padBits (criptT trashSize word h g).1) h =
        flatten (generate2DBinaryCode word) ++ junk := by
  have hrows : ∀ r ∈ generate2DBinaryCode word, r.length = binType := by
    intro r hr
    unfold generate2DBinaryCode at hr
    simp only [List.mem_map] at hr
    obtain ⟨c, _, rfl⟩ := hr
    simp
  obtain ⟨hs1, hs2⟩ := insertTrashRows_spec trashSize h hh (generate2DBinaryCode word) hrows g
  obtain ⟨zeros, hz, hzlen, _⟩ := padBits_eq (criptT trashSize word h g).1
  rw [hz]
  unfold criptT insertTrash flatten at *
  simp only at *
  unfold uncriptT unflattenArrayWithTrash flatten
  rw [slices_flatten_append _ _ hs1 zeros (by simp only [binType]; omega) _ (le_refl _)]
  unfold removeTrash at hs2 ⊢
  rw [List.map_append, hs2, List.flatten_append]
  by_cases hzero : zeros.isEmpty
  · exact ⟨[], by simp, by simp [hzero]⟩
  · refine ⟨removeTrashRow trashSize h zeros.length zeros, ?_, by simp [hzero]⟩
    exact lt_of_le_of_lt (removeTrashRow_length_le _ _ _ _) hzlen

theorem bitsToCharCode_uncriptT (trashSize h : Nat) (hh : 0 < h) (word : JSString)
    (hword : ∀ c ∈ word, c.val < 256) (g : xorshift128) :
    bitsToCharCode (uncriptT trashSize
      (flatten (unHex (criptTrashToString (criptT trashSize word h g).1))) h) = word := by
  rw [unHex_criptTrashToString]
  obtain ⟨junk, hj, he⟩ := uncriptT_criptT trashSize h hh word g
  rw [he]
  exact bitsToCharCode_flatten word hword junk hj

end Crypt

/-! ## `uncriptAll` undoes `criptAll` -/

namespace Crypt

theorem criptR_bytes (string : JSString) (g : xorshift128) :
    ∀ v ∈ (criptR string g).1, isByte v := by
  unfold criptR
  exact criptRLoop_bytes _ _ _

theorem uncriptR_bytes {α : Type} (toNum : α → Int) (arr : List α)
    (harr : ∀ s ∈ arr, isByte (toNum s)) (g : xorshift128) :
    ∀ v ∈ (uncriptR toNum arr g).1, isByte v := by
  unfold uncriptR
  exact uncriptRLoop_bytes toNum arr harr _ (isByte_jsAnd_255 _) _

theorem split_join (sep : CodeUnit) (strs : List JSString) (hne : strs ≠ [])
    (h : ∀ s ∈ strs, sep ∉ s) : split sep (join sep strs) = strs := by
  induction strs with
  | nil => exact absurd rfl hne
  | cons s rest ih =>
    cases rest with
    | nil => exact split_of_not_mem sep s (h s (List.mem_cons_self _ _))
    | cons t rest =>
      rw [join, split_append_sep sep s _ (h s (List.mem_cons_self _ _)),
        ih (by simp) (fun u hu => h u (List.mem_cons_of_mem _ hu))]

theorem mem_join (sep : CodeUnit) (strs : List JSString) (c : CodeUnit)
    (hc : c ∈ join sep strs) : c = sep ∨ ∃ s ∈ strs, c ∈ s := by
  induction strs with
  | nil => simp [join] at hc
  | cons s rest ih =>
    cases rest with
    | nil => exact Or.inr ⟨s, List.mem_cons_self _ _, by simpa [join] using hc⟩
    | cons t rest =>
      rw [join] at hc
      simp only [List.mem_append, List.mem_cons] at hc
      rcases hc with hc | rfl | hc
      · exact Or.inr ⟨s, List.mem_cons_self _ _, hc⟩
      · exact Or.inl rfl
      · rcases ih hc with h1 | ⟨u, hu, hcu⟩
        · exact Or.inl h1
        · exact Or.inr ⟨u, List.mem_cons_of_mem _ hu, hcu⟩

theorem join_eq_nil (sep : CodeUnit) (strs : List JSString) (h : ∀ s ∈ strs, s ≠ [])
    (hj : join sep strs = []) : strs = [] := by
  cases strs with
  | nil => rfl
  | cons s rest =>
    exfalso
    cases rest with
    | nil => exact h s (List.mem_cons_self _ _) (by simpa [join] using hj)
    | cons t rest =>
      rw [join] at hj
      exact h s (List.mem_cons_self _ _) (List.append_eq_nil.mp hj).1

theorem isDecDigit_of_all (s : JSString) (h : s.all isDecDigit = true) (c : CodeUnit)
    (hc : c ∈ s) : 48 ≤ c.val ∧ c.val ≤ 57 := by
  have := List.all_eq_true.mp h c hc
  unfold isDecDigit at this
  simpa using this

/-- The decimal text `criptAll` hands to `criptT`, for a list of bytes. -/
theorem word_spec (vals : List Int) (hvals : ∀ v ∈ vals, isByte v) :
    (∀ c ∈ join (chr 44) (vals.map intToString), c.val < 256) ∧
      (vals ≠ [] → split (chr 44) (join (chr 44) (vals.map intToString)) =
        vals.map intToString) ∧
      (join (chr 44) (vals.map intToString) = [] → vals = []) := by
  refine ⟨?_, ?_, ?_⟩
  · intro c hc
    rcases mem_join _ _ c hc with rfl | ⟨s, hs, hcs⟩
    · decide
    · simp only [List.mem_map] at hs
      obtain ⟨v, hv, rfl⟩ := hs
      have := isDecDigit_of_all _ (intToString_of_isByte v (hvals v hv)).2.1 c hcs
      omega
  · intro hne
    apply split_join _ _ (by simpa using hne)
    intro s hs hmem
    simp only [List.mem_map] at hs
    obtain ⟨v, hv, rfl⟩ := hs
    have := isDecDigit_of_all _ (intToString_of_isByte v (hvals v hv)).2.1 _ hmem
    exact absurd this (by decide)
  · intro hj
    have := join_eq_nil _ _ (by
      intro s hs
      simp only [List.mem_map] at hs
      obtain ⟨v, hv, rfl⟩ := hs
      exact (intToString_of_isByte v (hvals v hv)).1) hj
    simpa using this

theorem uncriptT_nil (trashSize h : Nat) : uncriptT trashSize [] h = [] := by
  simp [uncriptT, unflattenArrayWithTrash, slices, removeTrash, flatten]

theorem generate2DBinaryCode_eq_nil (word : JSString) (hword : ∀ c ∈ word, c.val < 256)
    (h : flatten (generate2DBinaryCode word) = []) : word = [] := by
  have h1 := (generate2DBinaryCode_spec word hword).2
  have h2 := flatten_length_of_rows binType _ (generate2DBinaryCode_spec word hword).1
  unfold flatten at h
  rw [h] at h2
  simp only [List.length_nil, binType] at h2
  have h3 : generate2DBinaryCode word = [] := List.eq_nil_of_length_eq_zero (by omega)
  rw [h3] at h1
  simpa using h1.symm

theorem criptTrashToString_criptT_nil (trashSize h : Nat) (g : xorshift128) :
    criptTrashToString (criptT trashSize (join (chr 44) (List.map intToString [])) h g).1 =
      [] := by
  have h1 : (criptT trashSize (join (chr 44) (List.map intToString [])) h g).1 = [] := rfl
  rw [h1]
  decide

/-- What `uncriptAll` reads back from the text `criptAll` produced with the same
generators: the decimal strings of the values of `criptR`, or nothing for no value. -/
theorem decode_criptAll (g : Geradores) (hh : 0 < g.trashing) (msg : JSString) :
    ((criptAll g msg).1 = [] ∧ (criptR msg g.xor128Rotation).1 = []) ∨
    ((criptAll g msg).1 ≠ [] ∧ (criptR msg g.xor128Rotation).1 ≠ [] ∧
      split (chr 44) (bitsToCharCode (uncriptT g.trashSize
        (flatten (unHex (criptAll g msg).1)) g.trashing)) =
        (criptR msg g.xor128Rotation).1.map intToString) := by
  have hvals : ∀ v ∈ (criptR msg g.xor128Rotation).1, isByte v := criptR_bytes _ _
  obtain ⟨hw1, hw2, hw3⟩ := word_spec _ hvals
  have hdec := bitsToCharCode_uncriptT g.trashSize g.trashing hh _ hw1 g.xor128Numbers
  have hcr : (criptAll g msg).1 = criptTrashToString (criptT g.trashSize
      (join (chr 44) ((criptR msg g.xor128Rotation).1.map intToString)) g.trashing
      g.xor128Numbers).1 := rfl
  by_cases hnil : (criptR msg g.xor128Rotation).1 = []
  · left
    refine ⟨?_, hnil⟩
    rw [hcr, hnil]
    exact criptTrashToString_criptT_nil _ _ _
  · right
    refine ⟨?_, hnil, ?_⟩
    · intro hc
      rw [hcr] at hc
      rw [hc] at hdec
      have : bitsToCharCode (uncriptT g.trashSize (flatten (unHex [])) g.trashing) = [] := by
        simp [unHex, slices, flatten, uncriptT_nil, bitsToCharCode]
      rw [this] at hdec
      exact hnil (hw3 hdec.symm)
    · rw [hcr, hdec]
      exact hw2 hnil

theorem criptRLoop_length (msg : JSString) (prev : Int) (g : xorshift128) :
    (criptRLoop msg prev g).1.length = msg.length := by
  induction msg generalizing prev g with
  | nil => rfl
  | cons c cs ih => simp [criptRLoop, ih]

theorem uncriptAll_of_ne (rt : JSString → Int) (g : Geradores) (texto : JSString)
    (h : texto ≠ []) :
    (uncriptAll rt g texto).1 = arrNumberToString (uncriptR (strToInt32 rt)
      (split (chr 44) (bitsToCharCode (uncriptT g.trashSize (flatten (unHex texto))
        g.trashing))) g.xor128Rotation).1 := by
  unfold uncriptAll
  rw [if_neg h]

theorem uncriptAll_criptAll (rt : JSString → Int) (g : Geradores) (hh : 0 < g.trashing)
    (msg : JSString) (hmsg : ∀ c ∈ msg, c.val < 256) :
    (uncriptAll rt g (criptAll g msg).1).1 = msg := by
  rcases decode_criptAll g hh msg with ⟨h1, h2⟩ | ⟨h1, h2, h3⟩
  · have : msg = [] := by
      have := criptRLoop_length msg (jsAnd (g.xor128Rotation.next.1 : Int) 0xFF)
        g.xor128Rotation.next.2
      unfold criptR at h2
      simp only at h2
      rw [h2] at this
      exact List.eq_nil_of_length_eq_zero this.symm
    unfold uncriptAll
    rw [if_pos h1, this]
  · rw [uncriptAll_of_ne rt g _ h1, h3]
    unfold uncriptR criptR
    simp only
    rw [uncriptRLoop_criptRLoop (strToInt32 rt) (strToInt32_intToString rt) msg hmsg _
      (isByte_jsAnd_255 _)]
    exact arrNumberToString_codes msg

theorem uncriptAll_criptAll_bytes (rt : JSString → Int) (g : Geradores)
    (hh : 0 < g.trashing) (msg : JSString) :
    ∀ c ∈ (uncriptAll rt g (criptAll g msg).1).1, c.val < 256 := by
  intro c hc
  rcases decode_criptAll g hh msg with ⟨h1, _⟩ | ⟨h1, h2, h3⟩
  · unfold uncriptAll at hc
    rw [if_pos h1] at hc
    simp at hc
  · rw [uncriptAll_of_ne rt g _ h1, h3] at hc
    unfold arrNumberToString at hc
    simp only [List.mem_map] at hc
    obtain ⟨v, hv, rfl⟩ := hc
    apply fromCharCode_lt_of_isByte
    refine uncriptR_bytes (strToInt32 rt)
      ((criptR msg g.xor128Rotation).1.map intToString) ?_ g.xor128Rotation v hv
    intro s hs
    simp only [List.mem_map] at hs
    obtain ⟨w, hw, rfl⟩ := hs
    rw [strToInt32_intToString rt w (criptR_bytes _ _ w hw)]
    exact criptR_bytes _ _ w hw

end Crypt

/-! ## Envelopes built by `criptografar` -/

namespace Crypt

theorem criptTrashToString_spec (arr : List Bool) :
    (∀ c ∈ criptTrashToString arr, isHexChar c = true) ∧
      (criptTrashToString arr).length % 2 = 0 := by
  obtain ⟨zeros, hz, _, hmod⟩ := padBits_eq arr
  have hlen : (padBits arr).length = 8 * ((padBits arr).length / 8) := by
    rw [hz, List.length_append]; omega
  obtain ⟨rows, hr1, hr2, _⟩ := exists_rows_of_length 8 _ (padBits arr) hlen
  have hs : slices binType (padBits arr).length (padBits arr) = rows := by
    have := slices_flatten_append 8 rows hr1 [] (by simp) (padBits arr).length
      (by rw [List.append_nil, hr2])
    simpa [hr2] using this
  unfold criptTrashToString
  simp only [hs]
  constructor
  · intro c hc
    simp only [List.mem_flatten, List.mem_map] at hc
    obtain ⟨p, ⟨r, _, rfl⟩, hcp⟩ := hc
    split at hcp
    · simp only [List.mem_cons] at hcp
      rcases hcp with rfl | hcp
      · decide
      · exact natToString_hex _ c hcp
    · exact natToString_hex _ c hcp
  · have := flatten_length_of_rows 2 (rows.map fun group =>
      if (natToString 16 (bitsValue group)).length < 2
      then chr 48 :: natToString 16 (bitsValue group) else natToString 16 (bitsValue group)) (by
        intro p hp
        simp only [List.mem_map] at hp
        obtain ⟨r, hr, rfl⟩ := hp
        have h8 := hr1 r hr
        match r, h8 with
        | [b0, b1, b2, b3, b4, b5, b6, b7], _ => exact (hex_fin b0 b1 b2 b3 b4 b5 b6 b7).2)
    rw [this]
    omega

theorem salt_length (rnd : Nat → Fin 256) : (salt rnd).length = 96 := by
  unfold salt
  simp only [List.length_append, gerarInitializationVector_length]

theorem salt_hex (rnd : Nat → Fin 256) : ∀ c ∈ salt rnd, isHexChar c = true := by
  intro c hc
  unfold salt at hc
  simp only [List.mem_append] at hc
  rcases hc with (hc | hc) | hc <;> exact gerarInitializationVector_hex _ _ c hc

theorem criptografar_fst (self : CriptoBitwise) (message chave : JSString)
    (rnd : Nat → Fin 256) :
    (criptografar self message chave rnd).1 =
      (criptAll (startXorGenerators chave (salt rnd)) message).1 ++ chr 45 ::
        (gerarMAC (criptAll (startXorGenerators chave (salt rnd)) message).1 chave ++
          chr 45 :: salt rnd) := rfl

theorem criptAll_hex (g : Geradores) (input : JSString) :
    (∀ c ∈ (criptAll g input).1, isHexChar c = true) ∧ (criptAll g input).1.length % 2 = 0 :=
  criptTrashToString_spec _

theorem dash_not_hex : isHexChar (chr 45) = false := by decide

theorem split_envelope (c t s : JSString) (hc : ∀ x ∈ c, isHexChar x = true)
    (ht : ∀ x ∈ t, isHexChar x = true) (hs : ∀ x ∈ s, isHexChar x = true) :
    split (chr 45) (c ++ chr 45 :: (t ++ chr 45 :: s)) = [c, t, s] := by
  rw [split_append_sep _ _ _ (not_mem_of_hex _ dash_not_hex c hc),
    split_append_sep _ _ _ (not_mem_of_hex _ dash_not_hex t ht),
    split_of_not_mem _ _ (not_mem_of_hex _ dash_not_hex s hs)]

theorem split_criptografar (self : CriptoBitwise) (message chave : JSString)
    (rnd : Nat → Fin 256) :
    split (chr 45) (criptografar self message chave rnd).1 =
      [(criptAll (startXorGenerators chave (salt rnd)) message).1,
        gerarMAC (criptAll (startXorGenerators chave (salt rnd)) message).1 chave,
        salt rnd] := by
  rw [criptografar_fst]
  exact split_envelope _ _ _ (criptAll_hex _ _).1 (gerarMAC_hex _ _) (salt_hex rnd)

theorem startXorGenerators_trashing (chave iv : JSString) :
    1 ≤ (startXorGenerators chave iv).trashing ∧ (startXorGenerators chave iv).trashing ≤ 8 := by
  unfold startXorGenerators
  simp only
  omega

/-- Decrypting, under the password `q`, what was encrypted under `p`, when both passwords
give the ciphertext the same tag. -/
theorem descriptografar_criptografar (rt : JSString → Int) (self self2 : CriptoBitwise)
    (message p q : JSString) (rnd : Nat → Fin 256)
    (hmac : gerarMAC (criptAll (startXorGenerators p (salt rnd)) message).1 q =
      gerarMAC (criptAll (startXorGenerators p (salt rnd)) message).1 p) :
    (descriptografar rt self2 (criptografar self message p rnd).1 q).1 =
      Except.ok (uncriptAll rt (startXorGenerators q (salt rnd))
        (criptAll (startXorGenerators p (salt rnd)) message).1).1 := by
  have hsplit := split_criptografar self message p rnd
  rw [← hmac] at hsplit
  rw [descriptografar_accept rt self2 _ q _ _ [] hsplit]

theorem roundtrip_bytes (rt : JSString → Int) (self self2 : CriptoBitwise)
    (message chave : JSString) (rnd : Nat → Fin 256) (hmsg : ∀ c ∈ message, c.val ≤ 255) :
    (descriptografar rt self2 (criptografar self message chave rnd).1 chave).1 =
      Except.ok message := by
  rw [descriptografar_criptografar rt self self2 message chave chave rnd rfl,
    uncriptAll_criptAll rt _ (startXorGenerators_trashing chave (salt rnd)).1 message
      (fun c hc => Nat.lt_succ_of_le (hmsg c hc))]

theorem roundtrip_result_bytes (rt : JSString → Int) (self self2 : CriptoBitwise)
    (message chave : JSString) (rnd : Nat → Fin 256) :
    ∃ out, (descriptografar rt self2 (criptografar self message chave rnd).1 chave).1 =
      Except.ok out ∧ ∀ c ∈ out, c.val < 256 := by
  refine ⟨_, descriptografar_criptografar rt self self2 message chave chave rnd rfl, ?_⟩
  exact uncriptAll_criptAll_bytes rt _ (startXorGenerators_trashing chave (salt rnd)).1 message

end Crypt

/-! ## Passwords with the same digest -/

namespace Crypt

theorem gerarNumeroRound_lt (str : JSString) (hash : Nat) :
    gerarNumeroRound str hash < 2 ^ 128 := by
  unfold gerarNumeroRound
  exact lt_of_le_of_lt Nat.and_le_right (by decide)

theorem gerarNumeroLoop_lt (str : JSString) (j hash : Nat) (h : hash < 2 ^ 128) :
    gerarNumeroLoop str j hash < 2 ^ 128 := by
  induction j generalizing hash with
  | zero => exact h
  | succ j ih => exact ih _ (gerarNumeroRound_lt str hash)

theorem gerarNumeroDigest_lt (iters : Nat) (str : JSString) :
    gerarNumeroDigest iters str < 2 ^ 128 :=
  gerarNumeroLoop_lt str iters _ (by decide)

/-- Two different passwords of nine characters with the same 128-bit digest exist: there
are `65536 ^ 9` such passwords and only `2 ^ 128` digests. -/
theorem exists_digest_collision (iters : Nat) :
    ∃ p q : JSString, p.length = 9 ∧ q.length = 9 ∧ p ≠ q ∧
      gerarNumeroDigest iters p = gerarNumeroDigest iters q := by
  have hcard : Fintype.card (Fin (2 ^ 128)) < Fintype.card (Fin 9 → Fin 65536) := by
    rw [Fintype.card_fun, Fintype.card_fin, Fintype.card_fin, Fintype.card_fin]
    norm_num
  obtain ⟨v, w, hne, heq⟩ := Fintype.exists_ne_map_eq_of_card_lt
    (fun v : Fin 9 → Fin 65536 =>
      (⟨gerarNumeroDigest iters (List.ofFn v), gerarNumeroDigest_lt iters _⟩ : Fin (2 ^ 128)))
    hcard
  refine ⟨List.ofFn v, List.ofFn w, by simp, by simp, ?_, congrArg Fin.val heq⟩
  exact fun h => hne (List.ofFn_injective h)

theorem gerarMAC_eq_of_digest (p q : JSString)
    (h : gerarNumeroDigest 100000 p = gerarNumeroDigest 100000 q) (texto : JSString) :
    gerarMAC texto p = gerarMAC texto q := by
  have h1 : gerarNumero p = gerarNumero q := by
    unfold gerarNumero gerarNumeroIter
    rw [h]
  have h2 : gerarHash p = gerarHash q := by
    unfold gerarHash
    rw [h1]
  unfold gerarMAC
  rw [h2]

theorem descriptografar_wrong_key (rt : JSString → Int) (self self2 : CriptoBitwise)
    (message p q : JSString) (rnd : Nat → Fin 256) :
    (descriptografar rt self2 (criptografar self message p rnd).1 q).1 =
        Except.error Erro.autenticacao ↔
      gerarMAC (criptAll (startXorGenerators p (salt rnd)) message).1 q ≠
        gerarMAC (criptAll (startXorGenerators p (salt rnd)) message).1 p := by
  constructor
  · intro h hmac
    rw [descriptografar_criptografar rt self self2 message p q rnd hmac] at h
    exact absurd h (by simp)
  · intro hne
    rw [descriptografar_reject rt self2 _ q _ _ _ [] (split_criptografar self message p rnd)
      (fun e => hne e.symm)]

theorem uncriptAll_nil (rt : JSString → Int) (g : Geradores) : uncriptAll rt g [] = ([], g) := by
  unfold uncriptAll
  rw [if_pos rfl]

theorem criptAll_nil (g : Geradores) : (criptAll g []).1 = [] := by
  have h : (criptAll g []).1 = criptTrashToString (criptT g.trashSize
      (join (chr 44) (List.map intToString [])) g.trashing g.xor128Numbers).1 := rfl
  rw [h]
  exact criptTrashToString_criptT_nil _ _ _

end Crypt

/-! ## The tag does not determine the generator state -/

namespace Crypt

/-- The four outputs that make a tag do not determine the state of the generator: two
different states whose next four outputs are `f8991b73`, `a9d98336`, `948d54f0`,
`c8836730`. States that differ can therefore still give equal tags. -/
theorem hexOutputs_collision :
    (⟨1398646479, 1976665963, 2147483655, 1634380671⟩ : xorshift128) ≠
        ⟨751982385, 3416672658, 2147483399, 1634380672⟩ ∧
      (hexOutputs 4 ⟨1398646479, 1976665963, 2147483655, 1634380671⟩).1 =
        (hexOutputs 4 ⟨751982385, 3416672658, 2147483399, 1634380672⟩).1 := by
  decide

end Crypt

/-! ## The claims -/

namespace Crypt

/-- C1 (as amended). Round trip on 8-bit messages: for every message whose code units are
all at most 255, every password and every salt `criptografar` may draw,
`descriptografar(criptografar(message, password), password)` returns exactly `message`,
whatever object runs either call. -/
theorem roundtrip_of_bytes (rt : JSString → Int) (self self2 : CriptoBitwise)
    (message chave : JSString) (rnd : Nat → Fin 256) (hmsg : ∀ c ∈ message, c.val ≤ 255) :
    (descriptografar rt self2 (criptografar self message chave rnd).1 chave).1 =
      Except.ok message :=
  roundtrip_bytes rt self self2 message chave rnd hmsg

theorem hi_bytes : ∀ c ∈ ([chr 104, chr 105] : JSString), c.val ≤ 255 := by
  intro c hc
  simp only [List.mem_cons, List.mem_singleton, List.not_mem_nil, or_false] at hc
  rcases hc with rfl | rfl <;> decide

/-- C1, witness: the message `"hi"` under the password `"k"` with all random bytes zero. -/
theorem roundtrip_of_bytes_witness :
    (∀ c ∈ ([chr 104, chr 105] : JSString), c.val ≤ 255) ∧
      (descriptografar (fun _ => 0) CriptoBitwise.new
        (criptografar CriptoBitwise.new [chr 104, chr 105] [chr 107] (fun _ => 0)).1
        [chr 107]).1 = Except.ok [chr 104, chr 105] :=
  ⟨hi_bytes, roundtrip_of_bytes (fun _ => 0) CriptoBitwise.new CriptoBitwise.new
    [chr 104, chr 105] [chr 107] (fun _ => 0) hi_bytes⟩

/-- C1, counterexample: the one-character message with code unit 256 (`"Ā"`) does not come
back from `descriptografar(criptografar(message, ""), "")`. -/
theorem roundtrip_fails_above_255 :
    (descriptografar (fun _ => 0) CriptoBitwise.new
      (criptografar CriptoBitwise.new [chr 256] [] (fun _ => 0)).1 []).1 ≠
      Except.ok [chr 256] := by
  obtain ⟨out, hout, hbytes⟩ := roundtrip_result_bytes (fun _ => 0) CriptoBitwise.new
    CriptoBitwise.new [chr 256] [] (fun _ => 0)
  rw [hout]
  intro h
  have h2 : out = [chr 256] := by simpa using h
  have := hbytes (chr 256) (by rw [h2]; exact List.mem_cons_self _ _)
  exact absurd this (by decide)

/-- C2. Authentication check: whenever the envelope splits into at least three fields
`c`, `t`, `s`, ... and `t` is not `gerarMAC(c, password)`, `descriptografar` throws the
authentication error and returns no string; in particular replacing any one character of
the tag of an envelope `c-gerarMAC(c, password)-s` by a different character makes it
fail that way. -/
theorem auth_check (rt : JSString → Int) (self : CriptoBitwise) (chave : JSString) :
    (∀ (env c t s : JSString) (rest : List JSString),
      split (chr 45) env = c :: t :: s :: rest → t ≠ gerarMAC c chave →
        (descriptografar rt self env chave).1 = Except.error Erro.autenticacao) ∧
    (∀ (c s : JSString) (i : Nat) (ch : CodeUnit),
      chr 45 ∉ c → i < 32 → ch ≠ (gerarMAC c chave).getD i 0 →
        (descriptografar rt self
          (c ++ chr 45 :: ((gerarMAC c chave).set i ch ++ chr 45 :: s)) chave).1 =
          Except.error Erro.autenticacao) :=
  ⟨fun env c t s rest hsplit ht => by
      rw [descriptografar_reject rt self env chave c t s rest hsplit ht],
    fun c s i ch hc hi hch => descriptografar_tag_changed rt self chave c s i ch hc hi hch⟩

theorem empty_ne_gerarMAC (c chave : JSString) : ([] : JSString) ≠ gerarMAC c chave := by
  intro h
  have := congrArg List.length h
  rw [gerarMAC_length] at this
  exact absurd this (by decide)

/-- C2, witness: the envelope `"--"` (three empty fields) under the empty password. -/
theorem auth_check_witness :
    split (chr 45) [chr 45, chr 45] = [] :: [] :: [] :: [] ∧
      ([] : JSString) ≠ gerarMAC [] [] ∧
      (descriptografar (fun _ => 0) CriptoBitwise.new [chr 45, chr 45] []).1 =
        Except.error Erro.autenticacao :=
  ⟨by decide, empty_ne_gerarMAC [] [],
    (auth_check (fun _ => 0) CriptoBitwise.new []).1 [chr 45, chr 45] [] [] [] []
      (by decide) (empty_ne_gerarMAC [] [])⟩

/-- Decrypting under `q` what was encrypted under `p`: with `c` the ciphertext field of the
envelope, `descriptografar` throws the authentication error when `gerarMAC(c, q)` differs
from `gerarMAC(c, p)`, and returns a string (what `uncriptAll` decodes under the
generators of `q`) when the two tags are equal. -/
theorem wrong_key_check (rt : JSString → Int) (self self2 : CriptoBitwise)
    (message p q : JSString) (rnd : Nat → Fin 256) :
    ∃ c : JSString,
      split (chr 45) (criptografar self message p rnd).1 = [c, gerarMAC c p, salt rnd] ∧
      (descriptografar rt self2 (criptografar self message p rnd).1 q).1 =
        if gerarMAC c q = gerarMAC c p
        then Except.ok (uncriptAll rt (startXorGenerators q (salt rnd)) c).1
        else Except.error Erro.autenticacao := by
  refine ⟨_, split_criptografar self message p rnd, ?_⟩
  split
  · rename_i h
    exact descriptografar_criptografar rt self self2 message p q rnd h
  · rename_i h
    exact (descriptografar_wrong_key rt self self2 message p q rnd).mpr h

/-- Two different passwords `p` and `q` of nine characters exist (two with the same 128-bit
digest of `gerarNumero`; the argument is a count and names neither) such that, for every
message and every salt, `descriptografar(criptografar(message, p), q)` returns a string
instead of throwing the authentication error. -/
theorem wrong_key_accepted :
    ∃ p q : JSString, p.length = 9 ∧ q.length = 9 ∧ p ≠ q ∧
      ∀ (rt : JSString → Int) (self self2 : CriptoBitwise) (message : JSString)
        (rnd : Nat → Fin 256),
        ∃ out, (descriptografar rt self2 (criptografar self message p rnd).1 q).1 =
          Except.ok out := by
  obtain ⟨p, q, hp, hq, hne, hd⟩ := exists_digest_collision 100000
  exact ⟨p, q, hp, hq, hne, fun rt self self2 message rnd =>
    ⟨_, descriptografar_criptografar rt self self2 message p q rnd
      (gerarMAC_eq_of_digest p q hd _).symm⟩⟩

/-- C5. Format error: an envelope with fewer than two `-` characters splits into fewer
than three fields, and `descriptografar` throws the format error, which is not the
authentication error; the object keeps the generator fields it had, only `chaveEntrada`
is assigned, so no key derivation has run. -/
theorem format_error (rt : JSString → Int) (self : CriptoBitwise) (env chave : JSString)
    (h : env.count (chr 45) < 2) :
    (split (chr 45) env).length < 3 ∧
      descriptografar rt self env chave =
        (Except.error Erro.formato, { self with chaveEntrada := chave }) ∧
      Erro.formato ≠ Erro.autenticacao := by
  have hlen : (split (chr 45) env).length < 3 := by rw [split_length]; omega
  exact ⟨hlen, descriptografar_of_short rt self env chave hlen, by decide⟩

/-- C5, witness: the envelope `"abc"`. -/
theorem format_error_witness :
    ([chr 97, chr 98, chr 99] : JSString).count (chr 45) < 2 ∧
      descriptografar (fun _ => 0) CriptoBitwise.new [chr 97, chr 98, chr 99] [chr 107] =
        (Except.error Erro.formato, { CriptoBitwise.new with chaveEntrada := [chr 107] }) :=
  ⟨by decide, (format_error (fun _ => 0) CriptoBitwise.new [chr 97, chr 98, chr 99] [chr 107]
    (by decide)).2.1⟩

/-- C6 (as amended). No hexadecimal validation: whenever the envelope splits into at
least three fields and the tag field equals `gerarMAC` of the ciphertext field,
`descriptografar` returns a string, whatever the length and the characters of the
ciphertext and salt fields; it throws only the format error (fewer than three fields) or
the authentication error (another tag). -/
theorem malformed_hex_not_checked (rt : JSString → Int) (self : CriptoBitwise)
    (env chave c s : JSString) (rest : List JSString)
    (hsplit : split (chr 45) env = c :: gerarMAC c chave :: s :: rest) :
    (descriptografar rt self env chave).1 =
      Except.ok (uncriptAll rt (startXorGenerators chave s) c).1 := by
  rw [descriptografar_accept rt self env chave c s rest hsplit]

theorem split_z_envelope (chave : JSString) :
    split (chr 45) (chr 122 :: chr 45 :: (gerarMAC [chr 122] chave ++ [chr 45])) =
      [chr 122] :: gerarMAC [chr 122] chave :: [] :: [] := by
  have h1 := split_append_sep (chr 45) [chr 122] (gerarMAC [chr 122] chave ++ [chr 45])
    (by decide)
  have h2 := split_append_sep (chr 45) (gerarMAC [chr 122] chave) []
    (not_mem_of_hex _ dash_not_hex _ (gerarMAC_hex _ _))
  rw [h2] at h1
  exact h1

/-- C6, witness: the envelope `"z-" + gerarMAC("z", "") + "-"`. -/
theorem malformed_hex_not_checked_witness :
    split (chr 45) (chr 122 :: chr 45 :: (gerarMAC [chr 122] [] ++ [chr 45])) =
        [chr 122] :: gerarMAC [chr 122] [] :: [] :: [] ∧
      (descriptografar (fun _ => 0) CriptoBitwise.new
        (chr 122 :: chr 45 :: (gerarMAC [chr 122] [] ++ [chr 45])) []).1 =
        Except.ok (uncriptAll (fun _ => 0) (startXorGenerators [] []) [chr 122]).1 :=
  ⟨split_z_envelope [], malformed_hex_not_checked (fun _ => 0) CriptoBitwise.new _ []
    [chr 122] [] [] (split_z_envelope [])⟩

/-- C6, counterexample: the ciphertext field `"z"` has odd length and is not hexadecimal,
yet `descriptografar` of `"z-" + gerarMAC("z", "") + "-"` under the empty password
returns a string. -/
theorem malformed_hex_accepted :
    ∃ out : JSString, (descriptografar (fun _ => 0) CriptoBitwise.new
      (chr 122 :: chr 45 :: (gerarMAC [chr 122] [] ++ [chr 45])) []).1 = Except.ok out :=
  ⟨_, by rw [descriptografar_accept (fun _ => 0) CriptoBitwise.new _ [] [chr 122] [] []
    (split_z_envelope [])]⟩

/-- C7. Empty message: `criptografar("", password)` gives an envelope whose ciphertext
field is the empty string, `descriptografar` of it under the same password returns `""`
and leaves the generators exactly as `startXorGenerators` set them (the bit pipeline does
not run), and `uncriptAll("")` is `""` for any generators. -/
theorem empty_message (rt : JSString → Int) (self self2 : CriptoBitwise) (chave : JSString)
    (rnd : Nat → Fin 256) :
    split (chr 45) (criptografar self [] chave rnd).1 = [[], gerarMAC [] chave, salt rnd] ∧
      descriptografar rt self2 (criptografar self [] chave rnd).1 chave =
        (Except.ok [], { chaveEntrada := chave,
                         geradores := some (startXorGenerators chave (salt rnd)) }) ∧
      ∀ g : Geradores, uncriptAll rt g [] = ([], g) := by
  have hs := split_criptografar self [] chave rnd
  rw [criptAll_nil] at hs
  refine ⟨hs, ?_, uncriptAll_nil rt⟩
  rw [descriptografar_accept rt self2 _ chave [] (salt rnd) [] hs, uncriptAll_nil]

/-- C8 (as amended). Salt length: the salt field (third field) of the envelope produced
by `criptografar`, built from three 16-byte random values of 32 hexadecimal characters
each, is exactly 96 lowercase hexadecimal characters. -/
theorem salt_field_96 (self : CriptoBitwise) (message chave : JSString)
    (rnd : Nat → Fin 256) :
    ∃ c t s : JSString, split (chr 45) (criptografar self message chave rnd).1 = [c, t, s] ∧
      s = salt rnd ∧ s.length = 96 ∧ ∀ x ∈ s, isHexChar x = true :=
  ⟨_, _, _, split_criptografar self message chave rnd, rfl, salt_length rnd, salt_hex rnd⟩

/-- C8, counterexample: for the empty message, the empty password and all random bytes
zero, the third field of the envelope does not have 48 characters. -/
theorem salt_field_not_48 :
    ((split (chr 45) (criptografar CriptoBitwise.new [] [] (fun _ => 0)).1).getD 2
      []).length ≠ 48 := by
  rw [split_criptografar]
  simp only [List.getD_cons_succ, List.getD_cons_zero]
  rw [salt_length]
  decide

/-- C9. Envelope shape: `criptografar` returns `c + "-" + t + "-" + salt` where `c` has
even length over `0-9a-f` and `t = gerarMAC(c, password)` has exactly 32 characters over
`0-9a-f`; the envelope has exactly two `-` characters and splits into exactly the three
fields `c`, `t`, `salt`. -/
theorem envelope_shape (self : CriptoBitwise) (message chave : JSString)
    (rnd : Nat → Fin 256) :
    ∃ c : JSString,
      (criptografar self message chave rnd).1 =
        c ++ chr 45 :: (gerarMAC c chave ++ chr 45 :: salt rnd) ∧
      c.length % 2 = 0 ∧ (∀ x ∈ c, isHexChar x = true) ∧
      (gerarMAC c chave).length = 32 ∧ (∀ x ∈ gerarMAC c chave, isHexChar x = true) ∧
      (criptografar self message chave rnd).1.count (chr 45) = 2 ∧
      split (chr 45) (criptografar self message chave rnd).1 =
        [c, gerarMAC c chave, salt rnd] := by
  refine ⟨_, criptografar_fst self message chave rnd, (criptAll_hex _ _).2,
    (criptAll_hex _ _).1, gerarMAC_length _ _, gerarMAC_hex _ _, ?_,
    split_criptografar self message chave rnd⟩
  have := split_length (chr 45) (criptografar self message chave rnd).1
  rw [split_criptografar] at this
  simp only [List.length_cons, List.length_nil] at this
  omega

/-- C10. `constantTimeCompare(a, b)` returns `true` exactly when `a` and `b` are the same
string (same length and same code unit at every index), whatever their lengths and
whatever numbers the strings convert to. -/
theorem constantTimeCompare_iff_eq (rt : JSString → Int) (a b : JSString) :
    constantTimeCompare rt a b = true ↔ a = b :=
  constantTimeCompare_eq_true_iff rt a b

end Crypt

/-! ## The generator step and the reference step -/

namespace Crypt

theorem toUint32_jsShl (a : Int) (s : Nat) :
    toUint32 (jsShl a s) = (toUint32 a <<< (s % 32)) % 4294967296 := by
  unfold jsShl
  rw [toUint32_toInt32, toUint32_natCast]

theorem toUint32_jsShrU (a : Int) (s : Nat) :
    toUint32 (jsShrU a s) = toUint32 a >>> (s % 32) := by
  unfold jsShrU
  rw [toUint32_natCast]
  apply Nat.mod_eq_of_lt
  have := toUint32_lt a
  rw [Nat.shiftRight_eq_div_pow]
  exact lt_of_le_of_lt (Nat.div_le_self _ _) this

theorem toUint32_imul (a b : Int) :
    toUint32 (imul a b) = (toUint32 a * toUint32 b) % 4294967296 := by
  unfold imul
  rw [toUint32_toInt32, toUint32_natCast]

theorem toUint32_add_natCast (n : Nat) (z : Int) :
    toUint32 ((n : Int) + z) = (n + toUint32 z) % 4294967296 := by
  unfold toUint32
  omega

theorem jsShrU_zero (a : Int) : jsShrU a 0 = (toUint32 a : Int) := by
  unfold jsShrU
  simp

theorem xor_mod_two_pow (a b n : Nat) : (a ^^^ b) % 2 ^ n = (a % 2 ^ n) ^^^ (b % 2 ^ n) := by
  apply Nat.eq_of_testBit_eq
  intro i
  simp only [Nat.testBit_mod_two_pow, Nat.testBit_xor]
  by_cases h : i < n <;> simp [h]

theorem toUint32_const : toUint32 0x2545F491 = 0x2545F491 := by decide

theorem next_eq_reference (g : xorshift128) :
    g.next = ((nextReference (toUint32 g.x) (toUint32 g.y) (toUint32 g.z) (toUint32 g.w)).1,
      { x := g.y, y := g.z, z := g.w,
        w := ((nextReference (toUint32 g.x) (toUint32 g.y) (toUint32 g.z)
          (toUint32 g.w)).2.2.2.2 : Nat) }) := by
  have hx := toUint32_lt g.x
  have hw := toUint32_lt g.w
  have e1 : (toUint32 g.x ^^^ toUint32 g.x <<< 11 % 4294967296) % 4294967296 =
      (toUint32 g.x ^^^ toUint32 g.x <<< 11) % 4294967296 := by
    have := xor_mod_two_pow (toUint32 g.x) (toUint32 g.x <<< 11) 32
    simp only [Nat.reducePow] at this
    rw [this, Nat.mod_eq_of_lt hx]
    apply Nat.mod_eq_of_lt
    exact Nat.xor_lt_two_pow (n := 32) hx (Nat.mod_lt _ (by decide))
  unfold xorshift128.next nextReference
  simp only [jsShrU_zero, toUint32_jsXor, toUint32_jsShrU, toUint32_natCast, toUint32_imul,
    toUint32_add_natCast, toUint32_jsShl, Nat.reduceMod, e1, toUint32_const, Nat.mod_mod]
  have ht : (toUint32 g.x ^^^ toUint32 g.x <<< 11) % 4294967296 < 2 ^ 32 :=
    Nat.mod_lt _ (by decide)
  generalize (toUint32 g.x ^^^ toUint32 g.x <<< 11) % 4294967296 = t at ht
  have hw' : toUint32 g.w ^^^ toUint32 g.w >>> 19 ^^^ (t ^^^ t >>> 8) < 2 ^ 32 := by
    apply Nat.xor_lt_two_pow
    · apply Nat.xor_lt_two_pow hw
      rw [Nat.shiftRight_eq_div_pow]
      exact lt_of_le_of_lt (Nat.div_le_self _ _) hw
    · apply Nat.xor_lt_two_pow ht
      rw [Nat.shiftRight_eq_div_pow]
      exact lt_of_le_of_lt (Nat.div_le_self _ _) ht
  generalize toUint32 g.w ^^^ toUint32 g.w >>> 19 ^^^ (t ^^^ t >>> 8) = w' at hw'
  rw [Nat.mod_mul_mod]
  have hm : (w' + toUint32 g.z) * 625341585 % 4294967296 < 2 ^ 32 := Nat.mod_lt _ (by decide)
  generalize (w' + toUint32 g.z) * 625341585 % 4294967296 = m at hm
  have hout : m ^^^ m >>> 16 < 2 ^ 32 := by
    apply Nat.xor_lt_two_pow hm
    rw [Nat.shiftRight_eq_div_pow]
    exact lt_of_le_of_lt (Nat.div_le_self _ _) hm
  rw [Nat.mod_eq_of_lt (by simpa using hout)]

theorem next_lt (g : xorshift128) : g.next.1 < 4294967296 := by
  unfold xorshift128.next
  dsimp only
  exact toUint32_lt _

end Crypt

/-! ## The seeds of the generator -/

namespace Crypt

theorem jsShrU_zero_natCast (s : Nat) (h : s < 4294967296) : jsShrU (s : Int) 0 = s := by
  unfold jsShrU
  rw [toUint32_natCast, Nat.mod_eq_of_lt h]
  simp

theorem jsShr_zero_natCast (s : Nat) (h : s < 4294967296) :
    jsShr (s : Int) 0 = if s < 2147483648 then (s : Int) else (s : Int) - 4294967296 := by
  unfold jsShr toInt32
  rw [toUint32_natCast, Nat.mod_eq_of_lt h]
  simp

theorem orDefault_signed (s d : Nat) (h : s < 4294967296) (hd : d ≠ 0) :
    orDefault (jsShr (s : Int) 0) d ≠ 0 ∧
      (s = 0 → orDefault (jsShr (s : Int) 0) d = d) ∧
      (s ≠ 0 → orDefault (jsShr (s : Int) 0) d % 4294967296 = s) := by
  rw [jsShr_zero_natCast s h]
  unfold orDefault
  refine ⟨?_, ?_, ?_⟩
  · split <;> split <;> omega
  · intro hs; subst hs; simp
  · intro hs
    split <;> split <;> omega

theorem orDefault_unsigned (s d : Nat) (h : s < 4294967296) (hd : d ≠ 0) :
    orDefault (jsShrU (s : Int) 0) d ≠ 0 ∧
      (s = 0 → orDefault (jsShrU (s : Int) 0) d = d) ∧
      (s ≠ 0 → orDefault (jsShrU (s : Int) 0) d = s) := by
  rw [jsShrU_zero_natCast s h]
  unfold orDefault
  refine ⟨?_, ?_, ?_⟩
  · split <;> omega
  · intro hs; subst hs; simp
  · intro hs
    rw [if_neg (by omega)]

theorem new_spec (s1 s2 s3 s4 : Nat) (h1 : s1 < 4294967296) (h2 : s2 < 4294967296)
    (h3 : s3 < 4294967296) (h4 : s4 < 4294967296) :
    ((s1 = 0 → (xorshift128.new (some s1) (some s2) (some s3) (some s4)).x = 0xFFF212E) ∧
     (s1 ≠ 0 → (xorshift128.new (some s1) (some s2) (some s3) (some s4)).x = s1)) ∧
    ((s2 = 0 → (xorshift128.new (some s1) (some s2) (some s3) (some s4)).y = 1234567) ∧
     (s2 ≠ 0 →
      (xorshift128.new (some s1) (some s2) (some s3) (some s4)).y % 4294967296 = s2)) ∧
    ((s3 = 0 → (xorshift128.new (some s1) (some s2) (some s3) (some s4)).z = 0xF93242FF) ∧
     (s3 ≠ 0 →
      (xorshift128.new (some s1) (some s2) (some s3) (some s4)).z % 4294967296 = s3)) ∧
    ((s4 = 0 → (xorshift128.new (some s1) (some s2) (some s3) (some s4)).w = 0xFEAA2) ∧
     (s4 ≠ 0 →
      (xorshift128.new (some s1) (some s2) (some s3) (some s4)).w % 4294967296 = s4)) ∧
    (xorshift128.new (some s1) (some s2) (some s3) (some s4)).x ≠ 0 ∧
    (xorshift128.new (some s1) (some s2) (some s3) (some s4)).y ≠ 0 ∧
    (xorshift128.new (some s1) (some s2) (some s3) (some s4)).z ≠ 0 ∧
    (xorshift128.new (some s1) (some s2) (some s3) (some s4)).w ≠ 0 := by
  have a := orDefault_unsigned s1 0xFFF212E h1 (by decide)
  have b := orDefault_signed s2 1234567 h2 (by decide)
  have c := orDefault_signed s3 0xF93242FF h3 (by decide)
  have d := orDefault_signed s4 0xFEAA2 h4 (by decide)
  unfold xorshift128.new
  simp only [Option.getD_some]
  exact ⟨⟨a.2.1, a.2.2⟩, ⟨b.2.1, b.2.2⟩, ⟨c.2.1, c.2.2⟩, ⟨d.2.1, d.2.2⟩, a.1, b.1, c.1, d.1⟩

end Crypt

/-! ## Parameters, the expanded hash, the comparison loop and modular exponentiation -/

namespace Crypt

theorem startXorGenerators_eq (chave iv : JSString) :
    startXorGenerators chave iv = startXorGeneratorsOfHash (gerarHash (chave ++ iv)) := rfl

theorem startXorGenerators_trashSize (chave iv : JSString) :
    1 ≤ (startXorGenerators chave iv).trashSize ∧
      (startXorGenerators chave iv).trashSize ≤ 8 := by
  unfold startXorGenerators
  simp only
  omega

theorem nextN_succ (n : Nat) (g : xorshift128) : nextN (n + 1) g = (nextN n g).next.2 := by
  induction n generalizing g with
  | zero => rfl
  | succ n ih =>
    show nextN (n + 1) g.next.2 = _
    rw [ih]
    rfl

theorem nextN_add (a b : Nat) (g : xorshift128) : nextN (a + b) g = nextN b (nextN a g) := by
  induction a generalizing g with
  | zero => simp [nextN]
  | succ a ih =>
    rw [Nat.succ_add]
    show nextN (a + b) g.next.2 = nextN b (nextN a g.next.2)
    exact ih _

theorem outputs_length (n : Nat) (g : xorshift128) : (outputs n g).length = n := by
  induction n generalizing g with
  | zero => rfl
  | succ n ih => simp [outputs, ih]

theorem outputs_add (a b : Nat) (g : xorshift128) :
    outputs (a + b) g = outputs a g ++ outputs b (nextN a g) := by
  induction a generalizing g with
  | zero => simp [outputs, nextN]
  | succ a ih =>
    rw [Nat.succ_add]
    show g.next.1 :: outputs (a + b) g.next.2 = g.next.1 :: outputs a g.next.2 ++ _
    rw [ih]
    rfl

theorem outputs_lt (n : Nat) (g : xorshift128) : ∀ v ∈ outputs n g, v < 4294967296 := by
  induction n generalizing g with
  | zero => simp [outputs]
  | succ n ih =>
    intro v hv
    simp only [outputs, List.mem_cons] at hv
    rcases hv with rfl | hv
    · exact next_lt g
    · exact ih _ v hv

theorem hexOutputs_eq_outputs (n : Nat) (g : xorshift128) :
    (hexOutputs n g).1 =
      ((outputs n g).map fun v => padStart 8 (chr 48) (natToString 16 v)).flatten := by
  induction n generalizing g with
  | zero => rfl
  | succ n ih =>
    have h : toUint32 (jsShrU (g.next.1 : Int) 0) = g.next.1 := by
      rw [toUint32_jsShrU, toUint32_natCast, Nat.mod_eq_of_lt (next_lt g)]
      rfl
    simp only [hexOutputs, outputs, List.map_cons, List.flatten_cons, ih, h]

theorem gerarHash_eq_outputs (str : JSString) :
    gerarHash str =
      ((((outputs 82 (seedGenerator ((gerarNumero str).map fun n => some (n : Int)))).drop
        50).map fun v => padStart 8 (chr 48) (natToString 16 v)).flatten) := by
  have h := outputs_add 50 32 (seedGenerator ((gerarNumero str).map fun n => some (n : Int)))
  rw [show (50 + 32 = 82) from rfl] at h
  rw [h, List.drop_left' (outputs_length 50 _), ← hexOutputs_eq_outputs]
  rfl

theorem gerarHash_hex (str : JSString) : ∀ c ∈ gerarHash str, isHexChar c = true := by
  unfold gerarHash
  exact hexOutputs_hex 32 _

theorem compareLoop_eq (str1 str2 : JSString) (fuel i : Nat) (diff : Int) (steps : Nat)
    (h : i + fuel ≤ str1.length) :
    compareLoop str1 str2 fuel i diff steps =
      ((List.range' i fuel).foldl
        (fun diff i => jsOr diff (jsXor ((str1.getD i 0).val : Int)
          ((str2.getD i 0).val : Int))) diff, steps + fuel) := by
  induction fuel generalizing i diff steps with
  | zero => rfl
  | succ fuel ih =>
    rw [compareLoop, if_pos (by omega), ih (i + 1) _ _ (by omega)]
    simp only [List.range'_succ, List.foldl_cons]
    congr 1
    omega

theorem constantTimeCompareSteps_spec (rt : JSString → Int) (a b : JSString) :
    constantTimeCompareSteps rt a b = (constantTimeCompare rt a b, a.length) := by
  unfold constantTimeCompareSteps constantTimeCompare
  simp only [compareLoop_eq a b a.length 0 _ 0 (by omega), List.range_eq_range', Nat.zero_add]

theorem modPow_eq (m : Nat) (hm : 2 ≤ m) (n : Nat) :
    ∀ x, DiffieHellman.modPow x n m = x ^ n % m := by
  induction n using Nat.strong_induction_on with
  | _ n ih =>
    intro x
    rw [DiffieHellman.modPow]
    by_cases h0 : n = 0
    · subst h0
      rw [if_pos rfl, pow_zero, Nat.mod_eq_of_lt (by omega)]
    · rw [if_neg h0, Nat.and_one_is_mod]
      have hlt : n / 2 < n := by omega
      by_cases he : n % 2 = 0
      · rw [if_pos he, Nat.shiftRight_eq_div_pow, pow_one, ih _ hlt, Nat.mod_mod,
          Nat.pow_mod, Nat.mod_mod, ← Nat.pow_mod, ← pow_two, ← pow_mul]
        congr 2
        omega
      · rw [if_neg he, Nat.shiftRight_eq_div_pow, pow_one, ih _ (by omega), Nat.mul_mod,
          Nat.mod_mod, Nat.pow_mod, Nat.mod_mod, ← Nat.pow_mod, ← Nat.mul_mod, ← pow_two,
          ← pow_mul, ← pow_succ']
        congr 2
        omega

theorem modPow_comm (g p a b : Nat) (hp : 2 ≤ p) :
    DiffieHellman.modPow (DiffieHellman.modPow g a p) b p =
      DiffieHellman.modPow (DiffieHellman.modPow g b p) a p := by
  rw [modPow_eq p hp, modPow_eq p hp, modPow_eq p hp, modPow_eq p hp, ← Nat.pow_mod,
    ← Nat.pow_mod, ← pow_mul, ← pow_mul, Nat.mul_comm]

theorem primo_ge : 2 ≤ DiffieHellman.primo := by decide

end Crypt

/-! ## The windows of the key schedule -/

namespace Crypt

theorem substring_substring (s : JSString) (a b i j : Nat) (h : j ≤ b - a) :
    substring (substring s a b) i j = substring s (a + i) (a + j) := by
  unfold substring
  rw [List.drop_take, List.take_take, List.drop_drop]
  congr 1
  omega

theorem substring_take (s : JSString) (n i j : Nat) (h : j ≤ n) :
    substring (s.take n) i j = substring s i j := by
  unfold substring
  rw [List.drop_take, List.take_take]
  congr 1
  omega

theorem getSeedsByHex_take (s : JSString) (n : Nat) (h : 32 ≤ n) :
    getSeedsByHex (s.take n) = getSeedsByHex s := by
  unfold getSeedsByHex
  rw [substring_take s n 0 8 (by omega), substring_take s n 8 16 (by omega),
    substring_take s n 16 24 (by omega), substring_take s n 24 32 (by omega)]

theorem getSeedsByHex_substring (s : JSString) (a b : Nat) (h : a + 32 ≤ b) :
    getSeedsByHex (substring s a b) = getSeedsByHex (substring s a (a + 32)) := by
  unfold getSeedsByHex
  rw [substring_substring s a b 0 8 (by omega), substring_substring s a b 8 16 (by omega),
    substring_substring s a b 16 24 (by omega), substring_substring s a b 24 32 (by omega),
    substring_substring s a (a + 32) 0 8 (by omega),
    substring_substring s a (a + 32) 8 16 (by omega),
    substring_substring s a (a + 32) 16 24 (by omega),
    substring_substring s a (a + 32) 24 32 (by omega)]

theorem startXorGeneratorsOfHash_windows (hash : JSString) :
    startXorGeneratorsOfHash hash =
      { xor128Trashing := (seedGenerator (getSeedsByHex (substring hash 0 32))).next.2,
        trashing := (seedGenerator (getSeedsByHex (substring hash 0 32))).next.1 % 8 + 1,
        trashSize := (seedGenerator (getSeedsByHex (substring hash 128 160))).next.1 % 8 + 1,
        xor128Numbers := seedGenerator (getSeedsByHex (substring hash 192 224)),
        xor128Rotation := seedGenerator (getSeedsByHex (substring hash 64 96)),
        xor128Size := (seedGenerator (getSeedsByHex (substring hash 128 160))).next.2 } := by
  unfold startXorGeneratorsOfHash
  simp only [getSeedsByHex_substring hash 0 64 (by omega),
    getSeedsByHex_substring hash 192 256 (by omega),
    getSeedsByHex_substring hash 128 192 (by omega)]

theorem startXorGeneratorsOfHash_congr (hash hash2 : JSString)
    (h0 : substring hash 0 32 = substring hash2 0 32)
    (h1 : substring hash 64 96 = substring hash2 64 96)
    (h2 : substring hash 128 160 = substring hash2 128 160)
    (h3 : substring hash 192 224 = substring hash2 192 224) :
    startXorGeneratorsOfHash hash = startXorGeneratorsOfHash hash2 := by
  rw [startXorGeneratorsOfHash_windows, startXorGeneratorsOfHash_windows, h0, h1, h2, h3]

end Crypt

/-! ## Parsing hexadecimal words -/

namespace Crypt

theorem isHexChar_cases (c : CodeUnit) (h : isHexChar c = true) :
    (48 ≤ c.val ∧ c.val ≤ 57) ∨ (97 ≤ c.val ∧ c.val ≤ 102) := by
  unfold isHexChar at h
  simpa using h

theorem hexDigitValue_of_hex (c : CodeUnit) (h : isHexChar c = true) :
    ∃ d, hexDigitValue c = some d ∧ d < 16 := by
  unfold hexDigitValue
  rcases isHexChar_cases c h with h1 | h1
  · exact ⟨c.val - 48, by rw [if_pos h1], by omega⟩
  · exact ⟨c.val - 87, by rw [if_neg (by omega), if_pos h1], by omega⟩

theorem isWhiteSpace_of_hex (c : CodeUnit) (h : isHexChar c = true) : isWhiteSpace c = false := by
  unfold isWhiteSpace
  rcases isHexChar_cases c h with h1 | h1 <;>
    simp only [Bool.or_eq_false_iff, beq_eq_false_iff_ne, Bool.and_eq_false_iff,
      decide_eq_false_iff_not, ne_eq] <;> omega

theorem hexPrefix_of_hex (s : JSString) (h : ∀ c ∈ s, isHexChar c = true) :
    hexPrefix s = s.map fun c => (hexDigitValue c).getD 0 := by
  induction s with
  | nil => rfl
  | cons c cs ih =>
    obtain ⟨d, hd, _⟩ := hexDigitValue_of_hex c (h c (List.mem_cons_self _ _))
    rw [hexPrefix, hd, List.map_cons, hd, ih (fun x hx => h x (List.mem_cons_of_mem _ hx))]
    rfl

theorem hexValue_lt_aux (s : JSString) (h : ∀ c ∈ s, isHexChar c = true) (acc : Nat) :
    s.foldl (fun acc c => acc * 16 + (hexDigitValue c).getD 0) acc < (acc + 1) * 16 ^ s.length := by
  induction s generalizing acc with
  | nil => simp
  | cons c cs ih =>
    obtain ⟨d, hd, hlt⟩ := hexDigitValue_of_hex c (h c (List.mem_cons_self _ _))
    rw [List.foldl_cons, hd, Option.getD_some, List.length_cons, pow_succ]
    have := ih (fun x hx => h x (List.mem_cons_of_mem _ hx)) (acc * 16 + d)
    calc _ < (acc * 16 + d + 1) * 16 ^ cs.length := this
      _ ≤ ((acc + 1) * 16) * 16 ^ cs.length := Nat.mul_le_mul_right _ (by omega)
      _ = (acc + 1) * (16 ^ cs.length * 16) := by ring

theorem hexValue_lt (s : JSString) (h : ∀ c ∈ s, isHexChar c = true) :
    hexValue s < 16 ^ s.length := by
  have := hexValue_lt_aux s h 0
  simpa [hexValue] using this

theorem parseInt16_of_hex (s : JSString) (hne : s ≠ []) (h : ∀ c ∈ s, isHexChar c = true) :
    parseInt16 s = some (hexValue s : Int) := by
  cases s with
  | nil => exact absurd rfl hne
  | cons c cs =>
    have hc := h c (List.mem_cons_self _ _)
    have hws := isWhiteSpace_of_hex c hc
    have h45 : c ≠ chr 45 := by
      intro e; rw [e] at hc; exact absurd hc (by decide)
    have h43 : c ≠ chr 43 := by
      intro e; rw [e] at hc; exact absurd hc (by decide)
    have hx : (c :: cs).take 2 ≠ [chr 48, chr 120] ∧ (c :: cs).take 2 ≠ [chr 48, chr 88] := by
      cases cs with
      | nil => simp
      | cons d ds =>
        have hd := h d (List.mem_cons_of_mem _ (List.mem_cons_self _ _))
        constructor
        · intro e
          simp only [List.take_succ_cons, List.take_zero, List.cons.injEq, and_true] at e
          rw [e.2] at hd; exact absurd hd (by decide)
        · intro e
          simp only [List.take_succ_cons, List.take_zero, List.cons.injEq, and_true] at e
          rw [e.2] at hd; exact absurd hd (by decide)
    have b1 : (some c == some (chr 45) || some c == some (chr 43)) = false := by
      simp [h45, h43]
    have b2 : (List.take 2 (c :: cs) == [chr 48, chr 120] ||
        List.take 2 (c :: cs) == [chr 48, chr 88]) = false := by
      simp only [Bool.or_eq_false_iff, beq_eq_false_iff_ne, ne_eq]
      exact hx
    have b3 : hexPrefix (c :: cs) ≠ [] := by
      rw [hexPrefix_of_hex _ h]; simp
    unfold parseInt16
    have e1 : (c :: cs).dropWhile isWhiteSpace = c :: cs := by
      rw [List.dropWhile_cons, hws]; rfl
    simp only [e1, List.head?_cons, b1, Bool.false_eq_true, if_false, b2, b3]
    have b0 : (some c == some (chr 45)) = false := by simp [h45]
    rw [hexPrefix_of_hex _ h, List.foldl_map, b0]
    rfl

end Crypt

/-! ## Trash insertion and the reference procedure -/

namespace Crypt

theorem insertTrashReference_succ (trashSize h fuel : Nat) (row : List Bool) (g : xorshift128) :
    insertTrashReference trashSize h (fuel + 1) row g =
      if row.length ≤ h then (row, g)
      else
        (row.take h ++ (trashBits trashSize g).1 ++
            (insertTrashReference trashSize h fuel (row.drop h) (trashBits trashSize g).2).1,
          (insertTrashReference trashSize h fuel (row.drop h) (trashBits trashSize g).2).2) := by
  rw [insertTrashReference]

theorem insertTrashReference_unfold (trashSize h : Nat) (fuel : Nat)
    (row : List Bool) (g : xorshift128) (hfuel : row.length ≤ fuel) :
    insertTrashReference trashSize h fuel row g =
      if row.length ≤ h then (row, g)
      else
        (row.take h ++ (trashBits trashSize g).1 ++
            (insertTrashReference trashSize h (fuel - 1) (row.drop h)
              (trashBits trashSize g).2).1,
          (insertTrashReference trashSize h (fuel - 1) (row.drop h)
              (trashBits trashSize g).2).2) := by
  cases fuel with
  | zero =>
    have : row = [] := List.eq_nil_of_length_eq_zero (by omega)
    subst this
    simp [insertTrashReference]
  | succ f => rw [insertTrashReference_succ]; rfl

/-- The loop of `insertTrash` from index `k` on: the bits up to the next multiple of `h`
are copied, then the row continues as the reference procedure builds it. -/
theorem insertTrashRow_eq_reference_aux (trashSize h : Nat) (hh : 0 < h) (len : Nat)
    (bs : List Bool) (k : Nat) (hk : k + bs.length = len) (g : xorshift128) (fuel : Nat)
    (hfuel : (bs.drop (h - k % h)).length ≤ fuel) :
    insertTrashRow trashSize h len bs k g =
      if bs.length ≤ h - k % h then (bs, g)
      else
        (bs.take (h - k % h) ++ (trashBits trashSize g).1 ++
            (insertTrashReference trashSize h fuel (bs.drop (h - k % h))
              (trashBits trashSize g).2).1,
          (insertTrashReference trashSize h fuel (bs.drop (h - k % h))
              (trashBits trashSize g).2).2) := by
  induction bs generalizing k g fuel with
  | nil => simp [insertTrashRow]
  | cons b bs ih =>
    have hkm : k % h < h := Nat.mod_lt _ hh
    simp only [List.length_cons] at hk
    rw [insertTrashRow_step]
    by_cases hc : (k + 1) % h = 0 ∧ k ≠ len - 1
    · rw [if_pos hc]
      obtain ⟨hc1, hc2⟩ := hc
      have hm : h - k % h = 1 := by
        rcases succ_mod_cases k h hh with ⟨_, h2, _⟩ | ⟨h1, _, _⟩ <;> omega
      have hbs : 0 < bs.length := by omega
      simp only [hm, List.drop_succ_cons, List.drop_zero] at hfuel
      have := ih (k + 1) (by omega) (trashBits trashSize g).2 (fuel - 1) (by
        rw [List.length_drop]; omega)
      rw [hc1, Nat.sub_zero] at this
      rw [hm, if_neg (by simp only [List.length_cons]; omega)]
      simp only [List.take_succ_cons, List.take_zero, List.drop_succ_cons, List.drop_zero]
      rw [insertTrashReference_unfold trashSize h fuel bs _ hfuel, this]
      rfl
    · rw [if_neg hc]
      rcases succ_mod_cases k h hh with ⟨h1, h2, _⟩ | ⟨h1, h2, _⟩
      · have hlast : k = len - 1 := by
          by_contra hne; exact hc ⟨h1, hne⟩
        have hbs : bs = [] := List.eq_nil_of_length_eq_zero (by omega)
        subst hbs
        rw [if_pos (by simp only [List.length_cons, List.length_nil]; omega)]
        simp [insertTrashRow]
      · obtain ⟨m, hm⟩ : ∃ m, h - k % h = m + 1 := ⟨h - k % h - 1, by omega⟩
        have hm2 : h - (k % h + 1) = m := by omega
        simp only [hm, List.drop_succ_cons] at hfuel
        have := ih (k + 1) (by omega) g fuel (by rw [h1, hm2]; exact hfuel)
        rw [h1, hm2] at this
        rw [this, hm]
        simp only [List.length_cons, Nat.add_le_add_iff_right, List.take_succ_cons,
          List.drop_succ_cons, List.cons_append]
        split <;> rfl

theorem insertTrashRow_eq_reference (trashSize h : Nat) (hh : 0 < h) (row : List Bool)
    (g : xorshift128) :
    insertTrashRow trashSize h row.length row 0 g =
      insertTrashReference trashSize h row.length row g := by
  have key := insertTrashRow_eq_reference_aux trashSize h hh row.length row 0 (by simp) g
    (row.length - 1) (by rw [List.length_drop, Nat.zero_mod]; omega)
  rw [Nat.zero_mod, Nat.sub_zero] at key
  rw [key, insertTrashReference_unfold trashSize h row.length row g (le_refl _)]

theorem trashBits_snd (m : Nat) (g : xorshift128) : (trashBits m g).2 = nextN m g := by
  induction m generalizing g with
  | zero => rfl
  | succ m ih =>
    show (trashBits m g.next.2).2 = nextN m g.next.2
    exact ih _

theorem trashBits_fst (m : Nat) (g : xorshift128) :
    (trashBits m g).1 = (outputs m g).map fun v => v % 2 == 1 := by
  induction m generalizing g with
  | zero => rfl
  | succ m ih =>
    show (g.next.1 % 2 == 1) :: (trashBits m g.next.2).1 = _
    rw [ih]
    rfl

theorem insertTrashRows_length (trashSize h : Nat) (rows : List (List Bool))
    (g : xorshift128) : (insertTrashRows trashSize h rows g).1.length = rows.length := by
  induction rows generalizing g with
  | nil => rfl
  | cons row rows ih => simp [insertTrashRows, ih]

theorem insertTrashRows_no_trash (trashSize h : Nat) (rows : List (List Bool))
    (hrows : ∀ r ∈ rows, r.length ≤ h) (hh : 0 < h) (g : xorshift128) :
    insertTrashRows trashSize h rows g = (rows, g) := by
  induction rows generalizing g with
  | nil => rfl
  | cons row rows ih =>
    have hrow := hrows row (List.mem_cons_self _ _)
    have e : insertTrashRow trashSize h row.length row 0 g = (row, g) := by
      rw [insertTrashRow_eq_reference trashSize h hh]
      cases hl : row.length with
      | zero =>
        have := List.eq_nil_of_length_eq_zero hl
        subst this; rfl
      | succ f => rw [insertTrashReference_succ, if_pos hrow]
    rw [insertTrashRows, e]
    simp only [ih (fun r hr => hrows r (List.mem_cons_of_mem _ hr))]

theorem generate2DBinaryCode_length (word : JSString) :
    (generate2DBinaryCode word).length = (codePointUnits word).length ∧
      ∀ r ∈ generate2DBinaryCode word, r.length = binType := by
  unfold generate2DBinaryCode
  refine ⟨by simp, ?_⟩
  intro r hr
  simp only [List.mem_map] at hr
  obtain ⟨c, _, rfl⟩ := hr
  simp

theorem insertTrashReference_snd (trashSize h : Nat) (hh : 0 < h) (fuel : Nat) :
    ∀ (row : List Bool) (g : xorshift128), row.length ≤ fuel →
      (insertTrashReference trashSize h fuel row g).2 =
        nextN (trashSize * ((row.length - 1) / h)) g := by
  induction fuel with
  | zero =>
    intro row g hfuel
    have hrow : row.length = 0 := by omega
    rw [insertTrashReference, hrow]
    simp [nextN]
  | succ fuel ih =>
    intro row g hfuel
    rw [insertTrashReference_succ]
    by_cases hle : row.length ≤ h
    · rw [if_pos hle]
      have : (row.length - 1) / h = 0 := Nat.div_eq_of_lt (by omega)
      rw [this]
      simp [nextN]
    · rw [if_neg hle]
      dsimp only
      rw [ih (row.drop h) _ (by rw [List.length_drop]; omega), trashBits_snd, ← nextN_add,
        List.length_drop]
      have : (row.length - 1) / h = (row.length - h - 1) / h + 1 := by
        have e : row.length - 1 = (row.length - h - 1) + h := by omega
        rw [e, Nat.add_div_right _ hh]
      rw [this, Nat.mul_add, Nat.mul_one, Nat.add_comm]

theorem insertTrashRows_rows (trashSize h : Nat) (hh : 0 < h) (rows : List (List Bool))
    (hrows : ∀ r ∈ rows, r.length = binType) (g : xorshift128) :
    (∀ i : Nat, (insertTrashRows trashSize h rows g).1[i]? =
      (rows[i]?).map fun row => (insertTrashReference trashSize h row.length row
        (nextN (i * (trashSize * ((binType - 1) / h))) g)).1) ∧
    (insertTrashRows trashSize h rows g).2 =
      nextN (rows.length * (trashSize * ((binType - 1) / h))) g := by
  induction rows generalizing g with
  | nil =>
    refine ⟨fun i => ?_, ?_⟩
    · simp [insertTrashRows]
    · simp [insertTrashRows, nextN]
  | cons row rows ih =>
    have hrow := hrows row (List.mem_cons_self _ _)
    have hg : (insertTrashRow trashSize h row.length row 0 g).2 =
        nextN (trashSize * ((binType - 1) / h)) g := by
      rw [insertTrashRow_eq_reference trashSize h hh,
        insertTrashReference_snd trashSize h hh row.length row g (le_refl _), hrow]
    obtain ⟨ih1, ih2⟩ := ih (fun r hr => hrows r (List.mem_cons_of_mem _ hr))
      (insertTrashRow trashSize h row.length row 0 g).2
    rw [hg] at ih1 ih2
    refine ⟨fun i => ?_, ?_⟩
    · cases i with
      | zero =>
        rw [insertTrashRows]
        simp only [List.getElem?_cons_zero, Option.map_some', Nat.zero_mul]
        rw [insertTrashRow_eq_reference trashSize h hh]
        rfl
      | succ i =>
        rw [insertTrashRows]
        simp only [List.getElem?_cons_succ]
        rw [hg, ih1 i]
        congr 1
        funext r
        rw [← nextN_add]
        congr 2
        rw [Nat.succ_mul, Nat.add_comm]
    · rw [insertTrashRows]
      dsimp only
      rw [hg, ih2, ← nextN_add, List.length_cons, Nat.succ_mul, Nat.add_comm]

end Crypt

/-! ## The draws of the chained cipher -/

namespace Crypt

theorem uncriptRLoop_criptRLoop_map {α : Type} (toNum : α → Int) (enc : Int → α)
    (htn : ∀ v : Int, isByte v → toNum (enc v) = v)
    (msg : JSString) (hmsg : ∀ c ∈ msg, c.val < 256) (prev : Int) (hprev : isByte prev)
    (g : xorshift128) :
    uncriptRLoop toNum ((criptRLoop msg prev g).1.map enc) prev g =
      (msg.map (fun c => (c.val : Int)), (criptRLoop msg prev g).2) := by
  induction msg generalizing prev g with
  | nil => simp [criptRLoop, uncriptRLoop]
  | cons c cs ih =>
    have hc : isByte (c.val : Int) := isByte_codeUnit c (hmsg c (List.mem_cons_self _ _))
    have hx : isByte (jsXor (c.val : Int) prev) := isByte_jsXor _ _ hc hprev
    have hrot : g.next.2.next.1 % binType < 8 := Nat.mod_lt _ (by decide)
    set kb := jsAnd (jsShrU (g.next.1 : Int) 0) 0xFF with hkb
    set tmp := jsXor (rotacionarDireita (jsXor (c.val : Int) prev)
      (g.next.2.next.1 % binType + 1)) kb with htmp
    have htmpb : isByte tmp :=
      isByte_jsXor _ _ (isByte_rotacionarDireita _ _) (isByte_jsAnd_255 _)
    have hstep : criptRLoop (c :: cs) prev g =
        (tmp :: (criptRLoop cs tmp g.next.2.next.2).1, (criptRLoop cs tmp g.next.2.next.2).2) := by
      rw [criptRLoop]
    rw [hstep]
    simp only [List.map_cons]
    rw [uncriptRLoop]
    rw [htn tmp htmpb, ih (fun d hd => hmsg d (List.mem_cons_of_mem _ hd)) tmp htmpb]
    simp only [Prod.mk.injEq, List.cons.injEq, and_true]
    rw [← hkb, htmp, jsXor_cancel,
      toInt32_of_isByte _ (isByte_rotacionarDireita _ _),
      rotacionarEsquerda_rotacionarDireita _ hx _ hrot, jsXor_cancel,
      toInt32_of_isByte _ hc]

theorem criptRLoop_draws (msg : JSString) (prev : Int) (g : xorshift128) :
    (criptRLoop msg prev g).2 = nextN (2 * msg.length) g := by
  induction msg generalizing prev g with
  | nil => rfl
  | cons c cs ih =>
    rw [criptRLoop]
    simp only [List.length_cons]
    rw [ih, show 2 * (cs.length + 1) = 2 * cs.length + 1 + 1 by ring]
    rfl

theorem criptR_draws (msg : JSString) (g : xorshift128) :
    (criptR msg g).2 = nextN (2 * msg.length + 1) g := by
  unfold criptR
  simp only [criptRLoop_draws]
  rfl

theorem criptR_length (msg : JSString) (g : xorshift128) :
    (criptR msg g).1.length = msg.length := by
  unfold criptR
  exact criptRLoop_length _ _ _

theorem uncriptR_criptR (msg : JSString) (hmsg : ∀ c ∈ msg, c.val < 256) (g : xorshift128) :
    uncriptR (fun v : Int => v) (criptR msg g).1 g =
      (msg.map (fun c => (c.val : Int)), nextN (2 * msg.length + 1) g) := by
  have h := uncriptRLoop_criptRLoop_map (fun v : Int => v) (fun v : Int => v)
    (fun _ _ => rfl) msg hmsg (jsAnd (g.next.1 : Int) 0xFF) (isByte_jsAnd_255 _) g.next.2
  rw [List.map_id'] at h
  unfold uncriptR criptR
  simp only
  rw [h, criptRLoop_draws]
  rfl

end Crypt

/-! ## The seeds read from the expanded hash -/

namespace Crypt

theorem substring_length (s : JSString) (i j : Nat) (h : j ≤ s.length) :
    (substring s i j).length = j - i := by
  unfold substring
  rw [List.length_take, List.length_drop]
  omega

theorem substring_mem (s : JSString) (i j : Nat) (c : CodeUnit) (h : c ∈ substring s i j) :
    c ∈ s := by
  unfold substring at h
  exact List.mem_of_mem_drop (List.mem_of_mem_take h)

theorem parseInt16_window (s : JSString) (hhex : ∀ c ∈ s, isHexChar c = true) (i : Nat)
    (h : i + 8 ≤ s.length) :
    parseInt16 (substring s i (i + 8)) = some (hexValue (substring s i (i + 8)) : Int) ∧
      hexValue (substring s i (i + 8)) < 4294967296 := by
  have hlen : (substring s i (i + 8)).length = 8 := by
    rw [substring_length s i (i + 8) h]; omega
  have hh : ∀ c ∈ substring s i (i + 8), isHexChar c = true :=
    fun c hc => hhex c (substring_mem s i _ c hc)
  refine ⟨parseInt16_of_hex _ ?_ hh, ?_⟩
  · intro e; rw [e] at hlen; simp at hlen
  · have := hexValue_lt _ hh
    rw [hlen] at this
    exact this

theorem windowSeeds_of_hex (hash : JSString) (hhex : ∀ c ∈ hash, isHexChar c = true)
    (a : Nat) (h : a + 32 ≤ hash.length) : WindowSeeds hash a := by
  have h0 := parseInt16_window hash hhex a (by omega)
  have h1 := parseInt16_window hash hhex (a + 8) (by omega)
  have h2 := parseInt16_window hash hhex (a + 16) (by omega)
  have h3 := parseInt16_window hash hhex (a + 24) (by omega)
  unfold WindowSeeds
  refine ⟨?_, h0.2, h1.2, h2.2, h3.2⟩
  unfold getSeedsByHex
  rw [substring_substring hash a (a + 32) 0 8 (by omega),
    substring_substring hash a (a + 32) 8 16 (by omega),
    substring_substring hash a (a + 32) 16 24 (by omega),
    substring_substring hash a (a + 32) 24 32 (by omega)]
  simp only [Nat.add_zero]
  rw [h0.1, h1.1, h2.1, h3.1]

theorem windowSeeds_gerarHash (str : JSString) :
    WindowSeeds (gerarHash str) 0 ∧ WindowSeeds (gerarHash str) 64 ∧
      WindowSeeds (gerarHash str) 128 ∧ WindowSeeds (gerarHash str) 192 := by
  have hl := gerarHash_length str
  have hh := gerarHash_hex str
  exact ⟨windowSeeds_of_hex _ hh 0 (by omega), windowSeeds_of_hex _ hh 64 (by omega),
    windowSeeds_of_hex _ hh 128 (by omega), windowSeeds_of_hex _ hh 192 (by omega)⟩

end Crypt

/-! ## The claims on the generator, the key schedule, the obfuscation and the chain -/

namespace Crypt

/-- C11. The step of the generator matches the reference: for every state, its words
read as 32-bit patterns (`ToUint32`, the identity on a word held unsigned), `next()`
leaves the state `(y, z, w, w')` and returns the value of the reference step, with
`w' = (w ^ (w >>> 19)) ^ (t ^ (t >>> 8))`, `t = (x ^ (x << 11)) mod 2^32` and the value
`m ^ (m >>> 16)` for `m = ((w' + z) * 0x2545F491) mod 2^32`; the value is below `2^32`;
seeded with `(1, 2, 3, 4)`, the first call returns `2214810899` (`0x84035513`) and leaves
the state `(2, 3, 4, 2061)`. -/
theorem next_matches_reference :
    (∀ g : xorshift128,
      g.next = ((nextReference (toUint32 g.x) (toUint32 g.y) (toUint32 g.z)
          (toUint32 g.w)).1,
        { x := g.y, y := g.z, z := g.w,
          w := ((nextReference (toUint32 g.x) (toUint32 g.y) (toUint32 g.z)
            (toUint32 g.w)).2.2.2.2 : Nat) })) ∧
    (∀ g : xorshift128, g.next.1 < 4294967296) ∧
    (∀ x y z w : Nat, (nextReference x y z w).2 =
      (y, z, w, (w ^^^ (w >>> 19)) ^^^
        (((x ^^^ (x <<< 11)) % 4294967296) ^^^ (((x ^^^ (x <<< 11)) % 4294967296) >>> 8)))) ∧
    (xorshift128.new (some 1) (some 2) (some 3) (some 4)).next =
      (2214810899, { x := 2, y := 3, z := 4, w := 2061 }) ∧
    (2214810899 : Nat) = 0x84035513 :=
  ⟨next_eq_reference, next_lt, fun _ _ _ _ => rfl, by decide, by decide⟩

/-- C12. Seeding never yields a zero word: for four seeds in `[0, 2^32)`, each word of
the constructed state is the fixed default of its position (`0xFFF212E`, `1234567`,
`0xF93242FF`, `0xFEAA2`, pairwise distinct) when its seed is `0` and is congruent modulo
`2^32` to its seed otherwise (equal to it for the first word); no word is `0`. -/
theorem seeding_never_zero (s1 s2 s3 s4 : Nat) (h1 : s1 < 4294967296) (h2 : s2 < 4294967296)
    (h3 : s3 < 4294967296) (h4 : s4 < 4294967296) :
    ((s1 = 0 → (xorshift128.new (some s1) (some s2) (some s3) (some s4)).x = 0xFFF212E) ∧
     (s1 ≠ 0 → (xorshift128.new (some s1) (some s2) (some s3) (some s4)).x = s1)) ∧
    ((s2 = 0 → (xorshift128.new (some s1) (some s2) (some s3) (some s4)).y = 1234567) ∧
     (s2 ≠ 0 →
      (xorshift128.new (some s1) (some s2) (some s3) (some s4)).y % 4294967296 = s2)) ∧
    ((s3 = 0 → (xorshift128.new (some s1) (some s2) (some s3) (some s4)).z = 0xF93242FF) ∧
     (s3 ≠ 0 →
      (xorshift128.new (some s1) (some s2) (some s3) (some s4)).z % 4294967296 = s3)) ∧
    ((s4 = 0 → (xorshift128.new (some s1) (some s2) (some s3) (some s4)).w = 0xFEAA2) ∧
     (s4 ≠ 0 →
      (xorshift128.new (some s1) (some s2) (some s3) (some s4)).w % 4294967296 = s4)) ∧
    ((xorshift128.new (some s1) (some s2) (some s3) (some s4)).x ≠ 0 ∧
     (xorshift128.new (some s1) (some s2) (some s3) (some s4)).y ≠ 0 ∧
     (xorshift128.new (some s1) (some s2) (some s3) (some s4)).z ≠ 0 ∧
     (xorshift128.new (some s1) (some s2) (some s3) (some s4)).w ≠ 0) ∧
    [(0xFFF212E : Nat), 1234567, 0xF93242FF, 0xFEAA2].Nodup := by
  obtain ⟨a, b, c, d, e⟩ := new_spec s1 s2 s3 s4 h1 h2 h3 h4
  exact ⟨a, b, c, d, e, by decide⟩

/-- C12, witness: the seeds `(0, 5, 0, 4294967295)`. -/
theorem seeding_never_zero_witness :
    ((0 : Nat) < 4294967296 ∧ (5 : Nat) < 4294967296 ∧ (4294967295 : Nat) < 4294967296) ∧
      (xorshift128.new (some (0 : Nat)) (some (5 : Nat)) (some (0 : Nat))
        (some (4294967295 : Nat))).w ≠ 0 :=
  ⟨by decide, (seeding_never_zero 0 5 0 4294967295 (by decide) (by decide) (by decide)
    (by decide)).2.2.2.2.1.2.2.2⟩

/-- C13. Parameter range: for every password and every salt string, the parameters
`trashing` and `trashSize` that `startXorGenerators` assigns are in `[1, 8]`. -/
theorem parameters_in_range (chave iv : JSString) :
    (1 ≤ (startXorGenerators chave iv).trashing ∧
      (startXorGenerators chave iv).trashing ≤ 8) ∧
    (1 ≤ (startXorGenerators chave iv).trashSize ∧
      (startXorGenerators chave iv).trashSize ≤ 8) :=
  ⟨startXorGenerators_trashing chave iv, startXorGenerators_trashSize chave iv⟩

/-- C14. Expanded hash shape: for every string, the empty one included, `gerarHash`
returns exactly 256 characters, each in `0-9a-f`: the 8-digit zero-padded hexadecimal
forms of the outputs number 51 to 82 (32 of them) of the generator seeded with
`gerarNumero(str)`, concatenated. -/
theorem gerarHash_shape (str : JSString) :
    (gerarHash str).length = 256 ∧ (∀ c ∈ gerarHash str, isHexChar c = true) ∧
    gerarHash str =
      ((((outputs 82 (seedGenerator ((gerarNumero str).map fun n => some (n : Int)))).drop
        50).map fun v => padStart 8 (chr 48) (natToString 16 v)).flatten) ∧
    ((outputs 82 (seedGenerator ((gerarNumero str).map fun n => some (n : Int)))).drop
      50).length = 32 := by
  refine ⟨gerarHash_length str, gerarHash_hex str, gerarHash_eq_outputs str, ?_⟩
  rw [List.length_drop, outputs_length]

/-- C15. Constant iteration count: the loop of `constantTimeCompare(a, b)` executes
exactly `length(a)` iterations (its only exit is the loop condition) and returns what
`constantTimeCompare` returns; so two calls whose first operands have the same length
execute the same number of iterations, wherever the strings differ. -/
theorem constant_iteration_count (rt : JSString → Int) (a b : JSString) :
    constantTimeCompareSteps rt a b = (constantTimeCompare rt a b, a.length) ∧
      ∀ a2 b2 : JSString, a2.length = a.length →
        (constantTimeCompareSteps rt a2 b2).2 = (constantTimeCompareSteps rt a b).2 := by
  refine ⟨constantTimeCompareSteps_spec rt a b, fun a2 b2 h => ?_⟩
  rw [constantTimeCompareSteps_spec, constantTimeCompareSteps_spec, h]

/-- C15, witness: `"ab"` against `"ab"`, and `"ab"` against `"xb"`. -/
theorem constant_iteration_count_witness :
    ([chr 97, chr 98] : JSString).length = ([chr 97, chr 98] : JSString).length ∧
      (constantTimeCompareSteps (fun _ => 0) [chr 97, chr 98] [chr 120, chr 98]).2 =
        (constantTimeCompareSteps (fun _ => 0) [chr 97, chr 98] [chr 97, chr 98]).2 :=
  ⟨rfl, (constant_iteration_count (fun _ => 0) [chr 97, chr 98] [chr 97, chr 98]).2
    [chr 97, chr 98] [chr 120, chr 98] rfl⟩

/-- C16. Modular exponentiation: for `x ≥ 0`, `n ≥ 0` and `m ≥ 2`, `modPow(x, n, m)`
(a total function: the recursion on `n` ends) is `x^n mod m`, a value in `[0, m)`; so
`modPow(modPow(g, a, m), b, m) = modPow(modPow(g, b, m), a, m)`, and with the prime and
the generator of the class two parties derive the same `mutualSecret`. -/
theorem modPow_correct (x n m : Nat) (hm : 2 ≤ m) :
    DiffieHellman.modPow x n m = x ^ n % m ∧ DiffieHellman.modPow x n m < m ∧
    (∀ g a b : Nat, DiffieHellman.modPow (DiffieHellman.modPow g a m) b m =
      DiffieHellman.modPow (DiffieHellman.modPow g b m) a m) ∧
    (∀ a b : Nat,
      DiffieHellman.mutualSecret a (DiffieHellman.generatePublicKey b) =
        DiffieHellman.mutualSecret b (DiffieHellman.generatePublicKey a)) := by
  refine ⟨modPow_eq m hm n x, ?_, fun g a b => modPow_comm g m a b hm, fun a b => ?_⟩
  · rw [modPow_eq m hm n x]
    exact Nat.mod_lt _ (by omega)
  · unfold DiffieHellman.mutualSecret DiffieHellman.generatePublicKey
    exact modPow_comm _ _ b a primo_ge

/-- C16, witness: `modPow(3, 4, 5)`. -/
theorem modPow_correct_witness :
    2 ≤ 5 ∧ DiffieHellman.modPow 3 4 5 = 3 ^ 4 % 5 :=
  ⟨by decide, (modPow_correct 3 4 5 (by decide)).1⟩

/-- C17. Key schedule windows: with `H = gerarHash(password + salt)`, a string of 256
hexadecimal characters, `startXorGenerators` seeds the trashing, rotation, size and
numbers generators from `H[0:32]`, `H[64:96]`, `H[128:160]` and `H[192:224]`, each read
as four words below `2^32` of 8 hexadecimal characters, in order; `getSeedsByHex(s)` is
`getSeedsByHex` of the first 32 characters of `s`; so no other character of `H` reaches a
generator: two hashes that agree on the four windows give the same generators and
parameters. -/
theorem key_schedule_windows :
    (∀ chave iv : JSString,
      startXorGenerators chave iv = startXorGeneratorsOfHash (gerarHash (chave ++ iv)) ∧
      (gerarHash (chave ++ iv)).length = 256 ∧
      WindowSeeds (gerarHash (chave ++ iv)) 0 ∧ WindowSeeds (gerarHash (chave ++ iv)) 64 ∧
      WindowSeeds (gerarHash (chave ++ iv)) 128 ∧
      WindowSeeds (gerarHash (chave ++ iv)) 192) ∧
    (∀ hash : JSString, startXorGeneratorsOfHash hash =
      { xor128Trashing := (seedGenerator (getSeedsByHex (substring hash 0 32))).next.2,
        trashing := (seedGenerator (getSeedsByHex (substring hash 0 32))).next.1 % 8 + 1,
        trashSize := (seedGenerator (getSeedsByHex (substring hash 128 160))).next.1 % 8 + 1,
        xor128Numbers := seedGenerator (getSeedsByHex (substring hash 192 224)),
        xor128Rotation := seedGenerator (getSeedsByHex (substring hash 64 96)),
        xor128Size := (seedGenerator (getSeedsByHex (substring hash 128 160))).next.2 }) ∧
    (∀ s : JSString, getSeedsByHex s = getSeedsByHex (s.take 32)) ∧
    (∀ hash hash2 : JSString, substring hash 0 32 = substring hash2 0 32 →
      substring hash 64 96 = substring hash2 64 96 →
      substring hash 128 160 = substring hash2 128 160 →
      substring hash 192 224 = substring hash2 192 224 →
      startXorGeneratorsOfHash hash = startXorGeneratorsOfHash hash2) :=
  ⟨fun _ _ => ⟨rfl, gerarHash_length _, windowSeeds_gerarHash _⟩,
    startXorGeneratorsOfHash_windows,
    fun s => (getSeedsByHex_take s 32 (le_refl _)).symm,
    startXorGeneratorsOfHash_congr⟩

/-- C17, witness: two strings of 33 characters that differ in the character of index 32
only. -/
theorem key_schedule_windows_witness :
    startXorGeneratorsOfHash (List.replicate 32 (chr 48) ++ [chr 97]) =
      startXorGeneratorsOfHash (List.replicate 32 (chr 48) ++ [chr 98]) :=
  key_schedule_windows.2.2.2 _ _ (by decide) (by decide) (by decide) (by decide)

/-- C18. Rows after trash insertion: for `h ≥ 1`, `insertTrash` returns one row per
character (per letter of `for (let letter of word)`; per code unit when the text has no
surrogate pair), every row has exactly `8 + trashSize * floor(7 / h)` bits, `removeTrash`
reads the 8 real bits back in order, and each row is what the reference procedure builds:
`trashSize` generator bits (the low bits of successive `next()` values) after every
`h`-th real bit and none after the last bit. The generator is threaded through the rows:
row number `i` of the result is the reference row built from the 8 bits of character `i`
with the generator as it is after the `i * trashSize * floor(7 / h)` draws of the rows
before it, and the generator handed back is the one after
`trashSize * floor(7 / h)` draws per row; for `"aaa"`, `h = 3`, `trashSize = 2` and the
seeds `(1, 2, 3, 4)` the three rows carry the low bits of the first twelve outputs. For
`h = 8` the rows are the plain 8-bit rows and the generator is not advanced. -/
theorem insertTrash_rows (trashSize h : Nat) (hh : 1 ≤ h) (text : JSString)
    (g : xorshift128) :
    (insertTrash trashSize text h g).1.length = (codePointUnits text).length ∧
    ((∀ c ∈ text, c.val < 0xD800) → (insertTrash trashSize text h g).1.length = text.length) ∧
    (∀ r ∈ (insertTrash trashSize text h g).1, r.length = 8 + trashSize * (7 / h)) ∧
    removeTrash trashSize (insertTrash trashSize text h g).1 h = generate2DBinaryCode text ∧
    (∀ (row : List Bool) (g2 : xorshift128),
      insertTrashRow trashSize h row.length row 0 g2 =
        insertTrashReference trashSize h row.length row g2) ∧
    (∀ (m : Nat) (g2 : xorshift128),
      trashBits m g2 = ((outputs m g2).map fun v => v % 2 == 1, nextN m g2)) ∧
    insertTrash trashSize text 8 g = (generate2DBinaryCode text, g) ∧
    (∀ i : Nat, (insertTrash trashSize text h g).1[i]? =
      ((generate2DBinaryCode text)[i]?).map fun row =>
        (insertTrashReference trashSize h row.length row
          (nextN (i * (trashSize * (7 / h))) g)).1) ∧
    (insertTrash trashSize text h g).2 =
      nextN ((codePointUnits text).length * (trashSize * (7 / h))) g ∧
    (insertTrash 2 [chr 97, chr 97, chr 97] 3
        (xorshift128.new (some 1) (some 2) (some 3) (some 4))).1 =
      [[false, true, true, true, true, false, false, false, false, true, false, true],
       [false, true, true, true, false, false, false, false, true, true, false, true],
       [false, true, true, false, false, false, false, false, true, true, false, true]] ∧
    (outputs 12 (xorshift128.new (some 1) (some 2) (some 3) (some 4))).map
        (fun v => v % 2 == 1) =
      [true, true, false, true, true, false, true, true, false, false, true, true] := by
  obtain ⟨hl, hr⟩ := generate2DBinaryCode_length text
  obtain ⟨hs1, hs2⟩ := insertTrashRows_spec trashSize h hh (generate2DBinaryCode text) hr g
  obtain ⟨ht1, ht2⟩ := insertTrashRows_rows trashSize h hh (generate2DBinaryCode text) hr g
  have hlen : (insertTrash trashSize text h g).1.length = (codePointUnits text).length := by
    unfold insertTrash
    rw [insertTrashRows_length, hl]
  refine ⟨hlen, fun ht => ?_, hs1, hs2, fun row g2 => insertTrashRow_eq_reference trashSize h hh
    row g2, fun m g2 => Prod.ext (trashBits_fst m g2) (trashBits_snd m g2), ?_, ht1, ?_,
    by decide, by decide⟩
  · rw [hlen, codePointUnits_of_lt text ht]
  · unfold insertTrash
    exact insertTrashRows_no_trash trashSize 8 _ (fun r hr2 => le_of_eq (hr r hr2))
      (by decide) g
  · unfold insertTrash
    rw [ht2, hl]
    rfl

/-- C18, witness: the text `"aaa"` with `h = 3`, `trashSize = 2` and the generator seeded
with `(1, 2, 3, 4)`: three rows of 12 bits, and the generator handed back has made 12
draws. -/
theorem insertTrash_rows_witness :
    1 ≤ 3 ∧
    (∀ r ∈ (insertTrash 2 [chr 97, chr 97, chr 97] 3
      (xorshift128.new (some 1) (some 2) (some 3) (some 4))).1, r.length = 8 + 2 * (7 / 3)) ∧
    (insertTrash 2 [chr 97, chr 97, chr 97] 3
        (xorshift128.new (some 1) (some 2) (some 3) (some 4))).2 =
      nextN ((codePointUnits [chr 97, chr 97, chr 97]).length * (2 * (7 / 3)))
        (xorshift128.new (some 1) (some 2) (some 3) (some 4)) :=
  ⟨by decide, (insertTrash_rows 2 3 (by decide) [chr 97, chr 97, chr 97]
    (xorshift128.new (some 1) (some 2) (some 3) (some 4))).2.2.1,
   (insertTrash_rows 2 3 (by decide) [chr 97, chr 97, chr 97]
    (xorshift128.new (some 1) (some 2) (some 3) (some 4))).2.2.2.2.2.2.2.2.1⟩

/-- C19. Obfuscation reverse path: for every text whose code units are at most 255, every
`h ≥ 1`, every `trashSize` and every generator state, hex-encoding the trashed bits and
decoding them recovers the text; the zero bits padded to a byte boundary give no extra
character and no real bit is lost. -/
theorem obfuscation_reverse (trashSize h : Nat) (hh : 1 ≤ h) (text : JSString)
    (htext : ∀ c ∈ text, c.val ≤ 255) (g : xorshift128) :
    bitsToCharCode (uncriptT trashSize
      (flatten (unHex (criptTrashToString (criptT trashSize text h g).1))) h) = text :=
  bitsToCharCode_uncriptT trashSize h hh text (fun c hc => Nat.lt_succ_of_le (htext c hc)) g

theorem ab_bytes : ∀ c ∈ ([chr 97, chr 98] : JSString), c.val ≤ 255 := by
  intro c hc
  simp only [List.mem_cons, List.mem_singleton, List.not_mem_nil, or_false] at hc
  rcases hc with rfl | rfl <;> decide

/-- C19, witness: the text `"ab"` with `h = 3`, `trashSize = 2` and the generator seeded
with `(1, 2, 3, 4)`. -/
theorem obfuscation_reverse_witness :
    1 ≤ 3 ∧ (∀ c ∈ ([chr 97, chr 98] : JSString), c.val ≤ 255) ∧
      bitsToCharCode (uncriptT 2 (flatten (unHex (criptTrashToString
        (criptT 2 [chr 97, chr 98] 3
          (xorshift128.new (some 1) (some 2) (some 3) (some 4))).1))) 3) =
        [chr 97, chr 98] :=
  ⟨by decide, ab_bytes, obfuscation_reverse 2 3 (by decide) [chr 97, chr 98] ab_bytes
    (xorshift128.new (some 1) (some 2) (some 3) (some 4))⟩

/-- C20. Chain cipher inverse: for every string `s` whose code units are at most 255 and
every generator state `g`, `criptR(s, g)` is a list of `length(s)` integers in `[0, 255]`
that consumes exactly `2 * length(s) + 1` draws, and `uncriptR` of that list with a
generator in the state `g` returns exactly the code units of `s` after the same draws;
`rotacionarEsquerda` undoes `rotacionarDireita` on a byte for every shift from 1 to 8. -/
theorem chain_cipher_inverse (s : JSString) (hs : ∀ c ∈ s, c.val ≤ 255) (g : xorshift128) :
    (criptR s g).1.length = s.length ∧ (∀ v ∈ (criptR s g).1, isByte v) ∧
    (criptR s g).2 = nextN (2 * s.length + 1) g ∧
    uncriptR (fun v : Int => v) (criptR s g).1 g =
      (s.map (fun c => (c.val : Int)), nextN (2 * s.length + 1) g) ∧
    (∀ (a : Int) (r : Nat), isByte a → 1 ≤ r → r ≤ 8 →
      rotacionarEsquerda (rotacionarDireita a r) r = a) := by
  refine ⟨criptR_length s g, criptR_bytes s g, criptR_draws s g,
    uncriptR_criptR s (fun c hc => Nat.lt_succ_of_le (hs c hc)) g, fun a r ha h1 h8 => ?_⟩
  obtain ⟨r', rfl⟩ : ∃ r', r = r' + 1 := ⟨r - 1, by omega⟩
  exact rotacionarEsquerda_rotacionarDireita a ha r' (by omega)

/-- C20, witness: the string `"ab"` and the generator seeded with `(1, 2, 3, 4)`. -/
theorem chain_cipher_inverse_witness :
    (∀ c ∈ ([chr 97, chr 98] : JSString), c.val ≤ 255) ∧
      uncriptR (fun v : Int => v)
        (criptR [chr 97, chr 98] (xorshift128.new (some 1) (some 2) (some 3) (some 4))).1
        (xorshift128.new (some 1) (some 2) (some 3) (some 4)) =
      (([chr 97, chr 98] : JSString).map (fun c => (c.val : Int)),
        nextN (2 * ([chr 97, chr 98] : JSString).length + 1)
          (xorshift128.new (some 1) (some 2) (some 3) (some 4))) :=
  ⟨ab_bytes, (chain_cipher_inverse [chr 97, chr 98] ab_bytes
    (xorshift128.new (some 1) (some 2) (some 3) (some 4))).2.2.2.1⟩

end Crypt

/-! ## The hasher and the specified procedure -/

namespace Crypt


theorem mask128 (a : Nat) :
    a &&& 0xFFFFFFFFFFFFFFFFFFFFFFFFFFFFFFFF = a % 2 ^ 128 :=
  Nat.and_pow_two_sub_one_eq_mod a 128

theorem gerarNumeroChar_eq (hash : Nat) (c : CodeUnit) :
    gerarNumeroChar hash c = mixCharReference hash c := by
  unfold gerarNumeroChar mixCharReference
  dsimp only
  rw [mask128]
  apply Nat.eq_of_testBit_eq
  intro i
  simp only [Nat.testBit_mod_two_pow, Nat.testBit_xor, Nat.testBit_shiftLeft,
    Nat.testBit_shiftRight]
  by_cases h : i < 128
  · have h2 : i - 13 < 128 := by omega
    simp only [h, h2, decide_True, Bool.true_and]
    rw [Bool.xor_comm (Nat.testBit _ (17 + i)), Bool.xor_comm (Nat.testBit _ (17 + (i - 13)))]
    rw [Bool.xor_comm]
  · simp [h]

theorem gerarNumeroRound_eq (str : JSString) (hash : Nat) :
    gerarNumeroRound str hash = mixRoundReference str hash := by
  have hf : gerarNumeroChar = mixCharReference := by
    funext a c
    exact gerarNumeroChar_eq a c
  unfold gerarNumeroRound mixRoundReference
  dsimp only
  rw [mask128, hf]

theorem gerarNumeroLoop_eq_reference (str : JSString) (j hash : Nat) :
    gerarNumeroLoop str j hash = mixReference str j hash := by
  induction j generalizing hash with
  | zero => rfl
  | succ j ih => rw [gerarNumeroLoop, mixReference, gerarNumeroRound_eq, ih]

theorem gerarNumeroIter_eq_words (iters : Nat) (str : JSString) :
    gerarNumeroIter iters str = digestWords (gerarNumeroDigest iters str) := by
  unfold gerarNumeroIter digestWords
  dsimp only
  rw [Nat.and_pow_two_sub_one_eq_mod _ 32, Nat.and_pow_two_sub_one_eq_mod _ 32,
    Nat.and_pow_two_sub_one_eq_mod _ 32, Nat.and_pow_two_sub_one_eq_mod _ 32,
    Nat.shiftRight_eq_div_pow, Nat.shiftRight_eq_div_pow, Nat.shiftRight_eq_div_pow]

theorem digestWords_lt (d : Nat) : ∀ w ∈ digestWords d, w < 2 ^ 32 := by
  intro w hw
  unfold digestWords at hw
  simp only [List.mem_cons, List.mem_singleton, List.not_mem_nil, or_false] at hw
  rcases hw with rfl | rfl | rfl | rfl <;> exact Nat.mod_lt _ (by decide)

theorem digestWords_sum (d : Nat) (hd : d < 2 ^ 128) :
    d = (digestWords d).getD 0 0 + 2 ^ 32 * (digestWords d).getD 1 0 +
      2 ^ 64 * (digestWords d).getD 2 0 + 2 ^ 96 * (digestWords d).getD 3 0 := by
  unfold digestWords
  simp only [List.getD_cons_zero, List.getD_cons_succ]
  omega

end Crypt

/-! ## The state transition of the generator is injective -/

namespace Crypt


theorem xorShiftRight_injective (k : Nat) (hk : 1 ≤ k) (a b : Nat)
    (h : a ^^^ (a >>> k) = b ^^^ (b >>> k)) : a = b := by
  have ha : a < 2 ^ (a + b) := lt_of_lt_of_le (Nat.lt_two_pow a)
    (Nat.pow_le_pow_right (by decide) (by omega))
  have hb : b < 2 ^ (a + b) := lt_of_lt_of_le (Nat.lt_two_pow b)
    (Nat.pow_le_pow_right (by decide) (by omega))
  have key : ∀ n i, a + b ≤ i + n → a.testBit i = b.testBit i := by
    intro n
    induction n with
    | zero =>
      intro i hi
      have h1 : a < 2 ^ i := lt_of_lt_of_le ha (Nat.pow_le_pow_right (by decide) (by omega))
      have h2 : b < 2 ^ i := lt_of_lt_of_le hb (Nat.pow_le_pow_right (by decide) (by omega))
      rw [Nat.testBit_lt_two_pow h1, Nat.testBit_lt_two_pow h2]
    | succ n ih =>
      intro i hi
      have hbit := congrArg (fun v => Nat.testBit v i) h
      simp only [Nat.testBit_xor, Nat.testBit_shiftRight] at hbit
      rw [ih (k + i) (by omega)] at hbit
      revert hbit
      cases a.testBit i <;> cases b.testBit i <;> cases b.testBit (k + i) <;> simp
  exact Nat.eq_of_testBit_eq fun i => key (a + b) i (by omega)

theorem xorShiftLeft_injective (k : Nat) (hk : 1 ≤ k) (n a b : Nat) (ha : a < 2 ^ n)
    (hb : b < 2 ^ n) (h : (a ^^^ (a <<< k)) % 2 ^ n = (b ^^^ (b <<< k)) % 2 ^ n) : a = b := by
  apply Nat.eq_of_testBit_eq
  intro i
  induction i using Nat.strong_induction_on with
  | _ i ih =>
    by_cases hi : i < n
    · have hbit := congrArg (fun v => Nat.testBit v i) h
      simp only [Nat.testBit_mod_two_pow, Nat.testBit_xor, Nat.testBit_shiftLeft, hi,
        decide_True, Bool.true_and] at hbit
      by_cases hki : k ≤ i
      · rw [ih (i - k) (by omega)] at hbit
        revert hbit
        cases a.testBit i <;> cases b.testBit i <;> cases b.testBit (i - k) <;> simp [hki]
      · revert hbit
        simp [hki]
    · have h1 : a < 2 ^ i := lt_of_lt_of_le ha (Nat.pow_le_pow_right (by decide) (by omega))
      have h2 : b < 2 ^ i := lt_of_lt_of_le hb (Nat.pow_le_pow_right (by decide) (by omega))
      rw [Nat.testBit_lt_two_pow h1, Nat.testBit_lt_two_pow h2]

theorem nextReference_state_injective (x y z w x2 y2 z2 w2 : Nat) (hx : x < 4294967296)
    (hx2 : x2 < 4294967296)
    (h : (nextReference x y z w).2 = (nextReference x2 y2 z2 w2).2) :
    x = x2 ∧ y = y2 ∧ z = z2 ∧ w = w2 := by
  unfold nextReference at h
  simp only [Prod.mk.injEq] at h
  obtain ⟨hy, hz, hw, hw2⟩ := h
  subst hw
  rw [Nat.xor_right_inj] at hw2
  have ht := xorShiftRight_injective 8 (by decide) _ _ hw2
  exact ⟨xorShiftLeft_injective 11 (by decide) 32 x x2 hx hx2 ht, hy, hz, rfl⟩

theorem shiftRight_le_self (a k : Nat) : a >>> k ≤ a := by
  rw [Nat.shiftRight_eq_div_pow]
  exact Nat.div_le_self _ _

theorem nextReference_state_lt (x y z w : Nat) (hw : w < 4294967296) :
    (nextReference x y z w).2.2.2.2 < 4294967296 := by
  unfold nextReference
  dsimp only
  have ht : (x ^^^ x <<< 11) % 4294967296 < 2 ^ 32 := Nat.mod_lt _ (by decide)
  have ht8 : ((x ^^^ x <<< 11) % 4294967296) >>> 8 < 2 ^ 32 :=
    lt_of_le_of_lt (shiftRight_le_self _ _) ht
  have hw19 : w >>> 19 < 2 ^ 32 := lt_of_le_of_lt (shiftRight_le_self _ _) hw
  have hw2 : w < 2 ^ 32 := hw
  exact Nat.xor_lt_two_pow (Nat.xor_lt_two_pow hw2 hw19) (Nat.xor_lt_two_pow ht ht8)

theorem next_words_injective (g1 g2 : xorshift128)
    (h : g1.next.2.words = g2.next.2.words) : g1.words = g2.words := by
  rw [next_eq_reference g1, next_eq_reference g2] at h
  unfold xorshift128.words at h
  simp only [Prod.mk.injEq, Fin.mk.injEq] at h
  obtain ⟨hy, hz, hw, hw2⟩ := h
  rw [toUint32_natCast, toUint32_natCast,
    Nat.mod_eq_of_lt (nextReference_state_lt _ _ _ _ (toUint32_lt g1.w)),
    Nat.mod_eq_of_lt (nextReference_state_lt _ _ _ _ (toUint32_lt g2.w))] at hw2
  have hinj := nextReference_state_injective (toUint32 g1.x) (toUint32 g1.y) (toUint32 g1.z)
    (toUint32 g1.w) (toUint32 g2.x) (toUint32 g2.y) (toUint32 g2.z) (toUint32 g2.w)
    (toUint32_lt _) (toUint32_lt _) (by
      unfold nextReference
      unfold nextReference at hw2
      simp only [Prod.mk.injEq]
      exact ⟨hy, hz, hw, hw2⟩)
  unfold xorshift128.words
  simp only [Prod.mk.injEq, Fin.mk.injEq]
  exact hinj

theorem words_ofWords (s : Word × Word × Word × Word) : (xorshift128.ofWords s).words = s := by
  obtain ⟨a, b, c, d⟩ := s
  unfold xorshift128.words xorshift128.ofWords
  simp only [Prod.mk.injEq]
  refine ⟨Fin.ext ?_, Fin.ext ?_, Fin.ext ?_, Fin.ext ?_⟩ <;>
    simp only [toUint32_natCast] <;> exact Nat.mod_eq_of_lt (Fin.is_lt _)

theorem nextWords_injective : Function.Injective nextWords := by
  intro s t h
  unfold nextWords at h
  have := next_words_injective _ _ h
  rwa [words_ofWords, words_ofWords] at this

theorem nextWords_bijective : Function.Bijective nextWords :=
  ⟨nextWords_injective, Finite.injective_iff_surjective.mp nextWords_injective⟩

theorem next_zero :
    ({ x := 0, y := 0, z := 0, w := 0 } : xorshift128).next =
      (0, { x := 0, y := 0, z := 0, w := 0 }) := by decide

theorem nextWords_zero : nextWords (0, 0, 0, 0) = (0, 0, 0, 0) := by decide

theorem nextWords_words (g : xorshift128) : nextWords g.words = g.next.2.words := by
  unfold nextWords
  have h1 := next_eq_reference (xorshift128.ofWords g.words)
  have h2 := next_eq_reference g
  rw [h1, h2]
  unfold xorshift128.words xorshift128.ofWords
  simp only [toUint32_natCast, Nat.mod_eq_of_lt (toUint32_lt _)]

end Crypt

/-! ## Replacing the salt of an envelope -/

namespace Crypt

theorem descriptografar_any_salt (rt : JSString → Int) (self : CriptoBitwise)
    (chave c s : JSString) (hc : chr 45 ∉ c) :
    (descriptografar rt self (c ++ chr 45 :: (gerarMAC c chave ++ chr 45 :: s)) chave).1 =
      Except.ok (uncriptAll rt
        (startXorGenerators chave ((split (chr 45) s).headD [])) c).1 := by
  obtain ⟨f, rest, hf⟩ := List.exists_cons_of_ne_nil (split_ne_nil (chr 45) s)
  have hsplit : split (chr 45) (c ++ chr 45 :: (gerarMAC c chave ++ chr 45 :: s)) =
      c :: gerarMAC c chave :: f :: rest := by
    rw [split_append_sep _ _ _ hc,
      split_append_sep _ _ _ (not_mem_of_hex _ dash_not_hex _ (gerarMAC_hex _ _)), hf]
  rw [descriptografar_accept rt self _ chave c f rest hsplit, hf]
  rfl

theorem criptAll_no_dash (g : Geradores) (msg : JSString) : chr 45 ∉ (criptAll g msg).1 :=
  not_mem_of_hex _ dash_not_hex _ (criptAll_hex g msg).1

end Crypt

/-! ## The claims on the hasher, the round trip, the salt and the state transition -/

namespace Crypt

/-- C21. Hasher masking: for every string and every number of outer iterations, the
digest of `gerarNumero`, which masks to 128 bits once per character, after both
XOR-shift steps on the untruncated product, equals the digest of the specified procedure,
which masks after each of the two steps (right-shift-17, then left-shift-13); this holds
from every initial state and for each character step alone. The digest is below `2^128`,
and the four seeds returned are its four 32-bit words from low to high, each in
`[0, 2^32)`. -/
theorem gerarNumero_masking (iters : Nat) (str : JSString) :
    gerarNumeroDigest iters str = mixReference str iters 0x811c9dc5 ∧
    (∀ state : Nat, gerarNumeroLoop str iters state = mixReference str iters state) ∧
    (∀ (state : Nat) (c : CodeUnit), gerarNumeroChar state c = mixCharReference state c) ∧
    gerarNumeroDigest iters str < 2 ^ 128 ∧
    gerarNumeroIter iters str = digestWords (mixReference str iters 0x811c9dc5) ∧
    (∀ w ∈ gerarNumeroIter iters str, w < 2 ^ 32) ∧
    gerarNumeroDigest iters str =
      (gerarNumeroIter iters str).getD 0 0 + 2 ^ 32 * (gerarNumeroIter iters str).getD 1 0 +
        2 ^ 64 * (gerarNumeroIter iters str).getD 2 0 +
        2 ^ 96 * (gerarNumeroIter iters str).getD 3 0 ∧
    gerarNumero str = digestWords (mixReference str 100000 0x811c9dc5) := by
  have hd : gerarNumeroDigest iters str = mixReference str iters 0x811c9dc5 :=
    gerarNumeroLoop_eq_reference str iters _
  refine ⟨hd, gerarNumeroLoop_eq_reference str iters, gerarNumeroChar_eq,
    gerarNumeroDigest_lt iters str, ?_, ?_, ?_, ?_⟩
  · rw [gerarNumeroIter_eq_words, hd]
  · rw [gerarNumeroIter_eq_words]
    exact digestWords_lt _
  · rw [gerarNumeroIter_eq_words]
    exact digestWords_sum _ (gerarNumeroDigest_lt iters str)
  · unfold gerarNumero
    rw [gerarNumeroIter_eq_words]
    exact congrArg digestWords (gerarNumeroLoop_eq_reference str 100000 _)

/-- C22. Round trip on 8-bit messages: for every message whose code units are all at most
255, every password and every salt `criptografar` may draw,
`descriptografar(criptografar(message, password), password)` returns `message`; and for
every message whatsoever it returns a string whose code units are all at most 255. -/
theorem roundtrip_8bit (rt : JSString → Int) (self self2 : CriptoBitwise)
    (message chave : JSString) (rnd : Nat → Fin 256) :
    ((∀ c ∈ message, c.val ≤ 255) →
      (descriptografar rt self2 (criptografar self message chave rnd).1 chave).1 =
        Except.ok message) ∧
    ∃ out : JSString,
      (descriptografar rt self2 (criptografar self message chave rnd).1 chave).1 =
        Except.ok out ∧ ∀ c ∈ out, c.val ≤ 255 := by
  refine ⟨roundtrip_bytes rt self self2 message chave rnd, ?_⟩
  obtain ⟨out, hout, hb⟩ := roundtrip_result_bytes rt self self2 message chave rnd
  exact ⟨out, hout, fun c hc => Nat.le_of_lt_succ (hb c hc)⟩

/-- C22, witness: the message `"ab"` under the password `"k"`, all random bytes 7. -/
theorem roundtrip_8bit_witness :
    (∀ c ∈ ([chr 97, chr 98] : JSString), c.val ≤ 255) ∧
      (descriptografar (fun _ => 0) CriptoBitwise.new
        (criptografar CriptoBitwise.new [chr 97, chr 98] [chr 107] (fun _ => 7)).1
        [chr 107]).1 = Except.ok [chr 97, chr 98] :=
  ⟨ab_bytes, (roundtrip_8bit (fun _ => 0) CriptoBitwise.new CriptoBitwise.new
    [chr 97, chr 98] [chr 107] (fun _ => 7)).1 ab_bytes⟩

/-- C23. The tag does not cover the salt: `gerarMAC(c, password)` is computed from the
ciphertext field and the password alone, so for every password, every ciphertext string
`c` (a string that can be the first field of the envelope: one without `-`, as every
string `criptAll` returns is) and every two salt strings `s` and `s2`, `descriptografar`
of `c-gerarMAC(c, password)-s` and of `c-gerarMAC(c, password)-s2` both pass the
comparison of the tags and both return a string, what `uncriptAll` decodes from `c` under
the generators of the salt given (its part before a `-`, if it has one); in particular
the envelope of `criptografar` with its salt replaced by any string is not rejected. -/
theorem salt_not_covered (rt : JSString → Int) (self self2 : CriptoBitwise)
    (chave c s s2 : JSString) (hc : chr 45 ∉ c) :
    constantTimeCompare rt (gerarMAC c chave) (gerarMAC c chave) = true ∧
    (descriptografar rt self (c ++ chr 45 :: (gerarMAC c chave ++ chr 45 :: s)) chave).1 =
      Except.ok (uncriptAll rt
        (startXorGenerators chave ((split (chr 45) s).headD [])) c).1 ∧
    (descriptografar rt self2 (c ++ chr 45 :: (gerarMAC c chave ++ chr 45 :: s2)) chave).1 =
      Except.ok (uncriptAll rt
        (startXorGenerators chave ((split (chr 45) s2).headD [])) c).1 ∧
    (chr 45 ∉ s → (split (chr 45) s).headD [] = s) ∧
    (∀ (g : Geradores) (msg : JSString), chr 45 ∉ (criptAll g msg).1) ∧
    (∀ (self0 : CriptoBitwise) (message : JSString) (rnd : Nat → Fin 256),
      ∃ c0 out : JSString,
        (criptografar self0 message chave rnd).1 =
          c0 ++ chr 45 :: (gerarMAC c0 chave ++ chr 45 :: salt rnd) ∧
        (descriptografar rt self (c0 ++ chr 45 :: (gerarMAC c0 chave ++ chr 45 :: s)) chave).1 =
          Except.ok out) := by
  refine ⟨(constantTimeCompare_eq_true_iff rt _ _).mpr rfl,
    descriptografar_any_salt rt self chave c s hc,
    descriptografar_any_salt rt self2 chave c s2 hc, fun hs => ?_, criptAll_no_dash,
    fun self0 message rnd => ⟨_, _, criptografar_fst self0 message chave rnd,
      descriptografar_any_salt rt self chave _ s (criptAll_no_dash _ _)⟩⟩
  rw [split_of_not_mem _ _ hs]
  rfl

/-- C23, witness: the ciphertext field `"z"` under the empty password, with the salts
`""` and `"a"`. -/
theorem salt_not_covered_witness :
    chr 45 ∉ ([chr 122] : JSString) ∧
      (descriptografar (fun _ => 0) CriptoBitwise.new
        ([chr 122] ++ chr 45 :: (gerarMAC [chr 122] [] ++ chr 45 :: [chr 97])) []).1 =
        Except.ok (uncriptAll (fun _ => 0)
          (startXorGenerators [] ((split (chr 45) [chr 97]).headD [])) [chr 122]).1 :=
  ⟨by decide, (salt_not_covered (fun _ => 0) CriptoBitwise.new CriptoBitwise.new []
    [chr 122] [] [chr 97] (by decide)).2.2.1⟩

/-- C24. The state update of the generator is a permutation: with the state viewed as
four words modulo `2^32`, two states that `next()` takes to the same state are the same
state, so the transition on 128-bit states is injective, and bijective on that finite
set; the all-zero state is a fixed point and its output is `0`. -/
theorem next_permutation :
    (∀ g1 g2 : xorshift128, g1.next.2.words = g2.next.2.words → g1.words = g2.words) ∧
    (∀ g : xorshift128, nextWords g.words = g.next.2.words) ∧
    Function.Injective nextWords ∧ Function.Bijective nextWords ∧
    ({ x := 0, y := 0, z := 0, w := 0 } : xorshift128).next =
      (0, { x := 0, y := 0, z := 0, w := 0 }) ∧
    nextWords (0, 0, 0, 0) = (0, 0, 0, 0) :=
  ⟨next_words_injective, nextWords_words, nextWords_injective, nextWords_bijective,
    next_zero, nextWords_zero⟩

/-- C24, witness: the states `(1, 2, 3, 4)` and `(1 + 2^32, 2, 3, 4 - 2^32)`, the same
state modulo `2^32`. -/
theorem next_permutation_witness :
    (({ x := 1, y := 2, z := 3, w := 4 } : xorshift128).next.2.words =
      ({ x := 4294967297, y := 2, z := 3, w := -4294967292 } : xorshift128).next.2.words) ∧
    ({ x := 1, y := 2, z := 3, w := 4 } : xorshift128).words =
      ({ x := 4294967297, y := 2, z := 3, w := -4294967292 } : xorshift128).words :=
  ⟨by decide, next_permutation.1 _ _ (by decide)⟩

end Crypt
